import Mathlib

/-!
# XenLoop map table (`maptable.c`)

A shallow embedding of the dual-keyed connection registry of XenLoop and the
properties claimed of it.

## Data model

* Entries live in a slab (`Mem.entry`), addressed by pointers (`Ptr`).  The MAC
  table and the IP table both hold *pointers*: the C code links one `Entry`
  into the MAC table through its `mapping` node and into the IP table through
  its `ip_mapping` node, so a write through one table is seen through the other.
* A bucket (`struct list_head bucket`) is the list of the entries linked in it,
  head first.  `list_add` puts a node right after the head (the front of the
  list), `list_del` takes a node out, `list_for_each` walks from the front.
  This reading of the kernel list is exact as long as a node sits on at most
  one list at one position; `list_add` of a node that is already linked leaves
  a chain that is no longer a list, and has no result here (`none`).
* `jiffies`, the result of `kmem_cache_alloc`, and the constants of the headers
  that are not part of the sources (`XENLOOP_HASH_SIZE`, `DISCOVER_TIMEOUT`,
  `HZ`, the width of `unsigned long`) are parameters.
* Calls into the channel layer, the timer, the allocator and the wait queue are
  recorded in `Mem.log`.
-/

namespace XenLoop

/-- An `Entry *` (or a `struct bf_handle *`); a null pointer is `none : Option Ptr`. -/
abbrev Ptr := Nat

/-- The six bytes of `u8 mac[ETH_ALEN]`. -/
structure Mac where
  b0 : Fin 256
  b1 : Fin 256
  b2 : Fin 256
  b3 : Fin 256
  b4 : Fin 256
  b5 : Fin 256
deriving DecidableEq, Repr

/-- Length of a hardware address. -/
def ETH_ALEN : Nat := 6

/-- The bytes of an address in memory order. -/
def Mac.bytes (m : Mac) : List (Fin 256) := [m.b0, m.b1, m.b2, m.b3, m.b4, m.b5]

/-- C `memcmp` on the first `n` bytes: zero when they agree, otherwise the
difference of the first pair of bytes that differ. -/
def memcmp : List (Fin 256) → List (Fin 256) → Nat → Int
  | _, _, 0 => 0
  | x :: xs, y :: ys, n + 1 => if x = y then memcmp xs ys n else (x.val : Int) - (y.val : Int)
  | _, _, _ + 1 => 0

/-- Modelled from the spec: the `status` field, whose constants
`XENLOOP_STATUS_INIT` and `XENLOOP_STATUS_SUSPEND` are declared in the absent
header `maptable.h`.  The spec gives the two states owned by this file and
says the field also stores states of the channel-establishment code, which are
`other` here. -/
inductive Status where
  | XENLOOP_STATUS_INIT
  | XENLOOP_STATUS_SUSPEND
  | other (code : Nat)
deriving DecidableEq, Repr

export Status (XENLOOP_STATUS_INIT XENLOOP_STATUS_SUSPEND)

/-- The fields of `struct Entry` that `maptable.c` reads or writes.  The two
list nodes `mapping` and `ip_mapping` are represented by the position of the
entry's pointer in the buckets of the two tables. -/
structure Entry where
  mac : Mac
  domid : Nat
  ip : Nat
  timestamp : Nat
  status : Status
  listen_flag : Nat
  retry_count : Nat
  bfh : Option Ptr
  del_timer : Nat
deriving DecidableEq, Repr

/-- Modelled from the spec: the part of a channel object (`struct bf_handle`,
declared in the absent `bififo.h`) that this file touches: the event port, the
size of the outbound queue (`xf_size(bfh->out)`), the two suspend flags
(`BF_SUSPEND_IN`, `BF_SUSPEND_OUT`) and whether the channel is live, which is
what `check_descriptor` reports. -/
structure bf_handle where
  port : Nat
  out : Nat
  suspend_in : Nat
  suspend_out : Nat
  descriptor : Bool
deriving DecidableEq, Repr

/-- Calls that leave this file. -/
inductive Event where
  | bf_destroy (bfh : Ptr)
  | bf_disconnect (bfh : Ptr)
  | del_timer (e : Ptr)
  | kmem_cache_free (e : Ptr)
  | kmem_cache_destroy
  | bf_notify (port : Nat)
  | wake_up_interruptible
deriving DecidableEq, Repr

/-- Memory outside the two tables: the slab of entries, which slab objects are
allocated, the channel objects, and the record of outgoing calls.  Freed
objects keep their bytes (`kmem_cache_free` does not clear them). -/
structure Mem where
  entry : Ptr → Entry
  live : Ptr → Bool
  bf : Ptr → bf_handle
  log : List Event

/-- The fields `count` and `table` of `struct HashTable`; bucket `i` is
`table i` for `i < XENLOOP_HASH_SIZE`. -/
structure HashTable where
  count : Int
  table : Nat → List Ptr

/-- Store to the fields of `*e`. -/
def Mem.setEntry (m : Mem) (e : Ptr) (v : Entry) : Mem :=
  { m with entry := fun p => if p = e then v else m.entry p }

/-- Mark a slab object allocated or free. -/
def Mem.setLive (m : Mem) (e : Ptr) (b : Bool) : Mem :=
  { m with live := fun p => if p = e then b else m.live p }

/-- Record an outgoing call. -/
def Mem.emit (m : Mem) (ev : Event) : Mem :=
  { m with log := m.log ++ [ev] }

/-- Modelled from the spec: `check_descriptor` (absent `bififo.h`),
"is_live(channel)": false for a null handle. -/
def check_descriptor (m : Mem) (bfh : Option Ptr) : Bool :=
  match bfh with
  | none => false
  | some b => (m.bf b).descriptor

/-- The two stores `BF_SUSPEND_IN(bfh) = 1; BF_SUSPEND_OUT(bfh) = 1;`. -/
def bf_suspend (m : Mem) (bfh : Option Ptr) : Mem :=
  match bfh with
  | none => m
  | some b =>
    { m with bf := fun p => if p = b then { m.bf b with suspend_in := 1, suspend_out := 1 } else m.bf p }

/-- A node is linked when it sits in one of the buckets of the table. -/
def linked (N : Nat) (table : Nat → List Ptr) (x : Ptr) : Prop :=
  ∃ i, i < N ∧ x ∈ table i

instance (N : Nat) (table : Nat → List Ptr) (x : Ptr) : Decidable (linked N table x) := by
  unfold linked; infer_instance

/-- Kernel `list_add(new, head)`: the node goes to the front of bucket `i`.
A node that is already linked has no place in the result. -/
def list_add (N : Nat) (x : Ptr) (i : Nat) (table : Nat → List Ptr) : Option (Nat → List Ptr) :=
  if linked N table x then none
  else some (fun j => if j = i then x :: table j else table j)

/-- Kernel `list_del(x)`: the node leaves the list it is on, so that no bucket
holds it afterwards. -/
def list_del (x : Ptr) (table : Nat → List Ptr) : Nat → List Ptr :=
  fun j => (table j).filter (fun p => decide (p ≠ x))

/-- `hash`: the last three bytes, modulo the table size. -/
def hash (N : Nat) (pmac : Mac) : Nat :=
  (pmac.b3.val + pmac.b4.val + pmac.b5.val) % N

/-- `equal`: 1 when the two addresses agree on `ETH_ALEN` bytes, else 0. -/
def equal (pmac1 pmac2 : Mac) : Nat :=
  if memcmp pmac1.bytes pmac2.bytes ETH_ALEN = 0 then 1 else 0

/-- `hash_ip`. -/
def hash_ip (N : Nat) (ip : Nat) : Nat := ip % N

/-- `equal_ip`. -/
def equal_ip (ip1 ip2 : Nat) : Nat := if ip1 = ip2 then 1 else 0

/-- `insert_table`.  `alloc` is what `kmem_cache_alloc` returned; a null
result trips `BUG_ON(!e)`. -/
def insert_table (N : Nat) (m : Mem) (ht : HashTable) (key : Mac) (domid : Nat)
    (jiffies : Nat) (alloc : Option Ptr) : Option (Mem × HashTable) :=
  match alloc with
  | none => none
  | some e =>
    let v : Entry :=
      { mac := key, domid := domid, timestamp := jiffies, del_timer := 0,
        status := XENLOOP_STATUS_INIT, listen_flag := 0xff, bfh := none,
        retry_count := 0, ip := 0 }
    match list_add N e (hash N key) ht.table with
    | none => none
    | some t => some ((m.setEntry e v).setLive e true, { count := ht.count + 1, table := t })

/-- `insert_table_ip`: stores `ip` in the entry and links its `ip_mapping`
node; a null `e` trips `BUG_ON(!e)`. -/
def insert_table_ip (N : Nat) (m : Mem) (ht : HashTable) (ip : Nat) (e : Option Ptr) :
    Option (Mem × HashTable) :=
  match e with
  | none => none
  | some e =>
    let m1 := m.setEntry e { m.entry e with ip := ip }
    match list_add N e (hash_ip N ip) ht.table with
    | none => none
    | some t => some (m1, { count := ht.count + 1, table := t })

/-- `remove_entry(ht, e, x)` with `x` the `mapping` node of `e`, as at every
call in the file. -/
def remove_entry (m : Mem) (ht : HashTable) (e : Ptr) : Mem × HashTable :=
  let ht1 : HashTable := { count := ht.count - 1, table := list_del e ht.table }
  let m1 := m.setEntry e { m.entry e with status := XENLOOP_STATUS_INIT }
  let m2 :=
    match (m1.entry e).bfh with
    | some b =>
      let m1a := if (m1.entry e).listen_flag ≠ 0 then m1.emit (Event.bf_destroy b)
                 else m1.emit (Event.bf_disconnect b)
      m1a.setEntry e { m1a.entry e with bfh := none }
    | none => m1
  let m3 := if (m2.entry e).del_timer ≠ 0 then m2.emit (Event.del_timer e) else m2
  ((m3.setLive e false).emit (Event.kmem_cache_free e), ht1)

/-- `remove_entry_mac`: the first entry of bucket `hash(mac)` with that
address is removed. -/
def remove_entry_mac (N : Nat) (m : Mem) (ht : HashTable) (mac : Mac) : Mem × HashTable :=
  match (ht.table (hash N mac)).find? (fun e => decide (equal mac (m.entry e).mac ≠ 0)) with
  | some e => remove_entry m ht e
  | none => (m, ht)

/-- `remove_entry_ip`: the first reference of bucket `hash_ip(ip)` whose entry
has that ip is unlinked and the entry's ip is cleared. -/
def remove_entry_ip (N : Nat) (m : Mem) (ht : HashTable) (ip : Nat) : Mem × HashTable :=
  match (ht.table (hash_ip N ip)).find? (fun e => decide (ip = (m.entry e).ip)) with
  | some e =>
    (m.setEntry e { m.entry e with ip := 0 },
     { count := ht.count - 1, table := list_del e ht.table })
  | none => (m, ht)

/-- First hit of a scan over buckets `i, i+1, ..` (`k` of them). -/
def scan_find (table : Nat → List Ptr) (p : Ptr → Bool) : Nat → Nat → Option Ptr
  | _, 0 => none
  | i, k + 1 =>
    match (table i).find? p with
    | some e => some e
    | none => scan_find table p (i + 1) k

/-- `lookup_bfh`. -/
def lookup_bfh (N : Nat) (m : Mem) (ht : HashTable) (key : Option Ptr) : Option Ptr :=
  scan_find ht.table (fun e => decide (key = (m.entry e).bfh)) 0 N

/-- `lookup_table`. -/
def lookup_table (N : Nat) (m : Mem) (ht : HashTable) (key : Mac) : Option Ptr :=
  (ht.table (hash N key)).find? (fun e => decide (equal key (m.entry e).mac ≠ 0))

/-- `lookup_table_ip`. -/
def lookup_table_ip (N : Nat) (m : Mem) (ht : HashTable) (ip : Nat) : Option Ptr :=
  (ht.table (hash_ip N ip)).find? (fun e => decide ((m.entry e).ip = ip))

/-- `has_suspend_entry`. -/
def has_suspend_entry (N : Nat) (m : Mem) (ht : HashTable) : Nat :=
  match scan_find ht.table (fun e => decide ((m.entry e).status = XENLOOP_STATUS_SUSPEND)) 0 N with
  | some _ => 1
  | none => 0

/-- The loop nest
`for (i = 0; i < XENLOOP_HASH_SIZE; i++) list_for_each_safe(x, y, &table[i].bucket) body`:
bucket `i` is read when the outer loop reaches it, and the walk of a bucket
follows the chain as it was then (the body unlinks at most the node it is at). -/
def for_each_entry {σ : Type} (N : Nat) (table_of : σ → Nat → List Ptr)
    (body : σ → Ptr → σ) (s : σ) : σ :=
  (List.range N).foldl (fun s i => (table_of s i).foldl body s) s

/-- Body of the loop of `mark_suspend`. -/
def mark_suspend_body (m : Mem) (e : Ptr) : Mem :=
  let m1 :=
    if check_descriptor m (m.entry e).bfh then
      match (m.entry e).bfh with
      | some b => (bf_suspend m (some b)).emit (Event.bf_notify (m.bf b).port)
      | none => m
    else m
  m1.setEntry e { m1.entry e with status := XENLOOP_STATUS_SUSPEND }

/-- `mark_suspend`. -/
def mark_suspend (N : Nat) (m : Mem) (ht : HashTable) : Mem × HashTable :=
  for_each_entry N (fun s => s.2.table) (fun s e => (mark_suspend_body s.1 e, s.2)) (m, ht)

/-- The two `struct list_head` members of `Entry`.  `insert_table` links an
entry into a bucket by its `mapping` member, `insert_table_ip` by its
`ip_mapping` member, so the nodes in the buckets of the MAC table are `mapping`
members and those of the IP table are `ip_mapping` members. -/
inductive Member
  | mapping
  | ip_mapping
  deriving DecidableEq

/-- The value of `e->bfh` after `e = list_entry(x, Entry, ip_mapping)`, where
`x` is the node in a bucket of the entry at `p` and the buckets link the member
`linked` of their entries.  `list_entry` subtracts the offset of `ip_mapping`
from `x`.  When `x` is the `ip_mapping` member of `p` the result is `p` and the
read is the `bfh` field of `p`.  When `x` is the `mapping` member of `p` the
result is `p` moved by the distance between the two members, which is not the
address of an entry, and the read is from another place than the `bfh` field of
`p`.  The layout of `Entry` is in the absent `maptable.h`, so what that place
holds is the parameter `stray p`; `notify_all_bfs` stores nothing, so it is the
same for the whole scan. -/
def list_entry_ip_mapping_bfh (linked : Member) (stray : Ptr → Option Ptr) (m : Mem)
    (p : Ptr) : Option Ptr :=
  match linked with
  | Member.ip_mapping => (m.entry p).bfh
  | Member.mapping => stray p

/-- Body of the loop of `notify_all_bfs` at the node of the entry `p`. -/
def notify_all_bfs_body (linked : Member) (stray : Ptr → Option Ptr) (m : Mem) (p : Ptr) : Mem :=
  match list_entry_ip_mapping_bfh linked stray m p with
  | some b =>
    if check_descriptor m (some b) && decide ((m.bf b).out > 0) then
      m.emit (Event.bf_notify (m.bf b).port)
    else m
  | none => m

/-- `notify_all_bfs` on a table whose buckets link the member `linked` of their
entries.  The loop recovers the entry with `list_entry(x, Entry, ip_mapping)`
whatever the table is. -/
def notify_all_bfs (N : Nat) (linked : Member) (stray : Ptr → Option Ptr) (m : Mem)
    (ht : HashTable) : Mem × HashTable :=
  for_each_entry N (fun s => s.2.table)
    (fun s e => (notify_all_bfs_body linked stray s.1 e, s.2)) (m, ht)

/-- The staleness test of `check_timeout`: the difference of two
`unsigned long` values, `w` bits wide, against `5*DISCOVER_TIMEOUT*HZ`. -/
def timed_out (w DISCOVER_TIMEOUT HZ : Nat) (jiffies timestamp : Nat) : Prop :=
  (((jiffies : Int) - (timestamp : Int)) % (2 ^ w : Int)) > ((5 * DISCOVER_TIMEOUT * HZ : Nat) : Int)

instance (w D H j t : Nat) : Decidable (timed_out w D H j t) := by
  unfold timed_out; infer_instance

/-- Body of the loop of `check_timeout`; the second component is `found`. -/
def check_timeout_body (w DISCOVER_TIMEOUT HZ jiffies : Nat) (s : Mem × Nat) (e : Ptr) : Mem × Nat :=
  let m := s.1
  if timed_out w DISCOVER_TIMEOUT HZ jiffies (m.entry e).timestamp then
    let m1 := if check_descriptor m (m.entry e).bfh then bf_suspend m (m.entry e).bfh else m
    (m1.setEntry e { m1.entry e with status := XENLOOP_STATUS_SUSPEND }, 1)
  else s

/-- `check_timeout`. -/
def check_timeout (N w DISCOVER_TIMEOUT HZ jiffies : Nat) (m : Mem) (ht : HashTable) :
    Mem × HashTable :=
  let s := for_each_entry N (fun s => s.2.table)
    (fun s e => (check_timeout_body w DISCOVER_TIMEOUT HZ jiffies s.1 e, s.2)) ((m, 0), ht)
  (if s.1.2 ≠ 0 then s.1.1.emit Event.wake_up_interruptible else s.1.1, s.2)

/-- Body of the outer loops of `update_table`: `mac` is the array of
addresses, of which the first `mac_count` are compared. -/
def update_table_body (jiffies : Nat) (mac : List Mac) (mac_count : Int) (m : Mem) (e : Ptr) : Mem :=
  if (mac.take mac_count.toNat).any (fun p => decide (equal p (m.entry e).mac ≠ 0)) then
    m.setEntry e { m.entry e with timestamp := jiffies }
  else
    let m1 := if check_descriptor m (m.entry e).bfh then bf_suspend m (m.entry e).bfh else m
    (m1.setEntry e { m1.entry e with status := XENLOOP_STATUS_SUSPEND }).emit
      Event.wake_up_interruptible

/-- `update_table`. -/
def update_table (N jiffies : Nat) (m : Mem) (ht : HashTable) (mac : List Mac) (mac_count : Int) :
    Mem × HashTable :=
  for_each_entry N (fun s => s.2.table)
    (fun s e => (update_table_body jiffies mac mac_count s.1 e, s.2)) (m, ht)

/-- Errno `ENOMEM`. -/
def ENOMEM : Int := 12

/-- `init_hash_table`; `cache` tells whether `kmem_cache_create` succeeded.
On failure the buckets are left as they were. -/
def init_hash_table (N : Nat) (ht : HashTable) (cache : Bool) : Int × HashTable :=
  if cache then (0, { count := 0, table := fun i => if i < N then [] else ht.table i })
  else (-ENOMEM, { count := 0, table := ht.table })

/-- `init_hash_table_ip`. -/
def init_hash_table_ip (N : Nat) (ht : HashTable) : Int × HashTable :=
  (0, { count := 0, table := fun i => if i < N then [] else ht.table i })

/-- Body of the loop of `clean_suspended_entries`; the state is the memory,
the MAC table and the IP table. -/
def clean_suspended_body (N : Nat) (s : Mem × HashTable × HashTable) (e : Ptr) :
    Mem × HashTable × HashTable :=
  let m := s.1
  let ht := s.2.1
  let ip_ht := s.2.2
  if (m.entry e).status = XENLOOP_STATUS_SUSPEND then
    let r := if (m.entry e).ip ≠ 0 then remove_entry_ip N m ip_ht (m.entry e).ip else (m, ip_ht)
    let r2 := remove_entry r.1 ht e
    (r2.1, r2.2, r.2)
  else s

/-- `clean_suspended_entries`. -/
def clean_suspended_entries (N : Nat) (m : Mem) (ht ip_ht : HashTable) :
    Mem × HashTable × HashTable :=
  for_each_entry N (fun s => s.2.1.table) (clean_suspended_body N) (m, ht, ip_ht)

/-- `clean_table`. -/
def clean_table (N : Nat) (m : Mem) (ht : HashTable) : Mem × HashTable :=
  let s := for_each_entry N (fun s => s.2.table) (fun s e => remove_entry s.1 s.2 e) (m, ht)
  (s.1.emit Event.kmem_cache_destroy, s.2)

/-! ## The registry as a state machine -/

/-- The registry: the memory, the MAC table (`ht`) and the IP table (`ip_ht`). -/
structure World where
  mem : Mem
  ht : HashTable
  ip_ht : HashTable

/-- The state-changing public operations, with their arguments and with what
the environment supplies (`jiffies`, the allocator's answer). -/
inductive Op where
  | insert_table (key : Mac) (domid : Nat) (jiffies : Nat) (alloc : Option Ptr)
  | insert_table_ip (ip : Nat) (e : Option Ptr)
  | remove_entry_mac (mac : Mac)
  | remove_entry_ip (ip : Nat)
  | update_table (jiffies : Nat) (mac : List Mac) (mac_count : Int)
  | check_timeout (jiffies : Nat)
  | mark_suspend
  | clean_suspended_entries
  | clean_table
  | notify_all_bfs

/-- One operation on the registry; `none` when the call does not return a
table state (`BUG_ON`, or `list_add` of a linked node). -/
def exec (N w DISCOVER_TIMEOUT HZ : Nat) (s : World) : Op → Option World
  | Op.insert_table key domid jiffies alloc =>
    (insert_table N s.mem s.ht key domid jiffies alloc).map
      (fun r => { s with mem := r.1, ht := r.2 })
  | Op.insert_table_ip ip e =>
    (insert_table_ip N s.mem s.ip_ht ip e).map (fun r => { s with mem := r.1, ip_ht := r.2 })
  | Op.remove_entry_mac mac =>
    let r := remove_entry_mac N s.mem s.ht mac
    some { s with mem := r.1, ht := r.2 }
  | Op.remove_entry_ip ip =>
    let r := remove_entry_ip N s.mem s.ip_ht ip
    some { s with mem := r.1, ip_ht := r.2 }
  | Op.update_table jiffies mac mac_count =>
    let r := update_table N jiffies s.mem s.ht mac mac_count
    some { s with mem := r.1, ht := r.2 }
  | Op.check_timeout jiffies =>
    let r := check_timeout N w DISCOVER_TIMEOUT HZ jiffies s.mem s.ht
    some { s with mem := r.1, ht := r.2 }
  | Op.mark_suspend =>
    let r := mark_suspend N s.mem s.ht
    some { s with mem := r.1, ht := r.2 }
  | Op.clean_suspended_entries =>
    let r := clean_suspended_entries N s.mem s.ht s.ip_ht
    some { mem := r.1, ht := r.2.1, ip_ht := r.2.2 }
  | Op.clean_table =>
    let r := clean_table N s.mem s.ht
    some { s with mem := r.1, ht := r.2 }
  | Op.notify_all_bfs =>
    let r := notify_all_bfs N Member.ip_mapping (fun _ => none) s.mem s.ip_ht
    some { s with mem := r.1, ip_ht := r.2 }

/-- A sequence of operations, first to last. -/
def run (N w DISCOVER_TIMEOUT HZ : Nat) : List Op → World → Option World
  | [], s => some s
  | op :: ops, s =>
    match exec N w DISCOVER_TIMEOUT HZ s op with
    | none => none
    | some s1 => run N w DISCOVER_TIMEOUT HZ ops s1

/-- The two tables right after `init_hash_table` (with its cache created) and
`init_hash_table_ip`. -/
def init_world (N : Nat) (m : Mem) (ht ip_ht : HashTable) : World :=
  { mem := m, ht := (init_hash_table N ht true).2, ip_ht := (init_hash_table_ip N ip_ht).2 }

/-- All entries linked in the table, in scan order (bucket 0 first). -/
def all_entries (N : Nat) (table : Nat → List Ptr) : List Ptr :=
  (List.range N).flatMap table

/-- A table is a family of kernel lists: no node sits at two places. -/
def WF (N : Nat) (table : Nat → List Ptr) : Prop := (all_entries N table).Nodup

instance (N : Nat) (table : Nat → List Ptr) : Decidable (WF N table) := by
  unfold WF; infer_instance

/-! ## Sample states -/

/-- Address `00:00:00:00:00:01`. -/
def sample_mac_A : Mac := ⟨0, 0, 0, 0, 0, 1⟩

/-- Address `00:00:00:00:00:02`. -/
def sample_mac_B : Mac := ⟨0, 0, 0, 0, 0, 2⟩

/-- An entry with every field zero and status Init. -/
def sample_entry : Entry :=
  { mac := ⟨0, 0, 0, 0, 0, 0⟩, domid := 0, ip := 0, timestamp := 0,
    status := XENLOOP_STATUS_INIT, listen_flag := 0, retry_count := 0, bfh := none,
    del_timer := 0 }

/-- A memory with no object allocated and nothing logged. -/
def sample_mem : Mem :=
  { entry := fun _ => sample_entry, live := fun _ => false,
    bf := fun _ => { port := 0, out := 0, suspend_in := 0, suspend_out := 0, descriptor := false },
    log := [] }

/-- A table with count 0 and every bucket empty. -/
def empty_table : HashTable := { count := 0, table := fun _ => [] }

/-! ## Entry transformers of the scans -/

/-- What `update_table` does to one linked entry: a refreshed timestamp when
its address is among the first `mac_count` of `mac`, status Suspend otherwise. -/
def update_entry (jiffies : Nat) (mac : List Mac) (mac_count : Int) (v : Entry) : Entry :=
  if (mac.take mac_count.toNat).any (fun p => decide (equal p v.mac ≠ 0)) then
    { v with timestamp := jiffies }
  else { v with status := XENLOOP_STATUS_SUSPEND }

/-- What `check_timeout` does to one linked entry. -/
def timeout_entry (w DISCOVER_TIMEOUT HZ jiffies : Nat) (v : Entry) : Entry :=
  if timed_out w DISCOVER_TIMEOUT HZ jiffies v.timestamp then
    { v with status := XENLOOP_STATUS_SUSPEND }
  else v

/-! ## Invariants of the unlinking scans -/

/-- Two entry values agree on every field except `ip`. -/
def same_but_ip (a b : Entry) : Prop := { a with ip := 0 } = { b with ip := 0 }

/-- State of `clean_suspended_entries` after the nodes `V` have been visited,
against the memory `m` and the MAC table `ht` at the start: the Suspend
entries among `V` are unlinked and counted off, every other entry has kept all
its fields except possibly `ip`, an `ip` has only changed to 0 and only when a
visited Suspend entry had that same non-zero `ip`, and exactly the visited
Suspend entries have been freed. -/
structure ReapInv (m : Mem) (ht : HashTable) (V : List Ptr)
    (s : Mem × HashTable × HashTable) : Prop where
  table : ∀ j, s.2.1.table j =
    (ht.table j).filter
      (fun p => decide (¬ (p ∈ V ∧ (m.entry p).status = XENLOOP_STATUS_SUSPEND)))
  count : s.2.1.count = ht.count -
    ((V.filter (fun p => decide ((m.entry p).status = XENLOOP_STATUS_SUSPEND))).length : Int)
  fields : ∀ p, (p ∈ V ∧ (m.entry p).status = XENLOOP_STATUS_SUSPEND) ∨
    same_but_ip (s.1.entry p) (m.entry p)
  ip : ∀ p, (s.1.entry p).ip = (m.entry p).ip ∨
    ((s.1.entry p).ip = 0 ∧ ∃ q ∈ V, (m.entry q).status = XENLOOP_STATUS_SUSPEND ∧
      (m.entry q).ip = (m.entry p).ip ∧ (m.entry p).ip ≠ 0)
  live : ∀ p, s.1.live p =
    if p ∈ V ∧ (m.entry p).status = XENLOOP_STATUS_SUSPEND then false else m.live p

/-- State of `clean_suspended_entries` after the nodes `V` have been visited,
IP side: in every bucket of the IP table the references of the visited Suspend
entries with a non-zero ip are gone, and an entry's ip has been cleared
exactly when it is such an entry and its reference was linked. -/
structure ReapIpInv (N : Nat) (m : Mem) (ip_ht : HashTable) (V : List Ptr)
    (s : Mem × HashTable × HashTable) : Prop where
  ip_table : ∀ j, j < N → s.2.2.table j =
    (ip_ht.table j).filter
      (fun p => decide (¬ (p ∈ V ∧ (m.entry p).status = XENLOOP_STATUS_SUSPEND ∧
        (m.entry p).ip ≠ 0)))
  ip_exact : ∀ p, (s.1.entry p).ip =
    if p ∈ V ∧ (m.entry p).status = XENLOOP_STATUS_SUSPEND ∧ linked N ip_ht.table p then 0
    else (m.entry p).ip

/-- Memory with entry 1 for `sample_mac_A` (Suspend, ip 5) and entry 2 for
`sample_mac_B` (Init, ip 6). -/
def sample_reap_mem : Mem :=
  (sample_mem.setEntry 1
    { sample_entry with mac := sample_mac_A, status := XENLOOP_STATUS_SUSPEND, ip := 5 }).setEntry 2
    { sample_entry with mac := sample_mac_B, ip := 6 }

/-- Entries 1 and 2 in buckets 1 and 2 (table size 4): the MAC table of
`sample_reap_mem`, and also its IP table. -/
def sample_reap_table : HashTable :=
  { count := 2, table := fun i => if i = 1 then [1] else if i = 2 then [2] else [] }

/-- Two inserts, both entries given the same ip 5, then a discovery round that
reports only `sample_mac_B`. -/
def sample_shared_ip_ops : List Op :=
  [Op.insert_table sample_mac_A 1 0 (some 1), Op.insert_table sample_mac_B 2 0 (some 2),
   Op.insert_table_ip 5 (some 1), Op.insert_table_ip 5 (some 2),
   Op.update_table 10 [sample_mac_B] 1]

/-! ## Invariants of the registry -/

/-- The count invariant of one table: the chains are well formed and `count`
is the number of linked nodes. -/
def CountOK (N : Nat) (ht : HashTable) : Prop :=
  WF N ht.table ∧ ht.count = ((all_entries N ht.table).length : Int)

/-- Consistency of the two indices: the MAC table is well formed, each of its
entries is allocated and sits in the bucket of its address; every reference of
the IP table is to an entry linked in the MAC table, with a non-zero ip, in
the bucket of that ip; every entry of the MAC table with a non-zero ip is
referenced from the IP table; and no two references carry the same ip. -/
structure Consistent (N : Nat) (s : World) : Prop where
  wf : WF N s.ht.table
  mac_bucket : ∀ i p, i < N → p ∈ s.ht.table i →
    hash N (s.mem.entry p).mac = i ∧ s.mem.live p = true
  ip_ref : ∀ j p, j < N → p ∈ s.ip_ht.table j →
    linked N s.ht.table p ∧ (s.mem.entry p).ip ≠ 0 ∧ hash_ip N (s.mem.entry p).ip = j
  ip_linked : ∀ p, linked N s.ht.table p → (s.mem.entry p).ip ≠ 0 → linked N s.ip_ht.table p
  ip_unique : ∀ p q, linked N s.ip_ht.table p → linked N s.ip_ht.table q →
    (s.mem.entry p).ip = (s.mem.entry q).ip → p = q

/-- No two entries linked in the MAC table carry the same address. -/
def MacUnique (N : Nat) (s : World) : Prop :=
  ∀ p q, linked N s.ht.table p → linked N s.ht.table q →
    (s.mem.entry p).mac = (s.mem.entry q).mac → p = q

/-- What a caller has to respect for the two indices to stay consistent:
`insert_table_ip` is given a non-zero ip that no reference carries and an
entry that is linked in the MAC table and has no ip yet; `remove_entry_mac`
and `clean_table` are only used on entries whose ip is 0 (their reference has
been taken out with `remove_entry_ip` before). -/
def disciplined (N : Nat) (s : World) : Op → Bool
  | Op.insert_table_ip ip e =>
    match e with
    | some p => decide (linked N s.ht.table p) && decide ((s.mem.entry p).ip = 0) &&
        decide (ip ≠ 0) && decide (lookup_table_ip N s.mem s.ip_ht ip = none)
    | none => false
  | Op.remove_entry_mac mac =>
    match lookup_table N s.mem s.ht mac with
    | some p => decide ((s.mem.entry p).ip = 0)
    | none => true
  | Op.clean_table => (all_entries N s.ht.table).all (fun p => decide ((s.mem.entry p).ip = 0))
  | _ => true

/-- The caller prevents duplicate addresses: `insert_table` is only used for
an address that `lookup_table` does not find. -/
def fresh_address (N : Nat) (s : World) : Op → Bool
  | Op.insert_table key _ _ _ => decide (lookup_table N s.mem s.ht key = none)
  | _ => true

/-- A sequence of operations each of which meets the condition `pre` in the
state it is called in. -/
def run_with (pre : World → Op → Bool) (N w DISCOVER_TIMEOUT HZ : Nat) :
    List Op → World → Option World
  | [], s => some s
  | op :: ops, s =>
    if pre s op then
      match exec N w DISCOVER_TIMEOUT HZ s op with
      | none => none
      | some s1 => run_with pre N w DISCOVER_TIMEOUT HZ ops s1
    else none

/-- State of `clean_table` after the nodes `V` have been visited, against the
memory `m` and the table `ht` at the start. -/
structure DrainInv (m : Mem) (ht : HashTable) (V : List Ptr) (s : Mem × HashTable) : Prop where
  table : ∀ j, s.2.table j = (ht.table j).filter (fun p => decide (p ∉ V))
  count : s.2.count = ht.count - (V.length : Int)
  fields : ∀ p, p ∉ V → s.1.entry p = m.entry p
  live : ∀ p, s.1.live p = if p ∈ V then false else m.live p

/-- What `mark_suspend` does to one linked entry. -/
def suspend_entry (v : Entry) : Entry := { v with status := XENLOOP_STATUS_SUSPEND }

/-- The caller respects both conditions. -/
def careful (N : Nat) (s : World) (op : Op) : Bool :=
  disciplined N s op && fresh_address N s op

/-- Two peers are inserted and given the ips 5 and 6; a discovery round
reports only the first, and the reap removes the second. -/
def sample_careful_ops : List Op :=
  [Op.insert_table sample_mac_A 1 0 (some 1), Op.insert_table sample_mac_B 2 0 (some 2),
   Op.insert_table_ip 5 (some 1), Op.insert_table_ip 6 (some 2),
   Op.update_table 10 [sample_mac_A] 1, Op.clean_suspended_entries]

/-! ## Kernel lists at the level of pointers

The kernel's `list_add` on `struct list_head`, to show what it does to a node
that is already linked.  The tables above use lists of entries instead; the
two agree as long as `list_add` is given a node that is on no list. -/

/-- The address of a `struct list_head`: the head of bucket `i` of the IP
table, or the `ip_mapping` node of an entry. -/
inductive ListHead where
  | bucket (i : Nat)
  | ip_mapping (e : Ptr)
deriving DecidableEq, Repr

/-- The `next` and `prev` fields of every `struct list_head`. -/
structure Links where
  next : ListHead → ListHead
  prev : ListHead → ListHead

/-- Kernel `INIT_LIST_HEAD(h)`: `h->next = h; h->prev = h`. -/
def INIT_LIST_HEAD (l : Links) (h : ListHead) : Links :=
  { next := fun x => if x = h then h else l.next x,
    prev := fun x => if x = h then h else l.prev x }

/-- Kernel `list_add(new, head)`, that is `__list_add(new, head, head->next)`:
`next->prev = new; new->next = next; new->prev = prev; prev->next = new`. -/
def list_head_add (new head : ListHead) (l : Links) : Links :=
  let nxt := l.next head
  let l1 : Links := { l with prev := fun x => if x = nxt then new else l.prev x }
  let l2 : Links := { l1 with next := fun x => if x = new then nxt else l1.next x }
  let l3 : Links := { l2 with prev := fun x => if x = new then head else l2.prev x }
  { l3 with next := fun x => if x = head then new else l3.next x }

/-- Kernel `list_for_each(pos, head)` from position `pos`, giving the nodes
visited until the walk is back at `head`; `none` when it is not back after
`fuel` steps. -/
def list_for_each_walk (l : Links) (head : ListHead) : Nat → ListHead → Option (List ListHead)
  | 0, _ => none
  | fuel + 1, pos =>
    if pos = head then some []
    else (list_for_each_walk l head fuel (l.next pos)).map (fun r => pos :: r)

/-- Two initialised bucket heads (1 and 2) and nothing linked. -/
def sample_links : Links :=
  INIT_LIST_HEAD (INIT_LIST_HEAD { next := fun x => x, prev := fun x => x } (ListHead.bucket 1))
    (ListHead.bucket 2)

/-- The links after `insert_table_ip(ip_ht, 5, e)` twice for the same entry 1,
with table size 4: both calls do `list_add` of the `ip_mapping` node of entry 1
to the head of bucket 1. -/
def sample_links_twice : Links :=
  list_head_add (ListHead.ip_mapping 1) (ListHead.bucket 1)
    (list_head_add (ListHead.ip_mapping 1) (ListHead.bucket 1) sample_links)

/-! ## Outgoing calls of the teardown and of the scans -/

/-- The calls that `remove_entry` makes for an entry with fields `v` at address
`e`, in order: the channel call (`bf_destroy` for the listening party,
`bf_disconnect` otherwise, none without a channel), `del_timer` when `del_timer`
is set, and `kmem_cache_free`. -/
def teardown_events (v : Entry) (e : Ptr) : List Event :=
  (match v.bfh with
    | some b => [if v.listen_flag ≠ 0 then Event.bf_destroy b else Event.bf_disconnect b]
    | none => []) ++
  (if v.del_timer ≠ 0 then [Event.del_timer e] else []) ++ [Event.kmem_cache_free e]

/-- The memory side of `remove_entry` once more, statement by statement, giving
each outgoing call together with the status that the entry has in memory at the
moment of the call. -/
def remove_entry_observed (m : Mem) (e : Ptr) : List (Event × Status) :=
  let m1 := m.setEntry e { m.entry e with status := XENLOOP_STATUS_INIT }
  let c1 : List (Event × Status) :=
    match (m1.entry e).bfh with
    | some b =>
      [(if (m1.entry e).listen_flag ≠ 0 then Event.bf_destroy b else Event.bf_disconnect b,
        (m1.entry e).status)]
    | none => []
  let m2 :=
    match (m1.entry e).bfh with
    | some _ => m1.setEntry e { m1.entry e with bfh := none }
    | none => m1
  let c2 : List (Event × Status) :=
    if (m2.entry e).del_timer ≠ 0 then [(Event.del_timer e, (m2.entry e).status)] else []
  c1 ++ c2 ++ [(Event.kmem_cache_free e, (m2.entry e).status)]

/-- The call that one step of `notify_all_bfs` makes at the node of the entry
`p`: `bf_notify` on the port of the channel that the loop reads there, when
that channel is live and its outbound queue is not empty. -/
def notify_events (linked : Member) (stray : Ptr → Option Ptr) (m : Mem) (p : Ptr) :
    List Event :=
  match list_entry_ip_mapping_bfh linked stray m p with
  | some b =>
    if check_descriptor m (some b) && decide ((m.bf b).out > 0) then
      [Event.bf_notify (m.bf b).port]
    else []
  | none => []

/-- A memory with one live channel object, 7, with port 9 and three items in
its outbound queue, which is the channel of entry 1. -/
def sample_notify_mem : Mem :=
  { sample_mem with
    bf := fun b =>
      if b = 7 then
        { port := 9, out := 3, suspend_in := 0, suspend_out := 0, descriptor := true }
      else
        { port := 0, out := 0, suspend_in := 0, suspend_out := 0, descriptor := false } }.setEntry
    1 { sample_entry with bfh := some 7 }

/-- A table of size 4 with entry 1 in bucket 1. -/
def sample_notify_table : HashTable :=
  { count := 1, table := fun i => if i = 1 then [1] else [] }

/-- The two suspend flags of a channel set, as by `BF_SUSPEND_IN(bfh) = 1;
BF_SUSPEND_OUT(bfh) = 1`. -/
def suspended_handle (h : bf_handle) : bf_handle := { h with suspend_in := 1, suspend_out := 1 }

/-- The memory of `sample_reap_mem` with entry 1 back in status Init: no entry
of `sample_reap_table` is Suspend. -/
def sample_init_mem : Mem :=
  sample_reap_mem.setEntry 1 { sample_entry with mac := sample_mac_A, ip := 5 }

/-! ## Basic facts -/

theorem memcmp_byte_ne (x y : Fin 256) (h : x ≠ y) : ((x.val : Int) - (y.val : Int)) ≠ 0 := by
  intro h0
  apply h
  apply Fin.ext
  omega

theorem equal_ne_zero_iff (a b : Mac) : equal a b ≠ 0 ↔ a = b := by
  obtain ⟨a0, a1, a2, a3, a4, a5⟩ := a
  obtain ⟨b0, b1, b2, b3, b4, b5⟩ := b
  simp only [equal, Mac.bytes, ETH_ALEN, memcmp, Mac.mk.injEq]
  by_cases h0 : a0 = b0 <;> by_cases h1 : a1 = b1 <;> by_cases h2 : a2 = b2 <;>
    by_cases h3 : a3 = b3 <;> by_cases h4 : a4 = b4 <;> by_cases h5 : a5 = b5 <;>
    simp [h0, h1, h2, h3, h4, h5, memcmp_byte_ne]

theorem equal_self (a : Mac) : equal a a ≠ 0 := (equal_ne_zero_iff a a).2 rfl

@[simp] theorem setEntry_entry (m : Mem) (e : Ptr) (v : Entry) (p : Ptr) :
    (m.setEntry e v).entry p = if p = e then v else m.entry p := rfl

@[simp] theorem setEntry_live (m : Mem) (e : Ptr) (v : Entry) : (m.setEntry e v).live = m.live := rfl

@[simp] theorem setEntry_bf (m : Mem) (e : Ptr) (v : Entry) : (m.setEntry e v).bf = m.bf := rfl

@[simp] theorem setEntry_log (m : Mem) (e : Ptr) (v : Entry) : (m.setEntry e v).log = m.log := rfl

@[simp] theorem setLive_entry (m : Mem) (e : Ptr) (b : Bool) : (m.setLive e b).entry = m.entry := rfl

@[simp] theorem setLive_live (m : Mem) (e : Ptr) (b : Bool) (p : Ptr) :
    (m.setLive e b).live p = if p = e then b else m.live p := rfl

@[simp] theorem setLive_bf (m : Mem) (e : Ptr) (b : Bool) : (m.setLive e b).bf = m.bf := rfl

@[simp] theorem setLive_log (m : Mem) (e : Ptr) (b : Bool) : (m.setLive e b).log = m.log := rfl

@[simp] theorem emit_entry (m : Mem) (ev : Event) : (m.emit ev).entry = m.entry := rfl

@[simp] theorem emit_live (m : Mem) (ev : Event) : (m.emit ev).live = m.live := rfl

@[simp] theorem emit_bf (m : Mem) (ev : Event) : (m.emit ev).bf = m.bf := rfl

@[simp] theorem emit_log (m : Mem) (ev : Event) : (m.emit ev).log = m.log ++ [ev] := rfl

@[simp] theorem bf_suspend_entry (m : Mem) (b : Option Ptr) : (bf_suspend m b).entry = m.entry := by
  cases b <;> rfl

@[simp] theorem bf_suspend_live (m : Mem) (b : Option Ptr) : (bf_suspend m b).live = m.live := by
  cases b <;> rfl

@[simp] theorem bf_suspend_log (m : Mem) (b : Option Ptr) : (bf_suspend m b).log = m.log := by
  cases b <;> rfl

/-- The entry written by `insert_table`. -/
theorem insert_table_eq (N : Nat) (m : Mem) (ht : HashTable) (A : Mac) (d jiffies : Nat) (p : Ptr)
    (hfree : ¬ linked N ht.table p) :
    insert_table N m ht A d jiffies (some p) =
      some ((m.setEntry p
              { mac := A, domid := d, timestamp := jiffies, del_timer := 0,
                status := XENLOOP_STATUS_INIT, listen_flag := 0xff, bfh := none,
                retry_count := 0, ip := 0 }).setLive p true,
            { count := ht.count + 1,
              table := fun j => if j = hash N A then p :: ht.table j else ht.table j }) := by
  simp only [insert_table, list_add, if_neg hfree]

/-- The state after `insert_table_ip`. -/
theorem insert_table_ip_eq (N : Nat) (m : Mem) (ht : HashTable) (ip : Nat) (p : Ptr)
    (hfree : ¬ linked N ht.table p) :
    insert_table_ip N m ht ip (some p) =
      some (m.setEntry p { m.entry p with ip := ip },
            { count := ht.count + 1,
              table := fun j => if j = hash_ip N ip then p :: ht.table j else ht.table j }) := by
  simp only [insert_table_ip, list_add, if_neg hfree]

/-! ## C1: insert then lookup -/

/-- C1. For every table, address `A`, peer id `d` and slab object `p` that the
allocator hands out (one that is not linked in the table), `insert_table`
returns, and `lookup_table` of `A` in the resulting table is the new entry
`p`, whose mac is `A`, domid `d`, status Init, ip 0 and channel handle null.
The table may already hold entries for `A`. -/
theorem insert_table_lookup_table (N : Nat) (m : Mem) (ht : HashTable) (A : Mac)
    (d jiffies : Nat) (p : Ptr) (hfree : ¬ linked N ht.table p) :
    ∃ m1 ht1, insert_table N m ht A d jiffies (some p) = some (m1, ht1) ∧
      lookup_table N m1 ht1 A = some p ∧ (m1.entry p).mac = A ∧ (m1.entry p).domid = d ∧
      (m1.entry p).status = XENLOOP_STATUS_INIT ∧ (m1.entry p).ip = 0 ∧
      (m1.entry p).bfh = none := by
  refine ⟨_, _, insert_table_eq N m ht A d jiffies p hfree, ?_, ?_⟩
  · simp [lookup_table, equal_self]
  · simp

/-- Witness for C1: a table that already holds an entry for the address. -/
theorem insert_table_lookup_table_witness :
    ∃ m1 ht1,
      insert_table 4 sample_mem { count := 1, table := fun i => if i = 1 then [5] else [] }
        sample_mac_A 7 100 (some 2) = some (m1, ht1) ∧
      lookup_table 4 m1 ht1 sample_mac_A = some 2 ∧ (m1.entry 2).mac = sample_mac_A ∧
      (m1.entry 2).domid = 7 ∧ (m1.entry 2).status = XENLOOP_STATUS_INIT ∧
      (m1.entry 2).ip = 0 ∧ (m1.entry 2).bfh = none :=
  insert_table_lookup_table 4 sample_mem _ sample_mac_A 7 100 2 (by decide)

/-! ## Removal -/

theorem remove_entry_snd (m : Mem) (ht : HashTable) (e : Ptr) :
    (remove_entry m ht e).2 = { count := ht.count - 1, table := list_del e ht.table } := rfl

theorem remove_entry_entry (m : Mem) (ht : HashTable) (e p : Ptr) :
    (remove_entry m ht e).1.entry p =
      if p = e then { m.entry e with status := XENLOOP_STATUS_INIT, bfh := none }
      else m.entry p := by
  unfold remove_entry
  rcases hb : (m.entry e).bfh with _ | b
  · by_cases hp : p = e
    · subst hp
      simp only [setEntry_entry, if_true, hb, emit_entry, setLive_entry]
      split_ifs <;> simp [hb]
    · simp only [setEntry_entry, if_true, hb, emit_entry, setLive_entry]
      split_ifs <;> simp [hp]
  · by_cases hp : p = e
    · subst hp
      simp only [setEntry_entry, if_true, hb, emit_entry, setLive_entry]
      split_ifs <;> simp
    · simp only [setEntry_entry, if_true, hb, emit_entry, setLive_entry]
      split_ifs <;> simp [hp]

theorem remove_entry_live (m : Mem) (ht : HashTable) (e p : Ptr) :
    (remove_entry m ht e).1.live p = if p = e then false else m.live p := by
  unfold remove_entry
  rcases hb : (m.entry e).bfh with _ | b <;>
    simp only [setEntry_entry, if_true, hb, emit_entry, setLive_entry, emit_live, setLive_live] <;>
    split_ifs <;> simp_all

/-! ## C2: removal by address -/

theorem remove_entry_mac_mac (N : Nat) (m : Mem) (ht : HashTable) (A : Mac) (p : Ptr) :
    ((remove_entry_mac N m ht A).1.entry p).mac = (m.entry p).mac := by
  unfold remove_entry_mac
  split
  · rw [remove_entry_entry]; split_ifs with h
    · subst h; rfl
    · rfl
  · rfl

theorem remove_entry_mac_of_lookup_none (N : Nat) (m : Mem) (ht : HashTable) (A : Mac)
    (h : lookup_table N m ht A = none) : remove_entry_mac N m ht A = (m, ht) := by
  unfold lookup_table at h
  unfold remove_entry_mac
  rw [h]

/-- C2, as the code has it.  When at most one entry linked in bucket `hash(A)`
carries the address `A`, `lookup_table` of `A` after `remove_entry_mac` is
none, and a second `remove_entry_mac` leaves the memory and the table (buckets
and count) exactly as the first one left them. -/
theorem remove_entry_mac_destructive_idempotent (N : Nat) (m : Mem) (ht : HashTable) (A : Mac)
    (huniq : ∀ e1 ∈ ht.table (hash N A), ∀ e2 ∈ ht.table (hash N A),
      (m.entry e1).mac = A → (m.entry e2).mac = A → e1 = e2) :
    lookup_table N (remove_entry_mac N m ht A).1 (remove_entry_mac N m ht A).2 A = none ∧
    remove_entry_mac N (remove_entry_mac N m ht A).1 (remove_entry_mac N m ht A).2 A =
      remove_entry_mac N m ht A := by
  have key : lookup_table N (remove_entry_mac N m ht A).1 (remove_entry_mac N m ht A).2 A = none := by
    unfold lookup_table
    rw [List.find?_eq_none]
    intro x hx
    simp only [remove_entry_mac_mac, decide_eq_true_eq, equal_ne_zero_iff]
    intro hmac
    unfold remove_entry_mac at hx
    split at hx
    · rename_i e he
      have hemem := List.mem_of_find?_eq_some he
      have hep := List.find?_some he
      simp only [decide_eq_true_eq, equal_ne_zero_iff] at hep
      simp only [remove_entry_snd, list_del, List.mem_filter, decide_eq_true_eq] at hx
      exact hx.2 (huniq x hx.1 e hemem hmac.symm hep.symm)
    · rename_i he
      rw [List.find?_eq_none] at he
      have := he x hx
      simp only [decide_eq_true_eq, equal_ne_zero_iff] at this
      exact this hmac
  exact ⟨key, remove_entry_mac_of_lookup_none N _ _ A key⟩

/-- Witness for C2 (amended): two entries in one bucket, one of them for `A`. -/
theorem remove_entry_mac_destructive_idempotent_witness :
    lookup_table 4
      (remove_entry_mac 4 (sample_mem.setEntry 1 { sample_entry with mac := sample_mac_A })
        { count := 2, table := fun i => if i = 1 then [2, 1] else [] } sample_mac_A).1
      (remove_entry_mac 4 (sample_mem.setEntry 1 { sample_entry with mac := sample_mac_A })
        { count := 2, table := fun i => if i = 1 then [2, 1] else [] } sample_mac_A).2
      sample_mac_A = none :=
  (remove_entry_mac_destructive_idempotent 4
    (sample_mem.setEntry 1 { sample_entry with mac := sample_mac_A })
    { count := 2, table := fun i => if i = 1 then [2, 1] else [] } sample_mac_A
    (by decide)).1

/-- C2 fails as stated: after `insert_table` twice for one address, a
`remove_entry_mac` leaves the older entry, which `lookup_table` returns, and a
second `remove_entry_mac` changes the count again. -/
theorem remove_entry_mac_counterexample :
    ∃ s, run 4 64 1 1
        [Op.insert_table sample_mac_A 1 0 (some 1), Op.insert_table sample_mac_A 2 0 (some 2),
         Op.remove_entry_mac sample_mac_A]
        (init_world 4 sample_mem empty_table empty_table) = some s ∧
      lookup_table 4 s.mem s.ht sample_mac_A = some 1 ∧
      s.ht.count = 1 ∧
      (remove_entry_mac 4 s.mem s.ht sample_mac_A).2.count = 0 :=
  ⟨_, rfl, by decide, by decide, by decide⟩

/-! ## Scans that leave the chains alone -/

theorem mem_all_entries (N : Nat) (table : Nat → List Ptr) (p : Ptr) :
    p ∈ all_entries N table ↔ linked N table p := by
  simp [all_entries, linked, List.mem_flatMap]

theorem foldl_frame {σ τ : Type} (g : σ → τ) (body : σ → Ptr → σ)
    (h : ∀ s e, g (body s e) = g s) (l : List Ptr) (s : σ) :
    g (l.foldl body s) = g s := by
  induction l generalizing s with
  | nil => rfl
  | cons e l ih => simp only [List.foldl_cons]; rw [ih, h]

theorem foldl_buckets_frame {σ : Type} (table_of : σ → Nat → List Ptr) (body : σ → Ptr → σ)
    (h : ∀ s e, table_of (body s e) = table_of s) (is : List Nat) (s : σ) :
    is.foldl (fun s i => (table_of s i).foldl body s) s =
      (is.flatMap (table_of s)).foldl body s := by
  induction is generalizing s with
  | nil => rfl
  | cons i is ih =>
    simp only [List.foldl_cons, List.flatMap_cons, List.foldl_append]
    rw [ih, foldl_frame table_of body h]

/-- A loop nest whose body never relinks a node visits the entries of the
table as it was at the start, in scan order. -/
theorem for_each_entry_frame {σ : Type} (N : Nat) (table_of : σ → Nat → List Ptr)
    (body : σ → Ptr → σ) (h : ∀ s e, table_of (body s e) = table_of s) (s : σ) :
    for_each_entry N table_of body s = (all_entries N (table_of s)).foldl body s :=
  foldl_buckets_frame table_of body h (List.range N) s

theorem foldl_pointwise {σ : Type} (body : σ → Ptr → σ) (ent : σ → Ptr → Entry)
    (f : Entry → Entry)
    (hbody : ∀ s e p, ent (body s e) p = if p = e then f (ent s e) else ent s p)
    (hidem : ∀ v, f (f v) = f v) (l : List Ptr) (s : σ) (p : Ptr) :
    ent (l.foldl body s) p = if p ∈ l then f (ent s p) else ent s p := by
  induction l generalizing s with
  | nil => simp
  | cons e l ih =>
    simp only [List.foldl_cons, ih, hbody, List.mem_cons]
    by_cases hpe : p = e
    · subst hpe; simp [hidem]
    · simp [hpe]

/-- A scan that rewrites each visited entry by an idempotent `f` rewrites
exactly the linked entries, each by `f`. -/
theorem for_each_entry_pointwise {σ : Type} (N : Nat) (table_of : σ → Nat → List Ptr)
    (body : σ → Ptr → σ) (ent : σ → Ptr → Entry) (f : Entry → Entry)
    (hframe : ∀ s e, table_of (body s e) = table_of s)
    (hbody : ∀ s e p, ent (body s e) p = if p = e then f (ent s e) else ent s p)
    (hidem : ∀ v, f (f v) = f v) (s : σ) (p : Ptr) :
    ent (for_each_entry N table_of body s) p =
      if linked N (table_of s) p then f (ent s p) else ent s p := by
  rw [for_each_entry_frame N table_of body hframe, foldl_pointwise body ent f hbody hidem]
  simp only [mem_all_entries]

theorem for_each_entry_table {σ : Type} (N : Nat) (table_of : σ → Nat → List Ptr)
    (body : σ → Ptr → σ) (g : σ → HashTable) (hg : ∀ s e, g (body s e) = g s)
    (hframe : ∀ s e, table_of (body s e) = table_of s) (s : σ) :
    g (for_each_entry N table_of body s) = g s := by
  rw [for_each_entry_frame N table_of body hframe, foldl_frame g body hg]

/-! ## C9: `update_table` -/

theorem update_table_body_entry (jiffies : Nat) (mac : List Mac) (mac_count : Int) (m : Mem)
    (e p : Ptr) :
    (update_table_body jiffies mac mac_count m e).entry p =
      if p = e then update_entry jiffies mac mac_count (m.entry e) else m.entry p := by
  unfold update_table_body update_entry
  split_ifs <;> simp_all

theorem update_entry_idem (jiffies : Nat) (mac : List Mac) (mac_count : Int) (v : Entry) :
    update_entry jiffies mac mac_count (update_entry jiffies mac mac_count v) =
      update_entry jiffies mac mac_count v := by
  unfold update_entry
  split_ifs <;> simp_all

theorem update_entry_seen (jiffies : Nat) (S : List Mac) (v : Entry) (h : v.mac ∈ S) :
    update_entry jiffies S (S.length : Int) v = { v with timestamp := jiffies } := by
  unfold update_entry
  rw [if_pos]
  simp only [Int.toNat_ofNat, List.take_length, List.any_eq_true, decide_eq_true_eq,
    equal_ne_zero_iff]
  exact ⟨v.mac, h, rfl⟩

theorem update_entry_unseen (jiffies : Nat) (S : List Mac) (v : Entry) (h : v.mac ∉ S) :
    update_entry jiffies S (S.length : Int) v = { v with status := XENLOOP_STATUS_SUSPEND } := by
  unfold update_entry
  rw [if_neg]
  simp only [Int.toNat_ofNat, List.take_length, List.any_eq_true, decide_eq_true_eq,
    equal_ne_zero_iff, not_exists, not_and]
  intro x hx hxe
  exact h (hxe ▸ hx)

theorem update_table_entry (N jiffies : Nat) (m : Mem) (ht : HashTable) (mac : List Mac)
    (mac_count : Int) (p : Ptr) :
    (update_table N jiffies m ht mac mac_count).1.entry p =
      if linked N ht.table p then update_entry jiffies mac mac_count (m.entry p)
      else m.entry p :=
  for_each_entry_pointwise N (fun s : Mem × HashTable => s.2.table)
    (fun s e => (update_table_body jiffies mac mac_count s.1 e, s.2))
    (fun s p => s.1.entry p) (update_entry jiffies mac mac_count)
    (fun _ _ => rfl) (fun s e p => update_table_body_entry jiffies mac mac_count s.1 e p)
    (update_entry_idem jiffies mac mac_count) (m, ht) p

theorem update_table_snd (N jiffies : Nat) (m : Mem) (ht : HashTable) (mac : List Mac)
    (mac_count : Int) : (update_table N jiffies m ht mac mac_count).2 = ht :=
  for_each_entry_table N (fun s : Mem × HashTable => s.2.table)
    (fun s e => (update_table_body jiffies mac mac_count s.1 e, s.2)) (fun s => s.2)
    (fun _ _ => rfl) (fun _ _ => rfl) (m, ht)

/-- C9. For every table, every array `S` of `mac_count` addresses and time
`jiffies`, `update_table` leaves the table (every bucket and the count) as it
was; a linked entry whose mac occurs in `S` gets timestamp `jiffies` and keeps
every other field, its status included; a linked entry whose mac does not occur
in `S` gets status Suspend and keeps every other field, its timestamp included;
an entry that is not linked is not touched. -/
theorem update_table_refreshes_or_suspends (N jiffies : Nat) (m : Mem) (ht : HashTable)
    (S : List Mac) (mac_count : Int) (hcount : mac_count = (S.length : Int)) :
    (update_table N jiffies m ht S mac_count).2 = ht ∧
    (∀ p, linked N ht.table p → (m.entry p).mac ∈ S →
      (update_table N jiffies m ht S mac_count).1.entry p =
        { m.entry p with timestamp := jiffies }) ∧
    (∀ p, linked N ht.table p → (m.entry p).mac ∉ S →
      (update_table N jiffies m ht S mac_count).1.entry p =
        { m.entry p with status := XENLOOP_STATUS_SUSPEND }) ∧
    (∀ p, ¬ linked N ht.table p →
      (update_table N jiffies m ht S mac_count).1.entry p = m.entry p) := by
  subst hcount
  refine ⟨update_table_snd .., ?_, ?_, ?_⟩
  · intro p hl hs
    rw [update_table_entry, if_pos hl, update_entry_seen _ _ _ hs]
  · intro p hl hs
    rw [update_table_entry, if_pos hl, update_entry_unseen _ _ _ hs]
  · intro p hl
    rw [update_table_entry, if_neg hl]

/-- Witness for C9: entries for `A` and `B` at Init, `update_table` with `[A]`. -/
theorem update_table_refreshes_or_suspends_witness :
    ((update_table 4 500
        ((sample_mem.setEntry 1 { sample_entry with mac := sample_mac_A }).setEntry 2
          { sample_entry with mac := sample_mac_B })
        { count := 2, table := fun i => if i = 1 then [1] else if i = 2 then [2] else [] }
        [sample_mac_A] 1).1.entry 1).timestamp = 500 ∧
    ((update_table 4 500
        ((sample_mem.setEntry 1 { sample_entry with mac := sample_mac_A }).setEntry 2
          { sample_entry with mac := sample_mac_B })
        { count := 2, table := fun i => if i = 1 then [1] else if i = 2 then [2] else [] }
        [sample_mac_A] 1).1.entry 1).status = XENLOOP_STATUS_INIT ∧
    ((update_table 4 500
        ((sample_mem.setEntry 1 { sample_entry with mac := sample_mac_A }).setEntry 2
          { sample_entry with mac := sample_mac_B })
        { count := 2, table := fun i => if i = 1 then [1] else if i = 2 then [2] else [] }
        [sample_mac_A] 1).1.entry 2).status = XENLOOP_STATUS_SUSPEND := by
  have h := update_table_refreshes_or_suspends 4 500
    ((sample_mem.setEntry 1 { sample_entry with mac := sample_mac_A }).setEntry 2
      { sample_entry with mac := sample_mac_B })
    { count := 2, table := fun i => if i = 1 then [1] else if i = 2 then [2] else [] }
    [sample_mac_A] 1 rfl
  refine ⟨?_, ?_, ?_⟩
  · rw [h.2.1 1 (by decide) (by decide)]
  · rw [h.2.1 1 (by decide) (by decide)]; decide
  · rw [h.2.2.1 2 (by decide) (by decide)]

/-! ## C10: `check_timeout` -/

theorem ite_bf_suspend_entry (c : Prop) [Decidable c] (m : Mem) (b : Option Ptr) :
    (if c then bf_suspend m b else m).entry = m.entry := by
  split_ifs <;> simp

theorem check_timeout_body_entry (w D H jiffies : Nat) (s : Mem × Nat) (e p : Ptr) :
    (check_timeout_body w D H jiffies s e).1.entry p =
      if p = e then timeout_entry w D H jiffies (s.1.entry e) else s.1.entry p := by
  unfold check_timeout_body timeout_entry
  by_cases ht : timed_out w D H jiffies (s.1.entry e).timestamp
  · simp only [if_pos ht, setEntry_entry, ite_bf_suspend_entry]
  · simp only [if_neg ht]
    split_ifs with h
    · rw [h]
    · rfl

theorem timeout_entry_idem (w D H jiffies : Nat) (v : Entry) :
    timeout_entry w D H jiffies (timeout_entry w D H jiffies v) = timeout_entry w D H jiffies v := by
  unfold timeout_entry
  split_ifs <;> simp_all

theorem check_timeout_entry (N w D H jiffies : Nat) (m : Mem) (ht : HashTable) (p : Ptr) :
    (check_timeout N w D H jiffies m ht).1.entry p =
      if linked N ht.table p then timeout_entry w D H jiffies (m.entry p) else m.entry p := by
  have h := for_each_entry_pointwise N (fun s : (Mem × Nat) × HashTable => s.2.table)
    (fun s e => (check_timeout_body w D H jiffies s.1 e, s.2))
    (fun s p => s.1.1.entry p) (timeout_entry w D H jiffies)
    (fun _ _ => rfl) (fun s e p => check_timeout_body_entry w D H jiffies s.1 e p)
    (timeout_entry_idem w D H jiffies) ((m, 0), ht) p
  simp only at h
  rw [← h]
  unfold check_timeout
  simp only
  split_ifs <;> rfl

theorem check_timeout_snd (N w D H jiffies : Nat) (m : Mem) (ht : HashTable) :
    (check_timeout N w D H jiffies m ht).2 = ht :=
  for_each_entry_table N (fun s : (Mem × Nat) × HashTable => s.2.table)
    (fun s e => (check_timeout_body w D H jiffies s.1 e, s.2)) (fun s => s.2)
    (fun _ _ => rfl) (fun _ _ => rfl) ((m, 0), ht)

theorem lookup_table_congr (N : Nat) (m m1 : Mem) (ht : HashTable) (A : Mac)
    (h : ∀ p, (m1.entry p).mac = (m.entry p).mac) :
    lookup_table N m1 ht A = lookup_table N m ht A := by
  unfold lookup_table
  simp only [h]

/-- C10. For every table and time `jiffies`, `check_timeout` leaves the table
(every bucket and the count) as it was; a linked entry for which the
`unsigned long` difference `(jiffies - timestamp) mod 2^w` is strictly greater
than `5*DISCOVER_TIMEOUT*HZ` gets status Suspend and keeps every other field;
every other entry keeps all its fields, so no timestamp changes; and
`lookup_table` returns for every address what it returned before the call. -/
theorem check_timeout_marks_only (N w DISCOVER_TIMEOUT HZ jiffies : Nat) (m : Mem)
    (ht : HashTable) :
    (check_timeout N w DISCOVER_TIMEOUT HZ jiffies m ht).2 = ht ∧
    (∀ p, linked N ht.table p →
      (((jiffies : Int) - ((m.entry p).timestamp : Int)) % (2 ^ w : Int)) >
          ((5 * DISCOVER_TIMEOUT * HZ : Nat) : Int) →
      (check_timeout N w DISCOVER_TIMEOUT HZ jiffies m ht).1.entry p =
        { m.entry p with status := XENLOOP_STATUS_SUSPEND }) ∧
    (∀ p, ¬ (linked N ht.table p ∧
        (((jiffies : Int) - ((m.entry p).timestamp : Int)) % (2 ^ w : Int)) >
          ((5 * DISCOVER_TIMEOUT * HZ : Nat) : Int)) →
      (check_timeout N w DISCOVER_TIMEOUT HZ jiffies m ht).1.entry p = m.entry p) ∧
    (∀ p, ((check_timeout N w DISCOVER_TIMEOUT HZ jiffies m ht).1.entry p).timestamp =
      (m.entry p).timestamp) ∧
    (∀ A, lookup_table N (check_timeout N w DISCOVER_TIMEOUT HZ jiffies m ht).1
        (check_timeout N w DISCOVER_TIMEOUT HZ jiffies m ht).2 A = lookup_table N m ht A) := by
  have hfield : ∀ p, ((check_timeout N w DISCOVER_TIMEOUT HZ jiffies m ht).1.entry p).timestamp =
        (m.entry p).timestamp ∧
      ((check_timeout N w DISCOVER_TIMEOUT HZ jiffies m ht).1.entry p).mac = (m.entry p).mac := by
    intro p
    rw [check_timeout_entry]
    unfold timeout_entry
    split_ifs <;> exact ⟨rfl, rfl⟩
  refine ⟨check_timeout_snd .., ?_, ?_, fun p => (hfield p).1, ?_⟩
  · intro p hl ht0
    have ht1 : timed_out w DISCOVER_TIMEOUT HZ jiffies (m.entry p).timestamp := ht0
    rw [check_timeout_entry, if_pos hl]
    unfold timeout_entry
    rw [if_pos ht1]
  · intro p hn
    rw [check_timeout_entry]
    unfold timeout_entry
    split_ifs with h1 h2
    · exact absurd ⟨h1, h2⟩ hn
    · rfl
    · rfl
  · intro A
    rw [check_timeout_snd]
    exact lookup_table_congr N m _ ht A (fun p => (hfield p).2)

/-- Witness for C10 with `DISCOVER_TIMEOUT = 1`, `HZ = 100`, 64-bit longs: an
entry last seen at 0 is marked at time 501 and is still found by address. -/
theorem check_timeout_marks_only_witness :
    ((check_timeout 4 64 1 100 501
        (sample_mem.setEntry 1 { sample_entry with mac := sample_mac_A })
        { count := 1, table := fun i => if i = 1 then [1] else [] }).1.entry 1).status =
      XENLOOP_STATUS_SUSPEND ∧
    lookup_table 4
      (check_timeout 4 64 1 100 501
        (sample_mem.setEntry 1 { sample_entry with mac := sample_mac_A })
        { count := 1, table := fun i => if i = 1 then [1] else [] }).1
      (check_timeout 4 64 1 100 501
        (sample_mem.setEntry 1 { sample_entry with mac := sample_mac_A })
        { count := 1, table := fun i => if i = 1 then [1] else [] }).2 sample_mac_A = some 1 := by
  have h := check_timeout_marks_only 4 64 1 100 501
    (sample_mem.setEntry 1 { sample_entry with mac := sample_mac_A })
    { count := 1, table := fun i => if i = 1 then [1] else [] }
  refine ⟨?_, ?_⟩
  · rw [h.2.1 1 (by decide) (by decide)]
  · rw [h.2.2.2.2 sample_mac_A]; decide

/-! ## Chains: unlinking and linking -/

theorem all_entries_list_del (N : Nat) (x : Ptr) (table : Nat → List Ptr) :
    all_entries N (list_del x table) =
      (all_entries N table).filter (fun p => decide (p ≠ x)) := by
  unfold all_entries list_del
  rw [List.filter_flatMap]

theorem WF_list_del (N : Nat) (x : Ptr) (table : Nat → List Ptr) (h : WF N table) :
    WF N (list_del x table) := by
  unfold WF at *
  rw [all_entries_list_del]
  exact h.filter _

theorem length_filter_ne_of_nodup (l : List Ptr) (x : Ptr) (hl : l.Nodup) (hx : x ∈ l) :
    ((l.filter (fun p => decide (p ≠ x))).length : Int) = (l.length : Int) - 1 := by
  have h1 : l.filter (fun p => decide (p ≠ x)) = l.erase x := by
    rw [hl.erase_eq_filter]
    apply List.filter_congr
    intro p _
    by_cases hpx : p = x <;> simp [hpx]
  have h2 : 0 < l.length := List.length_pos_of_mem hx
  rw [h1, List.length_erase_of_mem hx]
  omega

theorem flatMap_cons_at (is : List Nat) (table : Nat → List Ptr) (i : Nat) (x : Ptr)
    (his : is.Nodup) :
    (is.flatMap (fun j => if j = i then x :: table j else table j)).Perm
      (if i ∈ is then x :: is.flatMap table else is.flatMap table) := by
  induction is with
  | nil => simp
  | cons a is ih =>
    rw [List.nodup_cons] at his
    have ih := ih his.2
    simp only [List.flatMap_cons, List.mem_cons]
    by_cases hai : a = i
    · subst hai
      have hni : a ∉ is := his.1
      rw [if_neg hni] at ih
      simp only [if_true, true_or, List.cons_append]
      exact List.Perm.cons _ (List.Perm.append_left _ ih)
    · have hia : ¬ i = a := fun h => hai h.symm
      simp only [if_neg hai, hia, false_or]
      by_cases hi : i ∈ is
      · rw [if_pos hi] at ih ⊢
        exact (List.Perm.append_left _ ih).trans List.perm_middle
      · rw [if_neg hi] at ih ⊢
        exact List.Perm.append_left _ ih

theorem all_entries_cons_at (N : Nat) (table : Nat → List Ptr) (i : Nat) (x : Ptr) (hi : i < N) :
    (all_entries N (fun j => if j = i then x :: table j else table j)).Perm
      (x :: all_entries N table) := by
  have h := flatMap_cons_at (List.range N) table i x (List.nodup_range N)
  rw [if_pos (List.mem_range.2 hi)] at h
  exact h

theorem linked_cons_at (N : Nat) (table : Nat → List Ptr) (i : Nat) (x p : Ptr) (hi : i < N) :
    linked N (fun j => if j = i then x :: table j else table j) p ↔ p = x ∨ linked N table p := by
  rw [← mem_all_entries, ← mem_all_entries, (all_entries_cons_at N table i x hi).mem_iff,
    List.mem_cons]

theorem linked_list_del (N : Nat) (table : Nat → List Ptr) (x p : Ptr) :
    linked N (list_del x table) p ↔ p ≠ x ∧ linked N table p := by
  rw [← mem_all_entries, ← mem_all_entries, all_entries_list_del]
  simp only [List.mem_filter, decide_eq_true_eq]
  exact and_comm

theorem WF_bucket_nodup (N : Nat) (table : Nat → List Ptr) (h : WF N table) (i : Nat)
    (hi : i < N) : (table i).Nodup := by
  unfold WF all_entries at h
  rw [List.nodup_flatMap] at h
  exact h.1 i (List.mem_range.2 hi)

/-! ## Scans that unlink the node they are at -/

theorem foldl_inv {σ : Type} (body : σ → Ptr → σ) (Inv : List Ptr → σ → Prop)
    (P : Ptr → Prop)
    (hstep : ∀ V s e, Inv V s → e ∉ V → P e → Inv (V ++ [e]) (body s e))
    (l : List Ptr) (V : List Ptr) (s : σ) (h : Inv V s) (hnd : (V ++ l).Nodup)
    (hP : ∀ e ∈ l, P e) : Inv (V ++ l) (l.foldl body s) := by
  induction l generalizing V s with
  | nil => simpa using h
  | cons e l ih =>
    have he : e ∉ V := by
      intro hv
      rw [List.nodup_append] at hnd
      exact hnd.2.2 hv (List.mem_cons_self e l)
    have h1 := hstep V s e h he (hP e (List.mem_cons_self e l))
    have hnd1 : ((V ++ [e]) ++ l).Nodup := by simpa using hnd
    have := ih (V ++ [e]) (body s e) h1 hnd1 (fun x hx => hP x (List.mem_cons_of_mem e hx))
    simpa using this

theorem foldl_buckets_inv {σ : Type} (N : Nat) (table_of : σ → Nat → List Ptr)
    (body : σ → Ptr → σ) (tbl0 : Nat → List Ptr) (Inv : List Ptr → σ → Prop)
    (hread : ∀ V s i, i < N → Inv V s → (∀ p ∈ tbl0 i, p ∉ V) → table_of s i = tbl0 i)
    (hstep : ∀ V s e, Inv V s → e ∉ V → linked N tbl0 e → Inv (V ++ [e]) (body s e))
    (is : List Nat) (V : List Ptr) (s : σ) (h : Inv V s) (hlt : ∀ i ∈ is, i < N)
    (hnd : (V ++ is.flatMap tbl0).Nodup) :
    Inv (V ++ is.flatMap tbl0) (is.foldl (fun s i => (table_of s i).foldl body s) s) := by
  induction is generalizing V s with
  | nil => simpa using h
  | cons i is ih =>
    have hi : i < N := hlt i (List.mem_cons_self i is)
    simp only [List.flatMap_cons] at hnd ⊢
    have hdisj : ∀ p ∈ tbl0 i, p ∉ V := by
      intro p hp hv
      rw [List.nodup_append] at hnd
      exact hnd.2.2 hv (List.mem_append_left _ hp)
    have hnd1 : ((V ++ tbl0 i) ++ is.flatMap tbl0).Nodup := by
      rw [List.append_assoc]; exact hnd
    have hnd2 : (V ++ tbl0 i).Nodup := (List.nodup_append.1 hnd1).1
    simp only [List.foldl_cons]
    rw [hread V s i hi h hdisj]
    have h1 := foldl_inv body Inv (fun e => linked N tbl0 e) hstep (tbl0 i) V s h hnd2
      (fun e he => ⟨i, hi, he⟩)
    have := ih (V ++ tbl0 i) _ h1 (fun j hj => hlt j (List.mem_cons_of_mem i hj)) hnd1
    rw [List.append_assoc] at this
    exact this

/-- A loop nest over a well-formed table whose body unlinks at most the node
it is at: an invariant indexed by the nodes visited so far, kept by the body,
holds at the end for all linked nodes. -/
theorem for_each_entry_inv {σ : Type} (N : Nat) (table_of : σ → Nat → List Ptr)
    (body : σ → Ptr → σ) (tbl0 : Nat → List Ptr) (Inv : List Ptr → σ → Prop)
    (hwf : WF N tbl0)
    (hread : ∀ V s i, i < N → Inv V s → (∀ p ∈ tbl0 i, p ∉ V) → table_of s i = tbl0 i)
    (hstep : ∀ V s e, Inv V s → e ∉ V → linked N tbl0 e → Inv (V ++ [e]) (body s e))
    (s : σ) (h : Inv [] s) :
    Inv (all_entries N tbl0) (for_each_entry N table_of body s) := by
  have := foldl_buckets_inv N table_of body tbl0 Inv hread hstep (List.range N) [] s h
    (fun i hi => List.mem_range.1 hi) (by simpa using hwf)
  simpa using this

theorem for_each_entry_preserves {σ : Type} (N : Nat) (table_of : σ → Nat → List Ptr)
    (body : σ → Ptr → σ) (P : σ → Prop) (hstep : ∀ s e, P s → P (body s e)) (s : σ)
    (h : P s) : P (for_each_entry N table_of body s) := by
  unfold for_each_entry
  generalize List.range N = is
  induction is generalizing s with
  | nil => exact h
  | cons i is ih =>
    simp only [List.foldl_cons]
    apply ih
    generalize table_of s i = l
    induction l generalizing s with
    | nil => exact h
    | cons e l ihl => simp only [List.foldl_cons]; exact ihl _ (hstep s e h)

/-! ## The reap scan, MAC side -/

theorem same_but_ip_status {a b : Entry} (h : same_but_ip a b) : a.status = b.status := by
  unfold same_but_ip at h
  have := congrArg Entry.status h
  exact this

theorem same_but_ip_trans {a b c : Entry} (h1 : same_but_ip a b) (h2 : same_but_ip b c) :
    same_but_ip a c := by
  unfold same_but_ip at *
  exact h1.trans h2

theorem remove_entry_ip_cases (N : Nat) (m : Mem) (ht : HashTable) (X : Nat) :
    (remove_entry_ip N m ht X = (m, ht) ∧ ∀ q ∈ ht.table (hash_ip N X), (m.entry q).ip ≠ X) ∨
    ∃ q, q ∈ ht.table (hash_ip N X) ∧ (m.entry q).ip = X ∧
      remove_entry_ip N m ht X =
        (m.setEntry q { m.entry q with ip := 0 },
         { count := ht.count - 1, table := list_del q ht.table }) := by
  unfold remove_entry_ip
  rcases hf : (ht.table (hash_ip N X)).find? (fun e => decide (X = (m.entry e).ip)) with _ | q
  · left
    refine ⟨rfl, ?_⟩
    rw [List.find?_eq_none] at hf
    intro q hq hX
    exact hf q hq (by simp [hX])
  · right
    have h1 := List.mem_of_find?_eq_some hf
    have h2 := List.find?_some hf
    simp only [decide_eq_true_eq] at h2
    exact ⟨q, h1, h2.symm, rfl⟩

/-- The memory after the IP-side step of the reap body. -/
theorem reap_ip_step_mem (N : Nat) (m : Mem) (ip_ht : HashTable) (X : Nat) :
    (∀ p, same_but_ip
        ((if X ≠ 0 then remove_entry_ip N m ip_ht X else (m, ip_ht)).1.entry p) (m.entry p)) ∧
    (∀ p, ((if X ≠ 0 then remove_entry_ip N m ip_ht X else (m, ip_ht)).1.entry p).ip =
          (m.entry p).ip ∨
        (((if X ≠ 0 then remove_entry_ip N m ip_ht X else (m, ip_ht)).1.entry p).ip = 0 ∧
          (m.entry p).ip = X ∧ X ≠ 0)) ∧
    (if X ≠ 0 then remove_entry_ip N m ip_ht X else (m, ip_ht)).1.live = m.live := by
  by_cases hX : X ≠ 0
  · rw [if_pos hX]
    rcases remove_entry_ip_cases N m ip_ht X with ⟨h, _⟩ | ⟨q, _, hq, h⟩
    · rw [h]
      exact ⟨fun p => rfl, fun p => Or.inl rfl, rfl⟩
    · rw [h]
      refine ⟨?_, ?_, rfl⟩
      · intro p
        simp only [setEntry_entry]
        split_ifs with hp
        · subst hp; rfl
        · rfl
      · intro p
        simp only [setEntry_entry]
        split_ifs with hp
        · subst hp; exact Or.inr ⟨rfl, hq, hX⟩
        · exact Or.inl rfl
  · rw [if_neg hX]
    exact ⟨fun p => rfl, fun p => Or.inl rfl, rfl⟩

theorem remove_entry_ip_field (m : Mem) (ht : HashTable) (e p : Ptr) :
    ((remove_entry m ht e).1.entry p).ip = (m.entry p).ip := by
  rw [remove_entry_entry]
  split_ifs with hp
  · subst hp; rfl
  · rfl

theorem clean_suspended_body_inv (N : Nat) (m : Mem) (ht : HashTable) (V : List Ptr)
    (s : Mem × HashTable × HashTable) (e : Ptr) (h : ReapInv m ht V s) (he : e ∉ V) :
    ReapInv m ht (V ++ [e]) (clean_suspended_body N s e) := by
  have hst : (s.1.entry e).status = (m.entry e).status := by
    rcases h.fields e with hl | hr
    · exact absurd hl.1 he
    · exact same_but_ip_status hr
  unfold clean_suspended_body
  by_cases hs : (s.1.entry e).status = XENLOOP_STATUS_SUSPEND
  · have hs0 : (m.entry e).status = XENLOOP_STATUS_SUSPEND := hst ▸ hs
    simp only [if_pos hs]
    obtain ⟨g1, g2, g3⟩ := reap_ip_step_mem N s.1 s.2.2 (s.1.entry e).ip
    constructor
    · intro j
      simp only [remove_entry_snd, list_del]
      rw [h.table j, List.filter_filter]
      apply List.filter_congr
      intro p _
      by_cases hpe : p = e
      · subst hpe; simp [hs0]
      · simp [hpe]
    · simp only [remove_entry_snd]
      rw [h.count, List.filter_append]
      simp [hs0]
      omega
    · intro p
      by_cases hpe : p = e
      · subst hpe; left; exact ⟨by simp, hs0⟩
      · rcases h.fields p with hl | hr
        · left; exact ⟨List.mem_append_left _ hl.1, hl.2⟩
        · right
          rw [remove_entry_entry, if_neg hpe]
          exact same_but_ip_trans (g1 p) hr
    · intro p
      simp only [remove_entry_ip_field]
      rcases g2 p with h1 | ⟨h1, h2, h3⟩
      · rw [h1]
        rcases h.ip p with h4 | ⟨h4, q, hq, h5⟩
        · exact Or.inl h4
        · exact Or.inr ⟨h4, q, List.mem_append_left _ hq, h5⟩
      · right
        refine ⟨h1, e, by simp, hs0, ?_, ?_⟩
        · have hp : (s.1.entry p).ip = (m.entry p).ip := by
            rcases h.ip p with h4 | ⟨h4, _⟩
            · exact h4
            · exact absurd (h4.symm.trans h2) (Ne.symm h3)
          have hee : (s.1.entry e).ip = (m.entry e).ip := by
            rcases h.ip e with h4 | ⟨h4, _⟩
            · exact h4
            · exact absurd h4 h3
          rw [← hp, ← hee, h2]
        · rcases h.ip p with h4 | ⟨h4, _⟩
          · rw [← h4, h2]; exact h3
          · exact absurd (h4.symm.trans h2) (Ne.symm h3)
    · intro p
      rw [remove_entry_live]
      by_cases hpe : p = e
      · subst hpe; simp [hs0]
      · rw [if_neg hpe, g3, h.live p]
        simp [hpe]
  · have hs0 : ¬ (m.entry e).status = XENLOOP_STATUS_SUSPEND := hst ▸ hs
    simp only [if_neg hs]
    constructor
    · intro j
      rw [h.table j]
      apply List.filter_congr
      intro p _
      by_cases hpe : p = e
      · subst hpe; simp [hs0]
      · simp [hpe]
    · rw [h.count, List.filter_append]
      simp [hs0]
    · intro p
      rcases h.fields p with hl | hr
      · left; exact ⟨List.mem_append_left _ hl.1, hl.2⟩
      · right; exact hr
    · intro p
      rcases h.ip p with h4 | ⟨h4, q, hq, h5⟩
      · exact Or.inl h4
      · exact Or.inr ⟨h4, q, List.mem_append_left _ hq, h5⟩
    · intro p
      rw [h.live p]
      by_cases hpe : p = e
      · subst hpe; simp [hs0, he]
      · simp [hpe]

/-! ## The reap scan, IP side -/

theorem hash_ip_lt (N : Nat) (ip : Nat) (hN : 0 < N) : hash_ip N ip < N := Nat.mod_lt _ hN

theorem ReapInv_init (m : Mem) (ht ip_ht : HashTable) : ReapInv m ht [] (m, ht, ip_ht) := by
  constructor
  · intro j
    simp
  · simp
  · intro p; right; rfl
  · intro p; left; rfl
  · intro p; simp

theorem ReapIpInv_init (N : Nat) (m : Mem) (ht ip_ht : HashTable) :
    ReapIpInv N m ip_ht [] (m, ht, ip_ht) := by
  constructor
  · intro j _
    simp
  · intro p; simp

theorem ReapInv_read (m : Mem) (ht : HashTable) (V : List Ptr)
    (s : Mem × HashTable × HashTable) (i : Nat) (h : ReapInv m ht V s)
    (hd : ∀ p ∈ ht.table i, p ∉ V) : s.2.1.table i = ht.table i := by
  rw [h.table i, List.filter_eq_self]
  intro p hp
  simp [hd p hp]

/-- After `clean_suspended_entries` on a well-formed MAC table, the invariant
of the scan holds for all linked entries. -/
theorem clean_suspended_entries_inv (N : Nat) (m : Mem) (ht ip_ht : HashTable)
    (hwf : WF N ht.table) :
    ReapInv m ht (all_entries N ht.table) (clean_suspended_entries N m ht ip_ht) :=
  for_each_entry_inv N (fun s : Mem × HashTable × HashTable => s.2.1.table)
    (clean_suspended_body N) ht.table (ReapInv m ht) hwf
    (fun V s i _ h hd => ReapInv_read m ht V s i h hd)
    (fun V s e h he _ => clean_suspended_body_inv N m ht V s e h he)
    (m, ht, ip_ht) (ReapInv_init m ht ip_ht)

theorem clean_suspended_body_ip_inv (N : Nat) (hN : 0 < N) (m : Mem) (ht ip_ht : HashTable)
    (hU : ∀ q e, linked N ip_ht.table q → linked N ht.table e →
      (m.entry e).status = XENLOOP_STATUS_SUSPEND → (m.entry q).ip = (m.entry e).ip →
      (m.entry e).ip ≠ 0 → q = e)
    (hB : ∀ j e, j < N → e ∈ ip_ht.table j → linked N ht.table e →
      (m.entry e).status = XENLOOP_STATUS_SUSPEND → (m.entry e).ip ≠ 0 →
      j = hash_ip N (m.entry e).ip)
    (V : List Ptr) (s : Mem × HashTable × HashTable) (e : Ptr)
    (h : ReapInv m ht V s ∧ ReapIpInv N m ip_ht V s) (he : e ∉ V) (hl : linked N ht.table e) :
    ReapInv m ht (V ++ [e]) (clean_suspended_body N s e) ∧
      ReapIpInv N m ip_ht (V ++ [e]) (clean_suspended_body N s e) := by
  refine ⟨clean_suspended_body_inv N m ht V s e h.1 he, ?_⟩
  obtain ⟨hA, hI⟩ := h
  have hst : (s.1.entry e).status = (m.entry e).status := by
    rcases hA.fields e with hl | hr
    · exact absurd hl.1 he
    · exact same_but_ip_status hr
  have hipe : (s.1.entry e).ip = (m.entry e).ip := by
    rw [hI.ip_exact e, if_neg (fun hc => he hc.1)]
  unfold clean_suspended_body
  by_cases hs : (s.1.entry e).status = XENLOOP_STATUS_SUSPEND
  · have hs0 : (m.entry e).status = XENLOOP_STATUS_SUSPEND := hst ▸ hs
    simp only [if_pos hs]
    by_cases hX : (s.1.entry e).ip ≠ 0
    · have hX0 : (m.entry e).ip ≠ 0 := hipe ▸ hX
      simp only [if_pos hX]
      have hlt := hash_ip_lt N (s.1.entry e).ip hN
      rcases remove_entry_ip_cases N s.1 s.2.2 (s.1.entry e).ip with ⟨hr, hnone⟩ | ⟨q, hq, hqip, hr⟩
      · -- no reference with this ip: `e` is not linked in the IP table
        have hnl : ¬ linked N ip_ht.table e := by
          rintro ⟨j, hj, hej⟩
          have hje := hB j e hj hej hl hs0 hX0
          rw [← hipe] at hje
          subst hje
          have : e ∈ s.2.2.table (hash_ip N (s.1.entry e).ip) := by
            rw [hI.ip_table _ hj, List.mem_filter]
            exact ⟨hej, by simp [he]⟩
          exact hnone e this rfl
        rw [hr]
        constructor
        · intro j hj
          rw [hI.ip_table j hj]
          apply List.filter_congr
          intro p hp
          by_cases hpe : p = e
          · subst hpe; exact absurd ⟨j, hj, hp⟩ hnl
          · simp [hpe]
        · intro p
          rw [remove_entry_ip_field, hI.ip_exact p]
          by_cases hpe : p = e
          · subst hpe; simp [hnl, he]
          · simp [hpe]
      · -- the reference found is the one of `e`
        have hq0 : q ∈ ip_ht.table (hash_ip N (s.1.entry e).ip) := by
          rw [hI.ip_table _ hlt, List.mem_filter] at hq
          exact hq.1
        have hql : linked N ip_ht.table q := ⟨_, hlt, hq0⟩
        have hqm : (m.entry q).ip = (m.entry e).ip := by
          have := hI.ip_exact q
          rw [hqip] at this
          split_ifs at this with hc
          · exact absurd this hX
          · rw [← this, hipe]
        have hqe : q = e := hU q e hql hl hs0 hqm hX0
        subst hqe
        rw [hr]
        constructor
        · intro j hj
          simp only [list_del]
          rw [hI.ip_table j hj, List.filter_filter]
          apply List.filter_congr
          intro p _
          by_cases hpe : p = q
          · subst hpe; simp [hs0, hX0]
          · simp [hpe]
        · intro p
          rw [remove_entry_ip_field]
          simp only [setEntry_entry]
          by_cases hpe : p = q
          · subst hpe; simp [hs0, hql]
          · rw [if_neg hpe, hI.ip_exact p]
            simp [hpe]
    · simp only [if_neg hX]
      have hX0 : (m.entry e).ip = 0 := by
        rw [← hipe]; exact not_not.1 hX
      constructor
      · intro j hj
        rw [hI.ip_table j hj]
        apply List.filter_congr
        intro p _
        by_cases hpe : p = e
        · subst hpe; simp [hX0]
        · simp [hpe]
      · intro p
        rw [remove_entry_ip_field, hI.ip_exact p]
        by_cases hpe : p = e
        · subst hpe; simp [hX0]
        · simp [hpe]
  · have hs0 : ¬ (m.entry e).status = XENLOOP_STATUS_SUSPEND := hst ▸ hs
    simp only [if_neg hs]
    constructor
    · intro j hj
      rw [hI.ip_table j hj]
      apply List.filter_congr
      intro p _
      by_cases hpe : p = e
      · subst hpe; simp [hs0]
      · simp [hpe]
    · intro p
      rw [hI.ip_exact p]
      by_cases hpe : p = e
      · subst hpe; simp [hs0]
      · simp [hpe]

/-! ## C7: the reap and the MAC table -/

theorem clean_suspended_entries_ip_inv (N : Nat) (hN : 0 < N) (m : Mem) (ht ip_ht : HashTable)
    (hwf : WF N ht.table)
    (hU : ∀ q e, linked N ip_ht.table q → linked N ht.table e →
      (m.entry e).status = XENLOOP_STATUS_SUSPEND → (m.entry q).ip = (m.entry e).ip →
      (m.entry e).ip ≠ 0 → q = e)
    (hB : ∀ j e, j < N → e ∈ ip_ht.table j → linked N ht.table e →
      (m.entry e).status = XENLOOP_STATUS_SUSPEND → (m.entry e).ip ≠ 0 →
      j = hash_ip N (m.entry e).ip) :
    ReapInv m ht (all_entries N ht.table) (clean_suspended_entries N m ht ip_ht) ∧
    ReapIpInv N m ip_ht (all_entries N ht.table) (clean_suspended_entries N m ht ip_ht) :=
  for_each_entry_inv N (fun s : Mem × HashTable × HashTable => s.2.1.table)
    (clean_suspended_body N) ht.table
    (fun V s => ReapInv m ht V s ∧ ReapIpInv N m ip_ht V s) hwf
    (fun V s i _ h hd => ReapInv_read m ht V s i h.1 hd)
    (fun V s e h he hl => clean_suspended_body_ip_inv N hN m ht ip_ht hU hB V s e h he hl)
    (m, ht, ip_ht) ⟨ReapInv_init m ht ip_ht, ReapIpInv_init N m ht ip_ht⟩

theorem scan_find_eq_none (table : Nat → List Ptr) (P : Ptr → Bool) (i k : Nat) :
    scan_find table P i k = none ↔ ∀ j, i ≤ j → j < i + k → ∀ p ∈ table j, ¬ P p = true := by
  induction k generalizing i with
  | zero =>
    simp only [scan_find, true_iff]
    intro j h1 h2; omega
  | succ k ih =>
    unfold scan_find
    rcases hf : (table i).find? P with _ | e
    · simp only [ih]
      rw [List.find?_eq_none] at hf
      constructor
      · intro h j h1 h2 p hp
        by_cases hji : j = i
        · subst hji; exact hf p hp
        · exact h j (by omega) (by omega) p hp
      · intro h j h1 h2 p hp
        exact h j (by omega) (by omega) p hp
    · constructor
      · intro h; cases h
      · intro h
        exact absurd (List.find?_some hf) (h i (le_refl _) (by omega) e (List.mem_of_find?_eq_some hf))

theorem has_suspend_entry_eq_zero (N : Nat) (m : Mem) (ht : HashTable) :
    has_suspend_entry N m ht = 0 ↔
      ∀ j, j < N → ∀ p ∈ ht.table j, (m.entry p).status ≠ XENLOOP_STATUS_SUSPEND := by
  unfold has_suspend_entry
  rcases hf : scan_find ht.table
      (fun e => decide ((m.entry e).status = XENLOOP_STATUS_SUSPEND)) 0 N with _ | e
  · rw [scan_find_eq_none] at hf
    simp only [true_iff]
    intro j hj p hp
    have := hf j (Nat.zero_le _) (by omega) p hp
    simpa using this
  · simp only [one_ne_zero, false_iff]
    intro h
    have hne : scan_find ht.table
      (fun e => decide ((m.entry e).status = XENLOOP_STATUS_SUSPEND)) 0 N = none := by
      rw [scan_find_eq_none]
      intro j _ hj p hp
      have := h j (by omega) p hp
      simpa using this
    rw [hne] at hf
    cases hf

theorem same_but_ip_eq {a b : Entry} (h : same_but_ip a b) (hip : a.ip = b.ip) : a = b := by
  unfold same_but_ip at h
  cases a; cases b
  simp only [Entry.mk.injEq] at h ⊢
  simp only at hip
  tauto

/-- C7, as the code has it.  For every well-formed MAC table and every IP
table, after `clean_suspended_entries`: each bucket of the MAC table holds
exactly its entries that were not Suspend, in their order; `has_suspend_entry`
returns 0; the count has gone down by the number of linked entries that were
Suspend; an entry that was not Suspend keeps every field other than `ip`, and
keeps `ip` too unless a linked Suspend entry had the same non-zero ip. -/
theorem clean_suspended_entries_mac_side (N : Nat) (m : Mem) (ht ip_ht : HashTable)
    (hwf : WF N ht.table) :
    (∀ j, j < N → (clean_suspended_entries N m ht ip_ht).2.1.table j =
      (ht.table j).filter (fun p => decide ((m.entry p).status ≠ XENLOOP_STATUS_SUSPEND))) ∧
    has_suspend_entry N (clean_suspended_entries N m ht ip_ht).1
      (clean_suspended_entries N m ht ip_ht).2.1 = 0 ∧
    (clean_suspended_entries N m ht ip_ht).2.1.count = ht.count -
      (((all_entries N ht.table).filter
        (fun p => decide ((m.entry p).status = XENLOOP_STATUS_SUSPEND))).length : Int) ∧
    (∀ p, (m.entry p).status ≠ XENLOOP_STATUS_SUSPEND →
      { (clean_suspended_entries N m ht ip_ht).1.entry p with ip := (m.entry p).ip } =
        m.entry p) ∧
    (∀ p, (m.entry p).status ≠ XENLOOP_STATUS_SUSPEND →
      (∀ q, linked N ht.table q → (m.entry q).status = XENLOOP_STATUS_SUSPEND →
        (m.entry q).ip = (m.entry p).ip → (m.entry p).ip = 0) →
      (clean_suspended_entries N m ht ip_ht).1.entry p = m.entry p) := by
  have h := clean_suspended_entries_inv N m ht ip_ht hwf
  have htab : ∀ j, j < N → (clean_suspended_entries N m ht ip_ht).2.1.table j =
      (ht.table j).filter (fun p => decide ((m.entry p).status ≠ XENLOOP_STATUS_SUSPEND)) := by
    intro j hj
    rw [h.table j]
    apply List.filter_congr
    intro p hp
    have : p ∈ all_entries N ht.table := (mem_all_entries N ht.table p).2 ⟨j, hj, hp⟩
    simp [this]
  have hfld : ∀ p, (m.entry p).status ≠ XENLOOP_STATUS_SUSPEND →
      same_but_ip ((clean_suspended_entries N m ht ip_ht).1.entry p) (m.entry p) := by
    intro p hp
    rcases h.fields p with hl | hr
    · exact absurd hl.2 hp
    · exact hr
  refine ⟨htab, ?_, h.count, ?_, ?_⟩
  · rw [has_suspend_entry_eq_zero]
    intro j hj p hp
    rw [htab j hj, List.mem_filter] at hp
    have hns : (m.entry p).status ≠ XENLOOP_STATUS_SUSPEND := by simpa using hp.2
    rw [same_but_ip_status (hfld p hns)]
    exact hns
  · intro p hp
    exact same_but_ip_eq (hfld p hp) rfl
  · intro p hp hq
    apply same_but_ip_eq (hfld p hp)
    rcases h.ip p with h1 | ⟨h1, q, hqV, hqs, hqip, hne⟩
    · exact h1
    · exact absurd (hq q ((mem_all_entries N ht.table q).1 hqV) hqs hqip) hne

/-- Witness for C7 (amended): one Suspend entry and one Init entry. -/
theorem clean_suspended_entries_mac_side_witness :
    WF 4 sample_reap_table.table ∧
    has_suspend_entry 4
      (clean_suspended_entries 4 sample_reap_mem sample_reap_table sample_reap_table).1
      (clean_suspended_entries 4 sample_reap_mem sample_reap_table sample_reap_table).2.1 = 0 ∧
    (clean_suspended_entries 4 sample_reap_mem sample_reap_table sample_reap_table).1.entry 2 =
      sample_reap_mem.entry 2 :=
  ⟨by decide,
   (clean_suspended_entries_mac_side 4 sample_reap_mem sample_reap_table sample_reap_table
      (by decide)).2.1,
   (clean_suspended_entries_mac_side 4 sample_reap_mem sample_reap_table sample_reap_table
      (by decide)).2.2.2.2 2 (by decide) (by
        intro q hq hs hip
        rw [← mem_all_entries] at hq
        have hall : all_entries 4 sample_reap_table.table = [1, 2] := by decide
        rw [hall] at hq
        simp only [List.mem_cons, List.mem_singleton, List.not_mem_nil, or_false] at hq
        rcases hq with rfl | rfl
        · exact absurd hip (by decide)
        · exact absurd hs (by decide))⟩

/-- C7 fails as stated: when a Suspend entry and an Init entry carry the same
ip, the reap clears the ip of the Init entry. -/
theorem clean_suspended_entries_mac_side_counterexample :
    ∃ s, run 4 64 1 1 sample_shared_ip_ops (init_world 4 sample_mem empty_table empty_table) =
        some s ∧
      linked 4 s.ht.table 2 ∧ (s.mem.entry 2).status = XENLOOP_STATUS_INIT ∧
      (s.mem.entry 2).ip = 5 ∧
      ((clean_suspended_entries 4 s.mem s.ht s.ip_ht).1.entry 2).ip = 0 :=
  ⟨_, rfl, by decide, by decide, by decide, by decide⟩

/-! ## C8: the reap and the IP table -/

/-- C8, as the code has it.  Take a well-formed MAC table and an IP table in
which (1) a reference that carries the same non-zero ip as a linked Suspend
entry is the reference of that entry, and (2) the reference of a linked Suspend
entry with a non-zero ip sits in bucket `hash_ip` of that ip.  After
`clean_suspended_entries`, for every linked Suspend entry `A` with ip
`X ≠ 0` the reference of `A` is not linked in the IP table and
`lookup_table_ip` of `X` is none; and a reference of an entry that was not
Suspend is still linked in its bucket, with the entry's ip unchanged. -/
theorem clean_suspended_entries_ip_side (N : Nat) (hN : 0 < N) (m : Mem) (ht ip_ht : HashTable)
    (hwf : WF N ht.table)
    (hU : ∀ q e, linked N ip_ht.table q → linked N ht.table e →
      (m.entry e).status = XENLOOP_STATUS_SUSPEND → (m.entry q).ip = (m.entry e).ip →
      (m.entry e).ip ≠ 0 → q = e)
    (hB : ∀ j e, j < N → e ∈ ip_ht.table j → linked N ht.table e →
      (m.entry e).status = XENLOOP_STATUS_SUSPEND → (m.entry e).ip ≠ 0 →
      j = hash_ip N (m.entry e).ip) :
    (∀ A, linked N ht.table A → (m.entry A).status = XENLOOP_STATUS_SUSPEND →
      (m.entry A).ip ≠ 0 →
      ¬ linked N (clean_suspended_entries N m ht ip_ht).2.2.table A ∧
      lookup_table_ip N (clean_suspended_entries N m ht ip_ht).1
        (clean_suspended_entries N m ht ip_ht).2.2 (m.entry A).ip = none) ∧
    (∀ j p, j < N → p ∈ ip_ht.table j → (m.entry p).status ≠ XENLOOP_STATUS_SUSPEND →
      p ∈ (clean_suspended_entries N m ht ip_ht).2.2.table j ∧
      ((clean_suspended_entries N m ht ip_ht).1.entry p).ip = (m.entry p).ip) := by
  obtain ⟨_, hI⟩ := clean_suspended_entries_ip_inv N hN m ht ip_ht hwf hU hB
  constructor
  · intro A hl hs hip
    have hAV : A ∈ all_entries N ht.table := (mem_all_entries N ht.table A).2 hl
    constructor
    · rintro ⟨j, hj, hmem⟩
      rw [hI.ip_table j hj, List.mem_filter] at hmem
      have := hmem.2
      simp only [decide_eq_true_eq] at this
      exact this ⟨hAV, hs, hip⟩
    · unfold lookup_table_ip
      rw [List.find?_eq_none]
      intro q hq
      simp only [decide_eq_true_eq]
      intro hqip
      have hlt := hash_ip_lt N (m.entry A).ip hN
      rw [hI.ip_table _ hlt, List.mem_filter] at hq
      have hq0 : (m.entry q).ip = (m.entry A).ip := by
        have := hI.ip_exact q
        rw [hqip] at this
        split_ifs at this with hc
        · exact absurd this hip
        · exact this.symm
      have hqA : q = A := hU q A ⟨_, hlt, hq.1⟩ hl hs hq0 hip
      subst hqA
      have := hq.2
      simp only [decide_eq_true_eq] at this
      exact this ⟨hAV, hs, hip⟩
  · intro j p hj hp hns
    constructor
    · rw [hI.ip_table j hj, List.mem_filter]
      exact ⟨hp, by simp [hns]⟩
    · rw [hI.ip_exact p]
      simp [hns]

/-- Witness for C8 (amended): entry 1 is Suspend with ip 5, entry 2 is Init
with ip 6, both referenced from the IP table. -/
theorem clean_suspended_entries_ip_side_witness :
    (¬ linked 4
        (clean_suspended_entries 4 sample_reap_mem sample_reap_table sample_reap_table).2.2.table
        1 ∧
      lookup_table_ip 4
        (clean_suspended_entries 4 sample_reap_mem sample_reap_table sample_reap_table).1
        (clean_suspended_entries 4 sample_reap_mem sample_reap_table sample_reap_table).2.2
        (sample_reap_mem.entry 1).ip = none) ∧
    (2 ∈ (clean_suspended_entries 4 sample_reap_mem sample_reap_table
        sample_reap_table).2.2.table 2 ∧
      ((clean_suspended_entries 4 sample_reap_mem sample_reap_table sample_reap_table).1.entry
        2).ip = (sample_reap_mem.entry 2).ip) := by
  have hall : all_entries 4 sample_reap_table.table = [1, 2] := by decide
  have h := clean_suspended_entries_ip_side 4 (by decide) sample_reap_mem sample_reap_table
    sample_reap_table (by decide)
    (by
      intro q e hq he hs hip _
      rw [← mem_all_entries, hall] at hq he
      simp only [List.mem_cons, List.mem_singleton, List.not_mem_nil, or_false] at hq he
      rcases he with rfl | rfl
      · rcases hq with rfl | rfl
        · rfl
        · exact absurd hip (by decide)
      · exact absurd hs (by decide))
    (by
      intro j e hj hej he hs _
      rw [← mem_all_entries, hall] at he
      simp only [List.mem_cons, List.mem_singleton, List.not_mem_nil, or_false] at he
      rcases he with rfl | rfl
      · have hj4 : j = 0 ∨ j = 1 ∨ j = 2 ∨ j = 3 := by omega
        rcases hj4 with rfl | rfl | rfl | rfl
        · exact absurd hej (by decide)
        · decide
        · exact absurd hej (by decide)
        · exact absurd hej (by decide)
      · exact absurd hs (by decide))
  exact ⟨h.1 1 (by decide) (by decide) (by decide), h.2 2 2 (by decide) (by decide) (by decide)⟩

/-- C8 fails as stated: when a Suspend entry (1, ip 5) and an Init entry
(2, ip 5) carry the same ip and the reference of the Init entry comes first in
the bucket, the reap unlinks the reference of the Init entry, leaves the
reference of the freed Suspend entry linked, and `lookup_table_ip` of 5 still
returns it. -/
theorem clean_suspended_entries_ip_side_counterexample :
    ∃ s, run 4 64 1 1 sample_shared_ip_ops (init_world 4 sample_mem empty_table empty_table) =
        some s ∧
      linked 4 s.ht.table 1 ∧ (s.mem.entry 1).status = XENLOOP_STATUS_SUSPEND ∧
      (s.mem.entry 1).ip = 5 ∧ linked 4 s.ip_ht.table 1 ∧
      linked 4 s.ip_ht.table 2 ∧ (s.mem.entry 2).status = XENLOOP_STATUS_INIT ∧
      linked 4 (clean_suspended_entries 4 s.mem s.ht s.ip_ht).2.2.table 1 ∧
      lookup_table_ip 4 (clean_suspended_entries 4 s.mem s.ht s.ip_ht).1
        (clean_suspended_entries 4 s.mem s.ht s.ip_ht).2.2 5 = some 1 ∧
      ¬ linked 4 (clean_suspended_entries 4 s.mem s.ht s.ip_ht).2.2.table 2 ∧
      (clean_suspended_entries 4 s.mem s.ht s.ip_ht).1.live 1 = false :=
  ⟨_, rfl, by decide, by decide, by decide, by decide, by decide, by decide, by decide,
    by decide, by decide, by decide⟩

/-! ## The scans that only touch status and timestamp -/

theorem for_each_entry_proj {σ τ : Type} (N : Nat) (table_of : σ → Nat → List Ptr)
    (body : σ → Ptr → σ) (g : σ → τ) (hg : ∀ s e, g (body s e) = g s) (s : σ) :
    g (for_each_entry N table_of body s) = g s :=
  for_each_entry_preserves N table_of body (fun t => g t = g s)
    (fun t e ht => (hg t e).trans ht) s rfl

theorem mark_suspend_body_entry (m : Mem) (e p : Ptr) :
    (mark_suspend_body m e).entry p = if p = e then suspend_entry (m.entry e) else m.entry p := by
  unfold mark_suspend_body suspend_entry
  by_cases hc : check_descriptor m (m.entry e).bfh = true
  · rcases hb : (m.entry e).bfh with _ | b
    · simp only [hb, if_pos (hb ▸ hc), setEntry_entry]
    · simp only [hb, if_pos (hb ▸ hc), setEntry_entry, emit_entry, bf_suspend_entry]
  · simp only [if_neg hc, setEntry_entry]

theorem mark_suspend_body_live (m : Mem) (e : Ptr) : (mark_suspend_body m e).live = m.live := by
  unfold mark_suspend_body
  simp only [setEntry_live]
  split_ifs
  · split <;> simp
  · rfl

theorem mark_suspend_entry (N : Nat) (m : Mem) (ht : HashTable) (p : Ptr) :
    (mark_suspend N m ht).1.entry p =
      if linked N ht.table p then suspend_entry (m.entry p) else m.entry p :=
  for_each_entry_pointwise N (fun s : Mem × HashTable => s.2.table)
    (fun s e => (mark_suspend_body s.1 e, s.2))
    (fun s p => s.1.entry p) suspend_entry
    (fun _ _ => rfl) (fun s e p => mark_suspend_body_entry s.1 e p)
    (fun _ => rfl) (m, ht) p

theorem mark_suspend_snd (N : Nat) (m : Mem) (ht : HashTable) : (mark_suspend N m ht).2 = ht :=
  for_each_entry_proj N (fun s : Mem × HashTable => s.2.table)
    (fun s e => (mark_suspend_body s.1 e, s.2)) (fun s => s.2) (fun _ _ => rfl) (m, ht)

theorem mark_suspend_live (N : Nat) (m : Mem) (ht : HashTable) :
    (mark_suspend N m ht).1.live = m.live :=
  for_each_entry_proj N (fun s : Mem × HashTable => s.2.table)
    (fun s e => (mark_suspend_body s.1 e, s.2)) (fun s => s.1.live)
    (fun s e => mark_suspend_body_live s.1 e) (m, ht)

theorem notify_all_bfs_body_entry (linked : Member) (stray : Ptr → Option Ptr) (m : Mem)
    (e : Ptr) : (notify_all_bfs_body linked stray m e).entry = m.entry := by
  unfold notify_all_bfs_body
  split
  · split_ifs <;> rfl
  · rfl

theorem notify_all_bfs_body_live (linked : Member) (stray : Ptr → Option Ptr) (m : Mem)
    (e : Ptr) : (notify_all_bfs_body linked stray m e).live = m.live := by
  unfold notify_all_bfs_body
  split
  · split_ifs <;> rfl
  · rfl

theorem notify_all_bfs_snd (N : Nat) (linked : Member) (stray : Ptr → Option Ptr) (m : Mem)
    (ht : HashTable) : (notify_all_bfs N linked stray m ht).2 = ht :=
  for_each_entry_proj N (fun s : Mem × HashTable => s.2.table)
    (fun s e => (notify_all_bfs_body linked stray s.1 e, s.2)) (fun s => s.2) (fun _ _ => rfl)
    (m, ht)

theorem notify_all_bfs_entry (N : Nat) (linked : Member) (stray : Ptr → Option Ptr) (m : Mem)
    (ht : HashTable) : (notify_all_bfs N linked stray m ht).1.entry = m.entry :=
  for_each_entry_proj N (fun s : Mem × HashTable => s.2.table)
    (fun s e => (notify_all_bfs_body linked stray s.1 e, s.2)) (fun s => s.1.entry)
    (fun s e => notify_all_bfs_body_entry linked stray s.1 e) (m, ht)

theorem notify_all_bfs_live (N : Nat) (linked : Member) (stray : Ptr → Option Ptr) (m : Mem)
    (ht : HashTable) : (notify_all_bfs N linked stray m ht).1.live = m.live :=
  for_each_entry_proj N (fun s : Mem × HashTable => s.2.table)
    (fun s e => (notify_all_bfs_body linked stray s.1 e, s.2)) (fun s => s.1.live)
    (fun s e => notify_all_bfs_body_live linked stray s.1 e) (m, ht)

theorem update_table_body_live (jiffies : Nat) (mac : List Mac) (mac_count : Int) (m : Mem)
    (e : Ptr) : (update_table_body jiffies mac mac_count m e).live = m.live := by
  unfold update_table_body
  split_ifs <;> simp

theorem update_table_live (N jiffies : Nat) (m : Mem) (ht : HashTable) (mac : List Mac)
    (mac_count : Int) : (update_table N jiffies m ht mac mac_count).1.live = m.live :=
  for_each_entry_proj N (fun s : Mem × HashTable => s.2.table)
    (fun s e => (update_table_body jiffies mac mac_count s.1 e, s.2)) (fun s => s.1.live)
    (fun s e => update_table_body_live jiffies mac mac_count s.1 e) (m, ht)

theorem check_timeout_body_live (w D H jiffies : Nat) (s : Mem × Nat) (e : Ptr) :
    (check_timeout_body w D H jiffies s e).1.live = s.1.live := by
  unfold check_timeout_body
  simp only
  split_ifs <;> simp

theorem check_timeout_live (N w D H jiffies : Nat) (m : Mem) (ht : HashTable) :
    (check_timeout N w D H jiffies m ht).1.live = m.live := by
  have h := for_each_entry_proj N (fun s : (Mem × Nat) × HashTable => s.2.table)
    (fun s e => (check_timeout_body w D H jiffies s.1 e, s.2)) (fun s => s.1.1.live)
    (fun s e => check_timeout_body_live w D H jiffies s.1 e) ((m, 0), ht)
  simp only at h
  rw [← h]
  unfold check_timeout
  simp only
  split_ifs <;> rfl

theorem update_table_keys (N jiffies : Nat) (m : Mem) (ht : HashTable) (mac : List Mac)
    (mac_count : Int) (p : Ptr) :
    ((update_table N jiffies m ht mac mac_count).1.entry p).mac = (m.entry p).mac ∧
    ((update_table N jiffies m ht mac mac_count).1.entry p).ip = (m.entry p).ip := by
  rw [update_table_entry]
  unfold update_entry
  split_ifs <;> exact ⟨rfl, rfl⟩

theorem check_timeout_keys (N w D H jiffies : Nat) (m : Mem) (ht : HashTable) (p : Ptr) :
    ((check_timeout N w D H jiffies m ht).1.entry p).mac = (m.entry p).mac ∧
    ((check_timeout N w D H jiffies m ht).1.entry p).ip = (m.entry p).ip := by
  rw [check_timeout_entry]
  unfold timeout_entry
  split_ifs <;> exact ⟨rfl, rfl⟩

theorem mark_suspend_keys (N : Nat) (m : Mem) (ht : HashTable) (p : Ptr) :
    ((mark_suspend N m ht).1.entry p).mac = (m.entry p).mac ∧
    ((mark_suspend N m ht).1.entry p).ip = (m.entry p).ip := by
  rw [mark_suspend_entry]
  unfold suspend_entry
  split_ifs <;> exact ⟨rfl, rfl⟩

/-! ## `clean_table` -/

theorem DrainInv_init (m : Mem) (ht : HashTable) : DrainInv m ht [] (m, ht) := by
  constructor
  · intro j; simp
  · simp
  · intro p _; rfl
  · intro p; simp

theorem DrainInv_step (m : Mem) (ht : HashTable) (V : List Ptr) (s : Mem × HashTable) (e : Ptr)
    (h : DrainInv m ht V s) : DrainInv m ht (V ++ [e]) (remove_entry s.1 s.2 e) := by
  constructor
  · intro j
    simp only [remove_entry_snd, list_del]
    rw [h.table j, List.filter_filter]
    apply List.filter_congr
    intro p _
    by_cases hpe : p = e
    · subst hpe; simp
    · simp [hpe]
  · simp only [remove_entry_snd]
    rw [h.count]
    simp
    omega
  · intro p hp
    have hpe : p ≠ e := fun hc => hp (by simp [hc])
    have hpV : p ∉ V := fun hc => hp (List.mem_append_left _ hc)
    rw [remove_entry_entry, if_neg hpe, h.fields p hpV]
  · intro p
    rw [remove_entry_live, h.live p]
    by_cases hpe : p = e
    · subst hpe; simp
    · simp [hpe]

theorem DrainInv_read (m : Mem) (ht : HashTable) (V : List Ptr) (s : Mem × HashTable) (i : Nat)
    (h : DrainInv m ht V s) (hd : ∀ p ∈ ht.table i, p ∉ V) : s.2.table i = ht.table i := by
  rw [h.table i, List.filter_eq_self]
  intro p hp
  simp [hd p hp]

theorem clean_table_inv (N : Nat) (m : Mem) (ht : HashTable) (hwf : WF N ht.table) :
    DrainInv m ht (all_entries N ht.table)
      (for_each_entry N (fun s : Mem × HashTable => s.2.table)
        (fun s e => remove_entry s.1 s.2 e) (m, ht)) :=
  for_each_entry_inv N (fun s : Mem × HashTable => s.2.table)
    (fun s e => remove_entry s.1 s.2 e) ht.table (DrainInv m ht) hwf
    (fun V s i _ h hd => DrainInv_read m ht V s i h hd)
    (fun V s e h _ _ => DrainInv_step m ht V s e h)
    (m, ht) (DrainInv_init m ht)

/-- After `clean_table` on a well-formed table every bucket is empty, the count
has gone down by the number of linked entries, the linked entries are freed, and
entries that were not linked are untouched. -/
theorem clean_table_spec (N : Nat) (m : Mem) (ht : HashTable) (hwf : WF N ht.table) :
    (∀ j, j < N → (clean_table N m ht).2.table j = []) ∧
    (clean_table N m ht).2.count = ht.count - ((all_entries N ht.table).length : Int) ∧
    (∀ p, ¬ linked N ht.table p → (clean_table N m ht).1.entry p = m.entry p) ∧
    (∀ p, (clean_table N m ht).1.live p = if linked N ht.table p then false else m.live p) := by
  have h := clean_table_inv N m ht hwf
  refine ⟨?_, h.count, ?_, ?_⟩
  · intro j hj
    show (for_each_entry N (fun s : Mem × HashTable => s.2.table)
        (fun s e => remove_entry s.1 s.2 e) (m, ht)).2.table j = []
    rw [h.table j, List.filter_eq_nil_iff]
    intro p hp
    have : p ∈ all_entries N ht.table := (mem_all_entries N ht.table p).2 ⟨j, hj, hp⟩
    simp [this]
  · intro p hp
    rw [← mem_all_entries] at hp
    exact h.fields p hp
  · intro p
    simp only [← mem_all_entries]
    exact h.live p

/-! ## The count invariant -/

theorem hash_lt (N : Nat) (key : Mac) (hN : 0 < N) : hash N key < N := Nat.mod_lt _ hN

theorem all_entries_eq_nil (N : Nat) (table : Nat → List Ptr) (h : ∀ j, j < N → table j = []) :
    all_entries N table = [] := by
  unfold all_entries
  rw [List.flatMap_eq_nil_iff]
  intro j hj
  exact h j (List.mem_range.1 hj)

theorem CountOK_init (N : Nat) (ht : HashTable) :
    CountOK N { count := 0, table := fun i => if i < N then [] else ht.table i } := by
  have h : all_entries N (fun i => if i < N then [] else ht.table i) = [] :=
    all_entries_eq_nil N _ (fun j hj => by simp [hj])
  unfold CountOK WF
  simp only [h]
  exact ⟨List.nodup_nil, rfl⟩

theorem CountOK_cons_at (N : Nat) (ht : HashTable) (i : Nat) (x : Ptr) (hi : i < N)
    (hx : ¬ linked N ht.table x) (h : CountOK N ht) :
    CountOK N { count := ht.count + 1,
                table := fun j => if j = i then x :: ht.table j else ht.table j } := by
  have hp := all_entries_cons_at N ht.table i x hi
  unfold CountOK WF at *
  constructor
  · rw [hp.nodup_iff, List.nodup_cons]
    exact ⟨fun hc => hx ((mem_all_entries N ht.table x).1 hc), h.1⟩
  · simp only [hp.length_eq, List.length_cons, h.2]
    push_cast
    rfl

theorem CountOK_list_del (N : Nat) (ht : HashTable) (x : Ptr) (hx : linked N ht.table x)
    (h : CountOK N ht) :
    CountOK N { count := ht.count - 1, table := list_del x ht.table } := by
  unfold CountOK at *
  refine ⟨WF_list_del N x ht.table h.1, ?_⟩
  simp only [all_entries_list_del]
  rw [length_filter_ne_of_nodup _ x h.1 ((mem_all_entries N ht.table x).2 hx), h.2]

theorem CountOK_remove_entry_mac (N : Nat) (hN : 0 < N) (m : Mem) (ht : HashTable) (mac : Mac)
    (h : CountOK N ht) : CountOK N (remove_entry_mac N m ht mac).2 := by
  unfold remove_entry_mac
  split
  · rename_i e he
    rw [remove_entry_snd]
    exact CountOK_list_del N ht e ⟨_, hash_lt N mac hN, List.mem_of_find?_eq_some he⟩ h
  · exact h

theorem CountOK_remove_entry_ip (N : Nat) (hN : 0 < N) (m : Mem) (ht : HashTable) (ip : Nat)
    (h : CountOK N ht) : CountOK N (remove_entry_ip N m ht ip).2 := by
  rcases remove_entry_ip_cases N m ht ip with ⟨hr, _⟩ | ⟨q, hq, _, hr⟩
  · rw [hr]; exact h
  · rw [hr]
    exact CountOK_list_del N ht q ⟨_, hash_ip_lt N ip hN, hq⟩ h

theorem length_filter_not (l : List Ptr) (P : Ptr → Prop) [DecidablePred P] :
    ((l.filter (fun p => decide (¬ P p))).length : Int) =
      (l.length : Int) - ((l.filter (fun p => decide (P p))).length : Int) := by
  induction l with
  | nil => simp
  | cons a l ih =>
    by_cases ha : P a
    · simp only [ha, not_true_eq_false, decide_False, Bool.false_eq_true, not_false_eq_true,
        List.filter_cons_of_neg, decide_True, List.filter_cons_of_pos, List.length_cons]
      push_cast
      omega
    · simp only [ha, not_false_eq_true, decide_True, List.filter_cons_of_pos, List.length_cons,
        decide_False, Bool.false_eq_true, List.filter_cons_of_neg]
      push_cast
      omega

theorem CountOK_clean_suspended_entries (N : Nat) (hN : 0 < N) (m : Mem) (ht ip_ht : HashTable)
    (h : CountOK N ht) (hip : CountOK N ip_ht) :
    CountOK N (clean_suspended_entries N m ht ip_ht).2.1 ∧
    CountOK N (clean_suspended_entries N m ht ip_ht).2.2 := by
  constructor
  · have hI := clean_suspended_entries_inv N m ht ip_ht h.1
    have hall : all_entries N (clean_suspended_entries N m ht ip_ht).2.1.table =
        (all_entries N ht.table).filter
          (fun p => decide (¬ (m.entry p).status = XENLOOP_STATUS_SUSPEND)) := by
      unfold all_entries
      rw [List.filter_flatMap]
      apply List.flatMap_congr
      intro j hj
      rw [hI.table j]
      apply List.filter_congr
      intro p hp
      have h2 : p ∈ all_entries N ht.table :=
        (mem_all_entries N ht.table p).2 ⟨j, List.mem_range.1 hj, hp⟩
      simp [h2]
    unfold CountOK WF
    rw [hall]
    refine ⟨h.1.filter _, ?_⟩
    rw [hI.count, length_filter_not, h.2]
  · exact for_each_entry_preserves N (fun s : Mem × HashTable × HashTable => s.2.1.table)
      (clean_suspended_body N) (fun s => CountOK N s.2.2)
      (fun s e hs => by
        unfold clean_suspended_body
        simp only
        split_ifs with h1 h2
        · exact CountOK_remove_entry_ip N hN _ _ _ hs
        · exact hs
        · exact hs)
      (m, ht, ip_ht) hip

theorem CountOK_clean_table (N : Nat) (m : Mem) (ht : HashTable) (h : CountOK N ht) :
    CountOK N (clean_table N m ht).2 := by
  obtain ⟨h1, h2, _, _⟩ := clean_table_spec N m ht h.1
  have hall := all_entries_eq_nil N _ h1
  unfold CountOK WF
  rw [hall, h2, h.2]
  exact ⟨List.nodup_nil, by simp⟩

theorem insert_table_some (N : Nat) (m : Mem) (ht : HashTable) (key : Mac) (d jiffies : Nat)
    (alloc : Option Ptr) (r : Mem × HashTable)
    (h : insert_table N m ht key d jiffies alloc = some r) :
    ∃ p, alloc = some p ∧ ¬ linked N ht.table p ∧
      r = ((m.setEntry p
              { mac := key, domid := d, timestamp := jiffies, del_timer := 0,
                status := XENLOOP_STATUS_INIT, listen_flag := 0xff, bfh := none,
                retry_count := 0, ip := 0 }).setLive p true,
            { count := ht.count + 1,
              table := fun j => if j = hash N key then p :: ht.table j else ht.table j }) := by
  rcases alloc with _ | p
  · simp [insert_table] at h
  · by_cases hl : linked N ht.table p
    · simp [insert_table, list_add, hl] at h
    · rw [insert_table_eq N m ht key d jiffies p hl] at h
      exact ⟨p, rfl, hl, (Option.some.inj h).symm⟩

theorem insert_table_ip_some (N : Nat) (m : Mem) (ht : HashTable) (ip : Nat)
    (e : Option Ptr) (r : Mem × HashTable) (h : insert_table_ip N m ht ip e = some r) :
    ∃ p, e = some p ∧ ¬ linked N ht.table p ∧
      r = (m.setEntry p { m.entry p with ip := ip },
            { count := ht.count + 1,
              table := fun j => if j = hash_ip N ip then p :: ht.table j else ht.table j }) := by
  rcases e with _ | p
  · simp [insert_table_ip] at h
  · by_cases hl : linked N ht.table p
    · simp [insert_table_ip, list_add, hl] at h
    · rw [insert_table_ip_eq N m ht ip p hl] at h
      exact ⟨p, rfl, hl, (Option.some.inj h).symm⟩

theorem exec_CountOK (N w D H : Nat) (hN : 0 < N) (s s1 : World) (op : Op)
    (h : CountOK N s.ht ∧ CountOK N s.ip_ht) (he : exec N w D H s op = some s1) :
    CountOK N s1.ht ∧ CountOK N s1.ip_ht := by
  cases op with
  | insert_table key d jiffies alloc =>
    simp only [exec, Option.map_eq_some'] at he
    obtain ⟨r, hr, rfl⟩ := he
    obtain ⟨p, _, hl, rfl⟩ := insert_table_some N _ _ _ _ _ _ _ hr
    exact ⟨CountOK_cons_at N s.ht _ p (hash_lt N key hN) hl h.1, h.2⟩
  | insert_table_ip ip e =>
    simp only [exec, Option.map_eq_some'] at he
    obtain ⟨r, hr, rfl⟩ := he
    obtain ⟨p, _, hl, rfl⟩ := insert_table_ip_some N _ _ _ _ _ hr
    exact ⟨h.1, CountOK_cons_at N s.ip_ht _ p (hash_ip_lt N ip hN) hl h.2⟩
  | remove_entry_mac mac =>
    simp only [exec, Option.some.injEq] at he
    subst he
    exact ⟨CountOK_remove_entry_mac N hN _ _ _ h.1, h.2⟩
  | remove_entry_ip ip =>
    simp only [exec, Option.some.injEq] at he
    subst he
    exact ⟨h.1, CountOK_remove_entry_ip N hN _ _ _ h.2⟩
  | update_table jiffies mac mac_count =>
    simp only [exec, Option.some.injEq] at he
    subst he
    simp only [update_table_snd]
    exact h
  | check_timeout jiffies =>
    simp only [exec, Option.some.injEq] at he
    subst he
    simp only [check_timeout_snd]
    exact h
  | mark_suspend =>
    simp only [exec, Option.some.injEq] at he
    subst he
    simp only [mark_suspend_snd]
    exact h
  | clean_suspended_entries =>
    simp only [exec, Option.some.injEq] at he
    subst he
    exact CountOK_clean_suspended_entries N hN _ _ _ h.1 h.2
  | clean_table =>
    simp only [exec, Option.some.injEq] at he
    subst he
    exact ⟨CountOK_clean_table N _ _ h.1, h.2⟩
  | notify_all_bfs =>
    simp only [exec, Option.some.injEq] at he
    subst he
    simp only [notify_all_bfs_snd]
    exact h

theorem run_CountOK (N w D H : Nat) (hN : 0 < N) (ops : List Op) (s s1 : World)
    (h : CountOK N s.ht ∧ CountOK N s.ip_ht) (hr : run N w D H ops s = some s1) :
    CountOK N s1.ht ∧ CountOK N s1.ip_ht := by
  induction ops generalizing s with
  | nil =>
    simp only [run, Option.some.injEq] at hr
    subst hr; exact h
  | cons op ops ih =>
    simp only [run] at hr
    rcases he : exec N w D H s op with _ | s2
    · rw [he] at hr; cases hr
    · rw [he] at hr
      exact ih s2 (exec_CountOK N w D H hN s s2 op h he) hr

/-! ## C5: the count invariant -/

/-- C5, as the code has it.  Start from two freshly initialised tables and run
any sequence of the public operations that returns, that is, in which no
allocation fails and no `list_add` is applied to a node that is already linked
(`insert_table_ip` is not called for an entry whose reference is still in the
IP table).  Then in each of the two tables no node is linked twice and the
count field equals the total number of entries linked across the buckets. -/
theorem count_invariant (N w DISCOVER_TIMEOUT HZ : Nat) (hN : 0 < N) (m : Mem)
    (ht ip_ht : HashTable) (ops : List Op) (s : World)
    (hrun : run N w DISCOVER_TIMEOUT HZ ops (init_world N m ht ip_ht) = some s) :
    s.ht.count = ((all_entries N s.ht.table).length : Int) ∧
    s.ip_ht.count = ((all_entries N s.ip_ht.table).length : Int) ∧
    WF N s.ht.table ∧ WF N s.ip_ht.table := by
  have h := run_CountOK N w DISCOVER_TIMEOUT HZ hN ops (init_world N m ht ip_ht) s
    ⟨CountOK_init N ht, CountOK_init N ip_ht⟩ hrun
  exact ⟨h.1.2, h.2.2, h.1.1, h.2.1⟩

/-- Witness for C5 (amended): the sample sequence followed by a reap. -/
theorem count_invariant_witness :
    ∃ s, run 4 64 1 1 (sample_shared_ip_ops ++ [Op.clean_suspended_entries])
        (init_world 4 sample_mem empty_table empty_table) = some s ∧
      s.ht.count = ((all_entries 4 s.ht.table).length : Int) ∧
      s.ip_ht.count = ((all_entries 4 s.ip_ht.table).length : Int) ∧
      WF 4 s.ht.table ∧ WF 4 s.ip_ht.table :=
  ⟨_, rfl, count_invariant 4 64 1 1 (by decide) sample_mem empty_table empty_table
    (sample_shared_ip_ops ++ [Op.clean_suspended_entries]) _ rfl⟩

theorem sample_links_once_walk :
    list_for_each_walk
      (list_head_add (ListHead.ip_mapping 1) (ListHead.bucket 1) sample_links)
      (ListHead.bucket 1) 2
      ((list_head_add (ListHead.ip_mapping 1) (ListHead.bucket 1) sample_links).next
        (ListHead.bucket 1)) = some [ListHead.ip_mapping 1] := by
  decide

theorem sample_links_twice_walk (fuel : Nat) :
    list_for_each_walk sample_links_twice (ListHead.bucket 1) fuel (ListHead.ip_mapping 1) =
      none := by
  induction fuel with
  | zero => rfl
  | succ k ih =>
    have h1 : sample_links_twice.next (ListHead.ip_mapping 1) = ListHead.ip_mapping 1 := by
      decide
    rw [list_for_each_walk, if_neg (by decide), h1, ih]; rfl

/-- C5 fails as stated: after `insert_table` and `insert_table_ip` the IP table
has count 1 and one reference linked; a second `insert_table_ip` for the same
entry applies `list_add` to its `ip_mapping` node while that node is linked in
bucket 1, and the count goes to 2.  On the `next` pointers the node then points
to itself: bucket 1 holds the one entry, the walk of `list_for_each` from the
head never comes back to the head, and no other bucket holds anything, so the
count (2) is not the number of linked entries (1).  The operation has no list
of entries as result in the embedding. -/
theorem count_invariant_counterexample :
    (∃ s, run 4 64 1 1
        [Op.insert_table sample_mac_A 1 0 (some 1), Op.insert_table_ip 5 (some 1)]
        (init_world 4 sample_mem empty_table empty_table) = some s ∧
      s.ip_ht.count = 1 ∧ all_entries 4 s.ip_ht.table = [1] ∧
      1 ∈ s.ip_ht.table (hash_ip 4 5) ∧
      exec 4 64 1 1 s (Op.insert_table_ip 5 (some 1)) = none) ∧
    run 4 64 1 1
      [Op.insert_table sample_mac_A 1 0 (some 1), Op.insert_table_ip 5 (some 1),
       Op.insert_table_ip 5 (some 1)]
      (init_world 4 sample_mem empty_table empty_table) = none ∧
    sample_links_twice.next (ListHead.bucket (hash_ip 4 5)) = ListHead.ip_mapping 1 ∧
    sample_links_twice.next (ListHead.ip_mapping 1) = ListHead.ip_mapping 1 ∧
    (∀ fuel, list_for_each_walk sample_links_twice (ListHead.bucket (hash_ip 4 5)) fuel
      (sample_links_twice.next (ListHead.bucket (hash_ip 4 5))) = none) :=
  ⟨⟨_, rfl, by decide, by decide, by decide, rfl⟩, rfl, by decide, by decide,
    fun fuel => sample_links_twice_walk fuel⟩

/-! ## Consistency of the two indices, operation by operation -/

theorem WF_cons_at (N : Nat) (table : Nat → List Ptr) (i : Nat) (x : Ptr) (hi : i < N)
    (hx : ¬ linked N table x) (h : WF N table) :
    WF N (fun j => if j = i then x :: table j else table j) := by
  unfold WF at *
  rw [(all_entries_cons_at N table i x hi).nodup_iff, List.nodup_cons]
  exact ⟨fun hc => hx ((mem_all_entries N table x).1 hc), h⟩

theorem mem_cons_at (table : Nat → List Ptr) (i j : Nat) (x p : Ptr) :
    p ∈ (if j = i then x :: table j else table j) ↔ (j = i ∧ p = x) ∨ p ∈ table j := by
  by_cases hji : j = i
  · simp [hji]
  · simp [hji]

theorem lookup_table_ip_eq_none (N : Nat) (m : Mem) (ht : HashTable) (ip : Nat) :
    lookup_table_ip N m ht ip = none ↔ ∀ q ∈ ht.table (hash_ip N ip), (m.entry q).ip ≠ ip := by
  unfold lookup_table_ip
  rw [List.find?_eq_none]
  simp

theorem lookup_table_eq_none (N : Nat) (m : Mem) (ht : HashTable) (key : Mac) :
    lookup_table N m ht key = none ↔ ∀ q ∈ ht.table (hash N key), (m.entry q).mac ≠ key := by
  unfold lookup_table
  rw [List.find?_eq_none]
  simp only [decide_eq_true_eq, equal_ne_zero_iff]
  constructor
  · intro h q hq hc; exact h q hq hc.symm
  · intro h q hq hc; exact h q hq hc.symm

theorem Consistent_not_ip_linked (N : Nat) (s : World) (h : Consistent N s) (p : Ptr)
    (hp : ¬ linked N s.ht.table p ∨ (s.mem.entry p).ip = 0) : ¬ linked N s.ip_ht.table p := by
  rintro ⟨j, hj, hm⟩
  obtain ⟨h1, h2, _⟩ := h.ip_ref j p hj hm
  rcases hp with hp | hp
  · exact hp h1
  · exact h2 hp

theorem Consistent_insert_table (N : Nat) (hN : 0 < N) (s : World) (key : Mac) (v : Entry)
    (p : Ptr) (hv : v.mac = key) (hip : v.ip = 0) (hl : ¬ linked N s.ht.table p)
    (h : Consistent N s) :
    Consistent N
      { s with mem := (s.mem.setEntry p v).setLive p true,
               ht := { count := s.ht.count + 1,
                       table := fun j => if j = hash N key then p :: s.ht.table j
                                         else s.ht.table j } } := by
  have hnip := Consistent_not_ip_linked N s h p (Or.inl hl)
  have hlt := hash_lt N key hN
  constructor
  · exact WF_cons_at N s.ht.table _ p hlt hl h.wf
  · intro i q hi hq
    simp only [mem_cons_at] at hq
    simp only [setLive_entry, setEntry_entry, setLive_live]
    rcases hq with ⟨hi2, rfl⟩ | hq
    · simp [hv, hi2]
    · have hqp : q ≠ p := fun hc => hl (hc ▸ ⟨i, hi, hq⟩)
      simp only [if_neg hqp]
      exact h.mac_bucket i q hi hq
  · intro j q hj hq
    have hqp : q ≠ p := fun hc => hnip (hc ▸ ⟨j, hj, hq⟩)
    obtain ⟨h1, h2, h3⟩ := h.ip_ref j q hj hq
    simp only [setLive_entry, setEntry_entry, if_neg hqp]
    exact ⟨(linked_cons_at N s.ht.table _ p q hlt).2 (Or.inr h1), h2, h3⟩
  · intro q hq hqip
    simp only [setLive_entry, setEntry_entry] at hqip
    rcases (linked_cons_at N s.ht.table _ p q hlt).1 hq with rfl | hq
    · simp [hip] at hqip
    · have hqp : q ≠ p := fun hc => hl (hc ▸ hq)
      rw [if_neg hqp] at hqip
      exact h.ip_linked q hq hqip
  · intro q r hq hr hqr
    have hqp : q ≠ p := fun hc => hnip (hc ▸ hq)
    have hrp : r ≠ p := fun hc => hnip (hc ▸ hr)
    simp only [setLive_entry, setEntry_entry, if_neg hqp, if_neg hrp] at hqr
    exact h.ip_unique q r hq hr hqr

theorem Consistent_insert_table_ip (N : Nat) (hN : 0 < N) (s : World) (ip : Nat) (p : Ptr)
    (hpl : linked N s.ht.table p) (hp0 : (s.mem.entry p).ip = 0) (hip : ip ≠ 0)
    (hnone : lookup_table_ip N s.mem s.ip_ht ip = none) (h : Consistent N s) :
    Consistent N
      { s with mem := s.mem.setEntry p { s.mem.entry p with ip := ip },
               ip_ht := { count := s.ip_ht.count + 1,
                          table := fun j => if j = hash_ip N ip then p :: s.ip_ht.table j
                                            else s.ip_ht.table j } } := by
  have hnip := Consistent_not_ip_linked N s h p (Or.inr hp0)
  have hlt := hash_ip_lt N ip hN
  rw [lookup_table_ip_eq_none] at hnone
  have hfresh : ∀ r, linked N s.ip_ht.table r → (s.mem.entry r).ip ≠ ip := by
    rintro r ⟨j, hj, hr⟩ hc
    obtain ⟨_, _, h3⟩ := h.ip_ref j r hj hr
    rw [hc] at h3
    subst h3
    exact hnone r hr hc
  constructor
  · exact h.wf
  · intro i q hi hq
    obtain ⟨h1, h2⟩ := h.mac_bucket i q hi hq
    simp only [setEntry_entry, setEntry_live]
    refine ⟨?_, h2⟩
    split_ifs with hqp
    · subst hqp; exact h1
    · exact h1
  · intro j q hj hq
    simp only [mem_cons_at] at hq
    simp only [setEntry_entry]
    rcases hq with ⟨hj2, rfl⟩ | hq
    · simp only [if_true]
      exact ⟨hpl, hip, hj2.symm⟩
    · have hqp : q ≠ p := fun hc => hnip (hc ▸ ⟨j, hj, hq⟩)
      simp only [if_neg hqp]
      exact h.ip_ref j q hj hq
  · intro q hq hqip
    apply (linked_cons_at N s.ip_ht.table _ p q hlt).2
    by_cases hqp : q = p
    · exact Or.inl hqp
    · simp only [setEntry_entry, if_neg hqp] at hqip
      exact Or.inr (h.ip_linked q hq hqip)
  · intro q r hq hr hqr
    simp only [setEntry_entry] at hqr
    have hq1 := (linked_cons_at N s.ip_ht.table _ p q hlt).1 hq
    have hr1 := (linked_cons_at N s.ip_ht.table _ p r hlt).1 hr
    by_cases hqp : q = p
    · by_cases hrp : r = p
      · rw [hqp, hrp]
      · have hr2 : linked N s.ip_ht.table r := hr1.resolve_left hrp
        simp only [if_pos hqp, if_neg hrp] at hqr
        exact absurd hqr.symm (hfresh r hr2)
    · have hq2 : linked N s.ip_ht.table q := hq1.resolve_left hqp
      by_cases hrp : r = p
      · simp only [if_pos hrp, if_neg hqp] at hqr
        exact absurd hqr (hfresh q hq2)
      · have hr2 : linked N s.ip_ht.table r := hr1.resolve_left hrp
        simp only [if_neg hqp, if_neg hrp] at hqr
        exact h.ip_unique q r hq2 hr2 hqr

theorem Consistent_remove_entry (N : Nat) (s : World) (e : Ptr)
    (he0 : (s.mem.entry e).ip = 0) (h : Consistent N s) :
    Consistent N
      { s with mem := (remove_entry s.mem s.ht e).1, ht := (remove_entry s.mem s.ht e).2 } := by
  have hnip := Consistent_not_ip_linked N s h e (Or.inr he0)
  constructor
  · exact WF_list_del N e s.ht.table h.wf
  · intro i q hi hq
    simp only [remove_entry_snd, list_del, List.mem_filter, decide_eq_true_eq] at hq
    simp only [remove_entry_entry, remove_entry_live, if_neg hq.2]
    exact h.mac_bucket i q hi hq.1
  · intro j q hj hq
    have hqe : q ≠ e := fun hc => hnip (hc ▸ ⟨j, hj, hq⟩)
    obtain ⟨h1, h2, h3⟩ := h.ip_ref j q hj hq
    simp only [remove_entry_entry, if_neg hqe, remove_entry_snd]
    exact ⟨(linked_list_del N s.ht.table e q).2 ⟨hqe, h1⟩, h2, h3⟩
  · intro q hq hqip
    simp only [remove_entry_snd] at hq
    obtain ⟨hqe, hq1⟩ := (linked_list_del N s.ht.table e q).1 hq
    simp only [remove_entry_entry, if_neg hqe] at hqip
    exact h.ip_linked q hq1 hqip
  · intro q r hq hr hqr
    have hqe : q ≠ e := fun hc => hnip (hc ▸ hq)
    have hre : r ≠ e := fun hc => hnip (hc ▸ hr)
    simp only [remove_entry_entry, if_neg hqe, if_neg hre] at hqr
    exact h.ip_unique q r hq hr hqr

theorem lookup_table_some_mem (N : Nat) (m : Mem) (ht : HashTable) (key : Mac) (e : Ptr)
    (h : lookup_table N m ht key = some e) :
    e ∈ ht.table (hash N key) ∧ (m.entry e).mac = key := by
  unfold lookup_table at h
  refine ⟨List.mem_of_find?_eq_some h, ?_⟩
  have := List.find?_some h
  simp only [decide_eq_true_eq, equal_ne_zero_iff] at this
  exact this.symm

theorem remove_entry_mac_eq (N : Nat) (m : Mem) (ht : HashTable) (mac : Mac) :
    remove_entry_mac N m ht mac =
      match lookup_table N m ht mac with
      | some e => remove_entry m ht e
      | none => (m, ht) := rfl

theorem Consistent_remove_entry_mac (N : Nat) (s : World) (mac : Mac)
    (hpre : disciplined N s (Op.remove_entry_mac mac) = true) (h : Consistent N s) :
    Consistent N
      { s with mem := (remove_entry_mac N s.mem s.ht mac).1,
               ht := (remove_entry_mac N s.mem s.ht mac).2 } := by
  rw [remove_entry_mac_eq]
  simp only [disciplined] at hpre
  rcases hl : lookup_table N s.mem s.ht mac with _ | e
  · exact h
  · rw [hl] at hpre
    simp only [decide_eq_true_eq] at hpre
    exact Consistent_remove_entry N s e hpre h

theorem Consistent_remove_entry_ip (N : Nat) (s : World) (ip : Nat) (h : Consistent N s) :
    Consistent N
      { s with mem := (remove_entry_ip N s.mem s.ip_ht ip).1,
               ip_ht := (remove_entry_ip N s.mem s.ip_ht ip).2 } := by
  rcases remove_entry_ip_cases N s.mem s.ip_ht ip with ⟨hr, _⟩ | ⟨q0, _, _, hr⟩
  · rw [hr]; exact h
  · rw [hr]
    constructor
    · exact h.wf
    · intro i q hi hq
      obtain ⟨h1, h2⟩ := h.mac_bucket i q hi hq
      simp only [setEntry_entry, setEntry_live]
      refine ⟨?_, h2⟩
      split_ifs with hqq
      · subst hqq; exact h1
      · exact h1
    · intro j q hj hq
      simp only [list_del, List.mem_filter, decide_eq_true_eq] at hq
      simp only [setEntry_entry, if_neg hq.2]
      exact h.ip_ref j q hj hq.1
    · intro q hq hqip
      simp only [setEntry_entry] at hqip
      have hqq : q ≠ q0 := by
        intro hc
        rw [if_pos hc] at hqip
        exact hqip rfl
      rw [if_neg hqq] at hqip
      exact (linked_list_del N s.ip_ht.table q0 q).2 ⟨hqq, h.ip_linked q hq hqip⟩
    · intro q r hq hr hqr
      obtain ⟨hqq, hq1⟩ := (linked_list_del N s.ip_ht.table q0 q).1 hq
      obtain ⟨hrq, hr1⟩ := (linked_list_del N s.ip_ht.table q0 r).1 hr
      simp only [setEntry_entry, if_neg hqq, if_neg hrq] at hqr
      exact h.ip_unique q r hq1 hr1 hqr

theorem Consistent_congr (N : Nat) (s : World) (m1 : Mem)
    (hk : ∀ p, (m1.entry p).mac = (s.mem.entry p).mac ∧ (m1.entry p).ip = (s.mem.entry p).ip)
    (hlive : m1.live = s.mem.live) (h : Consistent N s) :
    Consistent N { s with mem := m1 } := by
  constructor
  · exact h.wf
  · intro i q hi hq
    simp only [(hk q).1, hlive]
    exact h.mac_bucket i q hi hq
  · intro j q hj hq
    simp only [(hk q).2]
    exact h.ip_ref j q hj hq
  · intro q hq hqip
    simp only [(hk q).2] at hqip
    exact h.ip_linked q hq hqip
  · intro q r hq hr hqr
    simp only [(hk q).2, (hk r).2] at hqr
    exact h.ip_unique q r hq hr hqr

theorem Consistent_clean_table (N : Nat) (s : World)
    (hpre : disciplined N s Op.clean_table = true) (h : Consistent N s) :
    Consistent N
      { s with mem := (clean_table N s.mem s.ht).1, ht := (clean_table N s.mem s.ht).2 } := by
  simp only [disciplined, List.all_eq_true, decide_eq_true_eq] at hpre
  have hnone : ∀ p, ¬ linked N s.ip_ht.table p := by
    rintro p ⟨j, hj, hp⟩
    obtain ⟨h1, h2, _⟩ := h.ip_ref j p hj hp
    exact h2 (hpre p ((mem_all_entries N s.ht.table p).2 h1))
  obtain ⟨h1, _, _, _⟩ := clean_table_spec N s.mem s.ht h.wf
  have hempty : ∀ p, ¬ linked N (clean_table N s.mem s.ht).2.table p := by
    rintro p ⟨j, hj, hp⟩
    rw [h1 j hj] at hp
    cases hp
  constructor
  · unfold WF
    rw [all_entries_eq_nil N _ h1]
    exact List.nodup_nil
  · intro i q hi hq
    exact absurd ⟨i, hi, hq⟩ (hempty q)
  · intro j q hj hq
    exact absurd ⟨j, hj, hq⟩ (hnone q)
  · intro q hq _
    exact absurd hq (hempty q)
  · intro q r hq _ _
    exact absurd hq (hnone q)

theorem same_but_ip_mac {a b : Entry} (h : same_but_ip a b) : a.mac = b.mac := by
  unfold same_but_ip at h
  have := congrArg Entry.mac h
  exact this

theorem Consistent_clean_suspended_entries (N : Nat) (hN : 0 < N) (s : World)
    (h : Consistent N s) :
    Consistent N
      { mem := (clean_suspended_entries N s.mem s.ht s.ip_ht).1,
        ht := (clean_suspended_entries N s.mem s.ht s.ip_ht).2.1,
        ip_ht := (clean_suspended_entries N s.mem s.ht s.ip_ht).2.2 } := by
  have hU : ∀ q e, linked N s.ip_ht.table q → linked N s.ht.table e →
      (s.mem.entry e).status = XENLOOP_STATUS_SUSPEND → (s.mem.entry q).ip = (s.mem.entry e).ip →
      (s.mem.entry e).ip ≠ 0 → q = e :=
    fun q e hq he _ hqe he0 => h.ip_unique q e hq (h.ip_linked e he he0) hqe
  have hB : ∀ j e, j < N → e ∈ s.ip_ht.table j → linked N s.ht.table e →
      (s.mem.entry e).status = XENLOOP_STATUS_SUSPEND → (s.mem.entry e).ip ≠ 0 →
      j = hash_ip N (s.mem.entry e).ip :=
    fun j e hj he _ _ _ => (h.ip_ref j e hj he).2.2.symm
  obtain ⟨hA, hI⟩ := clean_suspended_entries_ip_inv N hN s.mem s.ht s.ip_ht h.wf hU hB
  -- membership in the new MAC buckets
  have hmac : ∀ i q, i < N → (q ∈ (clean_suspended_entries N s.mem s.ht s.ip_ht).2.1.table i ↔
      q ∈ s.ht.table i ∧ (s.mem.entry q).status ≠ XENLOOP_STATUS_SUSPEND) := by
    intro i q hi
    rw [hA.table i, List.mem_filter]
    constructor
    · rintro ⟨h1, h2⟩
      simp only [decide_eq_true_eq] at h2
      exact ⟨h1, fun hc => h2 ⟨(mem_all_entries N s.ht.table q).2 ⟨i, hi, h1⟩, hc⟩⟩
    · rintro ⟨h1, h2⟩
      exact ⟨h1, by simp [h2]⟩
  -- membership in the new IP buckets
  have hipm : ∀ j q, j < N → (q ∈ (clean_suspended_entries N s.mem s.ht s.ip_ht).2.2.table j ↔
      q ∈ s.ip_ht.table j ∧ (s.mem.entry q).status ≠ XENLOOP_STATUS_SUSPEND) := by
    intro j q hj
    rw [hI.ip_table j hj, List.mem_filter]
    constructor
    · rintro ⟨h1, h2⟩
      simp only [decide_eq_true_eq] at h2
      obtain ⟨g1, g2, _⟩ := h.ip_ref j q hj h1
      exact ⟨h1, fun hc => h2 ⟨(mem_all_entries N s.ht.table q).2 g1, hc, g2⟩⟩
    · rintro ⟨h1, h2⟩
      exact ⟨h1, by simp [h2]⟩
  have hkeep : ∀ q, (s.mem.entry q).status ≠ XENLOOP_STATUS_SUSPEND →
      ((clean_suspended_entries N s.mem s.ht s.ip_ht).1.entry q).mac = (s.mem.entry q).mac ∧
      ((clean_suspended_entries N s.mem s.ht s.ip_ht).1.entry q).ip = (s.mem.entry q).ip ∧
      (clean_suspended_entries N s.mem s.ht s.ip_ht).1.live q = s.mem.live q := by
    intro q hq
    refine ⟨?_, ?_, ?_⟩
    · rcases hA.fields q with hl | hr
      · exact absurd hl.2 hq
      · exact same_but_ip_mac hr
    · rw [hI.ip_exact q]
      simp [hq]
    · rw [hA.live q]
      simp [hq]
  constructor
  · show WF N (clean_suspended_entries N s.mem s.ht s.ip_ht).2.1.table
    have hall : all_entries N (clean_suspended_entries N s.mem s.ht s.ip_ht).2.1.table =
        (all_entries N s.ht.table).filter
          (fun p => decide (¬ (p ∈ all_entries N s.ht.table ∧
            (s.mem.entry p).status = XENLOOP_STATUS_SUSPEND))) := by
      unfold all_entries
      rw [List.filter_flatMap]
      apply List.flatMap_congr
      intro j _
      exact hA.table j
    unfold WF
    rw [hall]
    exact h.wf.filter _
  · intro i q hi hq
    obtain ⟨h1, h2⟩ := (hmac i q hi).1 hq
    obtain ⟨g1, g2, g3⟩ := hkeep q h2
    simp only [g1, g3]
    exact h.mac_bucket i q hi h1
  · intro j q hj hq
    obtain ⟨h1, h2⟩ := (hipm j q hj).1 hq
    obtain ⟨g1, g2, g3⟩ := hkeep q h2
    obtain ⟨⟨i, hi, f1⟩, f2, f3⟩ := h.ip_ref j q hj h1
    simp only [g2]
    exact ⟨⟨i, hi, (hmac i q hi).2 ⟨f1, h2⟩⟩, f2, f3⟩
  · rintro q ⟨i, hi, hq⟩ hqip
    obtain ⟨h1, h2⟩ := (hmac i q hi).1 hq
    obtain ⟨g1, g2, g3⟩ := hkeep q h2
    simp only [g2] at hqip
    obtain ⟨j, hj, f1⟩ := h.ip_linked q ⟨i, hi, h1⟩ hqip
    exact ⟨j, hj, (hipm j q hj).2 ⟨f1, h2⟩⟩
  · rintro q r ⟨j, hj, hq⟩ ⟨k, hk, hr⟩ hqr
    obtain ⟨h1, h2⟩ := (hipm j q hj).1 hq
    obtain ⟨h3, h4⟩ := (hipm k r hk).1 hr
    simp only [(hkeep q h2).2.1, (hkeep r h4).2.1] at hqr
    exact h.ip_unique q r ⟨j, hj, h1⟩ ⟨k, hk, h3⟩ hqr

theorem Consistent_init (N : Nat) (m : Mem) (ht ip_ht : HashTable) :
    Consistent N (init_world N m ht ip_ht) := by
  have h1 : ∀ j, j < N → (init_world N m ht ip_ht).ht.table j = [] := by
    intro j hj; simp [init_world, init_hash_table, hj]
  have h2 : ∀ j, j < N → (init_world N m ht ip_ht).ip_ht.table j = [] := by
    intro j hj; simp [init_world, init_hash_table_ip, hj]
  have he1 : ∀ p, ¬ linked N (init_world N m ht ip_ht).ht.table p := by
    rintro p ⟨j, hj, hp⟩; rw [h1 j hj] at hp; cases hp
  have he2 : ∀ p, ¬ linked N (init_world N m ht ip_ht).ip_ht.table p := by
    rintro p ⟨j, hj, hp⟩; rw [h2 j hj] at hp; cases hp
  constructor
  · unfold WF
    rw [all_entries_eq_nil N _ h1]
    exact List.nodup_nil
  · intro i q hi hq; exact absurd ⟨i, hi, hq⟩ (he1 q)
  · intro j q hj hq; exact absurd ⟨j, hj, hq⟩ (he2 q)
  · intro q hq _; exact absurd hq (he1 q)
  · intro q r hq _ _; exact absurd hq (he2 q)

/-- Each disciplined operation keeps the two indices consistent. -/
theorem exec_Consistent (N w D H : Nat) (hN : 0 < N) (s s1 : World) (op : Op)
    (h : Consistent N s) (hpre : disciplined N s op = true)
    (he : exec N w D H s op = some s1) : Consistent N s1 := by
  cases op with
  | insert_table key d jiffies alloc =>
    simp only [exec, Option.map_eq_some'] at he
    obtain ⟨r, hr, rfl⟩ := he
    obtain ⟨p, _, hl, rfl⟩ := insert_table_some N _ _ _ _ _ _ _ hr
    exact Consistent_insert_table N hN s key _ p rfl rfl hl h
  | insert_table_ip ip e =>
    simp only [exec, Option.map_eq_some'] at he
    obtain ⟨r, hr, rfl⟩ := he
    obtain ⟨p, rfl, hl, rfl⟩ := insert_table_ip_some N _ _ _ _ _ hr
    simp only [disciplined, Bool.and_eq_true, decide_eq_true_eq] at hpre
    obtain ⟨⟨⟨h1, h2⟩, h3⟩, h4⟩ := hpre
    exact Consistent_insert_table_ip N hN s ip p h1 h2 h3 h4 h
  | remove_entry_mac mac =>
    simp only [exec, Option.some.injEq] at he
    subst he
    exact Consistent_remove_entry_mac N s mac hpre h
  | remove_entry_ip ip =>
    simp only [exec, Option.some.injEq] at he
    subst he
    exact Consistent_remove_entry_ip N s ip h
  | update_table jiffies mac mac_count =>
    simp only [exec, Option.some.injEq] at he
    subst he
    simp only [update_table_snd]
    exact Consistent_congr N s _ (fun p => update_table_keys N jiffies s.mem s.ht mac mac_count p)
      (update_table_live N jiffies s.mem s.ht mac mac_count) h
  | check_timeout jiffies =>
    simp only [exec, Option.some.injEq] at he
    subst he
    simp only [check_timeout_snd]
    exact Consistent_congr N s _ (fun p => check_timeout_keys N w D H jiffies s.mem s.ht p)
      (check_timeout_live N w D H jiffies s.mem s.ht) h
  | mark_suspend =>
    simp only [exec, Option.some.injEq] at he
    subst he
    simp only [mark_suspend_snd]
    exact Consistent_congr N s _ (fun p => mark_suspend_keys N s.mem s.ht p)
      (mark_suspend_live N s.mem s.ht) h
  | clean_suspended_entries =>
    simp only [exec, Option.some.injEq] at he
    subst he
    exact Consistent_clean_suspended_entries N hN s h
  | clean_table =>
    simp only [exec, Option.some.injEq] at he
    subst he
    exact Consistent_clean_table N s hpre h
  | notify_all_bfs =>
    simp only [exec, Option.some.injEq] at he
    subst he
    simp only [notify_all_bfs_snd]
    exact Consistent_congr N s _
      (fun p => by rw [notify_all_bfs_entry]; exact ⟨rfl, rfl⟩)
      (notify_all_bfs_live N Member.ip_mapping (fun _ => none) s.mem s.ip_ht) h

theorem run_with_Consistent (N w D H : Nat) (hN : 0 < N) (pre : World → Op → Bool)
    (hpre : ∀ s op, pre s op = true → disciplined N s op = true)
    (ops : List Op) (s s1 : World) (h : Consistent N s)
    (hr : run_with pre N w D H ops s = some s1) : Consistent N s1 := by
  induction ops generalizing s with
  | nil =>
    simp only [run_with, Option.some.injEq] at hr
    subst hr; exact h
  | cons op ops ih =>
    simp only [run_with] at hr
    by_cases hp : pre s op = true
    · rw [if_pos hp] at hr
      rcases he : exec N w D H s op with _ | s2
      · rw [he] at hr; cases hr
      · rw [he] at hr
        exact ih s2 (exec_Consistent N w D H hN s s2 op h (hpre s op hp) he) hr
    · rw [if_neg hp] at hr; cases hr

/-! ## Unique addresses -/

theorem MacUnique_of_subset (N : Nat) (s s1 : World)
    (hsub : ∀ p, linked N s1.ht.table p →
      linked N s.ht.table p ∧ (s1.mem.entry p).mac = (s.mem.entry p).mac)
    (h : MacUnique N s) : MacUnique N s1 := by
  intro p q hp hq hpq
  obtain ⟨h1, h2⟩ := hsub p hp
  obtain ⟨h3, h4⟩ := hsub q hq
  rw [h2, h4] at hpq
  exact h p q h1 h3 hpq

theorem exec_MacUnique (N w D H : Nat) (hN : 0 < N) (s s1 : World) (op : Op)
    (hc : Consistent N s) (h : MacUnique N s) (hpre : fresh_address N s op = true)
    (he : exec N w D H s op = some s1) : MacUnique N s1 := by
  cases op with
  | insert_table key d jiffies alloc =>
    simp only [exec, Option.map_eq_some'] at he
    obtain ⟨r, hr, rfl⟩ := he
    obtain ⟨p, _, hl, rfl⟩ := insert_table_some N _ _ _ _ _ _ _ hr
    simp only [fresh_address, decide_eq_true_eq] at hpre
    rw [lookup_table_eq_none] at hpre
    have hlt := hash_lt N key hN
    have hfresh : ∀ q, linked N s.ht.table q → (s.mem.entry q).mac ≠ key := by
      rintro q ⟨i, hi, hq⟩ hqk
      have := (hc.mac_bucket i q hi hq).1
      rw [hqk] at this
      subst this
      exact hpre q hq hqk
    intro q r hq hr hqr
    simp only [setLive_entry, setEntry_entry] at hqr
    have hq1 := (linked_cons_at N s.ht.table _ p q hlt).1 hq
    have hr1 := (linked_cons_at N s.ht.table _ p r hlt).1 hr
    by_cases hqp : q = p
    · by_cases hrp : r = p
      · rw [hqp, hrp]
      · simp only [if_pos hqp, if_neg hrp] at hqr
        exact absurd hqr.symm (hfresh r (hr1.resolve_left hrp))
    · by_cases hrp : r = p
      · simp only [if_pos hrp, if_neg hqp] at hqr
        exact absurd hqr (hfresh q (hq1.resolve_left hqp))
      · simp only [if_neg hqp, if_neg hrp] at hqr
        exact h q r (hq1.resolve_left hqp) (hr1.resolve_left hrp) hqr
  | insert_table_ip ip e =>
    simp only [exec, Option.map_eq_some'] at he
    obtain ⟨r, hr, rfl⟩ := he
    obtain ⟨p, rfl, hl, rfl⟩ := insert_table_ip_some N _ _ _ _ _ hr
    apply MacUnique_of_subset N s _ _ h
    intro q hq
    refine ⟨hq, ?_⟩
    simp only [setEntry_entry]
    split_ifs with hqp
    · subst hqp; rfl
    · rfl
  | remove_entry_mac mac =>
    simp only [exec, Option.some.injEq] at he
    subst he
    apply MacUnique_of_subset N s _ _ h
    intro q hq
    refine ⟨?_, remove_entry_mac_mac N s.mem s.ht mac q⟩
    simp only at hq
    rw [remove_entry_mac_eq] at hq
    rcases hl : lookup_table N s.mem s.ht mac with _ | e
    · rw [hl] at hq; exact hq
    · rw [hl] at hq
      simp only [remove_entry_snd] at hq
      exact ((linked_list_del N s.ht.table e q).1 hq).2
  | remove_entry_ip ip =>
    simp only [exec, Option.some.injEq] at he
    subst he
    apply MacUnique_of_subset N s _ _ h
    intro q hq
    refine ⟨hq, ?_⟩
    rcases remove_entry_ip_cases N s.mem s.ip_ht ip with ⟨hr, _⟩ | ⟨q0, _, _, hr⟩
    · simp only [hr]
    · simp only [hr, setEntry_entry]
      split_ifs with hqq
      · subst hqq; rfl
      · rfl
  | update_table jiffies mac mac_count =>
    simp only [exec, Option.some.injEq] at he
    subst he
    apply MacUnique_of_subset N s _ _ h
    intro q hq
    simp only [update_table_snd] at hq
    exact ⟨hq, (update_table_keys N jiffies s.mem s.ht mac mac_count q).1⟩
  | check_timeout jiffies =>
    simp only [exec, Option.some.injEq] at he
    subst he
    apply MacUnique_of_subset N s _ _ h
    intro q hq
    simp only [check_timeout_snd] at hq
    exact ⟨hq, (check_timeout_keys N w D H jiffies s.mem s.ht q).1⟩
  | mark_suspend =>
    simp only [exec, Option.some.injEq] at he
    subst he
    apply MacUnique_of_subset N s _ _ h
    intro q hq
    simp only [mark_suspend_snd] at hq
    exact ⟨hq, (mark_suspend_keys N s.mem s.ht q).1⟩
  | clean_suspended_entries =>
    simp only [exec, Option.some.injEq] at he
    subst he
    have hA := clean_suspended_entries_inv N s.mem s.ht s.ip_ht hc.wf
    apply MacUnique_of_subset N s _ _ h
    rintro q ⟨i, hi, hq⟩
    simp only at hq
    rw [hA.table i, List.mem_filter] at hq
    have hql : linked N s.ht.table q := ⟨i, hi, hq.1⟩
    refine ⟨hql, ?_⟩
    rcases hA.fields q with hl | hr
    · have := hq.2
      simp only [decide_eq_true_eq] at this
      exact absurd hl this
    · exact same_but_ip_mac hr
  | clean_table =>
    simp only [exec, Option.some.injEq] at he
    subst he
    obtain ⟨h1, _, _, _⟩ := clean_table_spec N s.mem s.ht hc.wf
    rintro q r ⟨i, hi, hq⟩ _ _
    simp only at hq
    rw [h1 i hi] at hq
    cases hq
  | notify_all_bfs =>
    simp only [exec, Option.some.injEq] at he
    subst he
    apply MacUnique_of_subset N s _ _ h
    intro q hq
    refine ⟨hq, ?_⟩
    simp only [notify_all_bfs_entry]

theorem careful_disciplined (N : Nat) (s : World) (op : Op) (h : careful N s op = true) :
    disciplined N s op = true := by
  unfold careful at h
  rw [Bool.and_eq_true] at h
  exact h.1

theorem careful_fresh_address (N : Nat) (s : World) (op : Op) (h : careful N s op = true) :
    fresh_address N s op = true := by
  unfold careful at h
  rw [Bool.and_eq_true] at h
  exact h.2

theorem run_with_MacUnique (N w D H : Nat) (hN : 0 < N) (ops : List Op) (s s1 : World)
    (hc : Consistent N s) (h : MacUnique N s)
    (hr : run_with (careful N) N w D H ops s = some s1) : MacUnique N s1 := by
  induction ops generalizing s with
  | nil =>
    simp only [run_with, Option.some.injEq] at hr
    subst hr; exact h
  | cons op ops ih =>
    simp only [run_with] at hr
    by_cases hp : careful N s op = true
    · rw [if_pos hp] at hr
      rcases he : exec N w D H s op with _ | s2
      · rw [he] at hr; cases hr
      · rw [he] at hr
        exact ih s2
          (exec_Consistent N w D H hN s s2 op hc (careful_disciplined N s op hp) he)
          (exec_MacUnique N w D H hN s s2 op hc h (careful_fresh_address N s op hp) he) hr
    · rw [if_neg hp] at hr; cases hr

theorem MacUnique_init (N : Nat) (m : Mem) (ht ip_ht : HashTable) :
    MacUnique N (init_world N m ht ip_ht) := by
  rintro p q ⟨j, hj, hp⟩ _ _
  simp [init_world, init_hash_table, hj] at hp

theorem find?_eq_some_of_unique (l : List Ptr) (P : Ptr → Bool) (e : Ptr) (he : e ∈ l)
    (hP : P e = true) (hu : ∀ q ∈ l, P q = true → q = e) : l.find? P = some e := by
  rcases hf : l.find? P with _ | q
  · rw [List.find?_eq_none] at hf
    exact absurd hP (hf e he)
  · rw [hu q (List.mem_of_find?_eq_some hf) (List.find?_some hf)]

/-! ## C3: index agreement -/

/-- C3, as the code has it.  Start from two freshly initialised tables and run
any sequence of operations in which the caller keeps the keys unique and the
IP side in step: `insert_table` only for an address that is not in the table,
`insert_table_ip` only with a non-zero ip that no reference carries and for an
entry that is linked in the MAC table and has no ip yet, `remove_entry_mac` and
`clean_table` only on entries whose ip is 0.  Then for every entry `e` linked
in the MAC table with `e.ip ≠ 0`, `lookup_table_ip` of `e.ip` and
`lookup_table` of `e.mac` both return `e`. -/
theorem index_agreement (N w DISCOVER_TIMEOUT HZ : Nat) (hN : 0 < N) (m : Mem)
    (ht ip_ht : HashTable) (ops : List Op) (s : World)
    (hrun : run_with (careful N) N w DISCOVER_TIMEOUT HZ ops (init_world N m ht ip_ht) = some s)
    (e : Ptr) (he : linked N s.ht.table e) (hip : (s.mem.entry e).ip ≠ 0) :
    lookup_table_ip N s.mem s.ip_ht (s.mem.entry e).ip = some e ∧
    lookup_table N s.mem s.ht (s.mem.entry e).mac = some e := by
  have hc := run_with_Consistent N w DISCOVER_TIMEOUT HZ hN (careful N)
    (careful_disciplined N) ops _ s (Consistent_init N m ht ip_ht) hrun
  have hu := run_with_MacUnique N w DISCOVER_TIMEOUT HZ hN ops _ s
    (Consistent_init N m ht ip_ht) (MacUnique_init N m ht ip_ht) hrun
  constructor
  · obtain ⟨j, hj, hej⟩ := hc.ip_linked e he hip
    have hje := (hc.ip_ref j e hj hej).2.2
    subst hje
    unfold lookup_table_ip
    apply find?_eq_some_of_unique _ _ e hej (by simp)
    intro q hq hqe
    simp only [decide_eq_true_eq] at hqe
    exact hc.ip_unique q e ⟨_, hj, hq⟩ ⟨_, hj, hej⟩ hqe
  · obtain ⟨i, hi, hei⟩ := he
    have hie := (hc.mac_bucket i e hi hei).1
    subst hie
    unfold lookup_table
    apply find?_eq_some_of_unique _ _ e hei (by simp [equal_self])
    intro q hq hqe
    simp only [decide_eq_true_eq, equal_ne_zero_iff] at hqe
    exact hu q e ⟨_, hi, hq⟩ ⟨_, hi, hei⟩ hqe.symm

/-- Witness for C3 (amended): after the sample sequence entry 1 is linked with
ip 5 and both lookups return it. -/
theorem index_agreement_witness :
    ∃ s, run_with (careful 4) 4 64 1 1 sample_careful_ops
        (init_world 4 sample_mem empty_table empty_table) = some s ∧
      linked 4 s.ht.table 1 ∧ (s.mem.entry 1).ip ≠ 0 ∧
      lookup_table_ip 4 s.mem s.ip_ht (s.mem.entry 1).ip = some 1 ∧
      lookup_table 4 s.mem s.ht (s.mem.entry 1).mac = some 1 :=
  ⟨_, rfl, by decide, by decide,
    index_agreement 4 64 1 1 (by decide) sample_mem empty_table empty_table
      sample_careful_ops _ rfl 1 (by decide) (by decide)⟩

/-- C3 fails as stated: after two inserts and `insert_table_ip` of the same ip
for both entries, entry 1 is linked with ip 5, `lookup_table` of its address
returns it, and `lookup_table_ip` of 5 returns entry 2. -/
theorem index_agreement_counterexample :
    ∃ s, run 4 64 1 1 sample_shared_ip_ops (init_world 4 sample_mem empty_table empty_table) =
        some s ∧
      linked 4 s.ht.table 1 ∧ (s.mem.entry 1).ip = 5 ∧
      lookup_table 4 s.mem s.ht (s.mem.entry 1).mac = some 1 ∧
      lookup_table_ip 4 s.mem s.ip_ht (s.mem.entry 1).ip = some 2 :=
  ⟨_, rfl, by decide, by decide, by decide, by decide⟩

/-! ## C4: the IP table only refers to entries of the MAC table -/

/-- C4, as the code has it.  Start from two freshly initialised tables and run
any sequence of `insert_table`, `insert_table_ip`, `remove_entry_mac`,
`remove_entry_ip`, `update_table`, `check_timeout`, `mark_suspend`,
`clean_suspended_entries` and `clean_table` in which `insert_table_ip` is only
called with a non-zero ip that no reference carries and for an entry that is
linked in the MAC table and has no ip yet, and `remove_entry_mac` and
`clean_table` only remove entries whose ip is 0.  Then every reference linked
in the IP table is to an entry that is linked in the MAC table and allocated. -/
theorem ip_references_owned (N w DISCOVER_TIMEOUT HZ : Nat) (hN : 0 < N) (m : Mem)
    (ht ip_ht : HashTable) (ops : List Op) (s : World)
    (hrun : run_with (disciplined N) N w DISCOVER_TIMEOUT HZ ops (init_world N m ht ip_ht) =
      some s)
    (p : Ptr) (hp : linked N s.ip_ht.table p) :
    linked N s.ht.table p ∧ s.mem.live p = true := by
  have hc := run_with_Consistent N w DISCOVER_TIMEOUT HZ hN (disciplined N)
    (fun _ _ h => h) ops _ s (Consistent_init N m ht ip_ht) hrun
  obtain ⟨j, hj, hpj⟩ := hp
  obtain ⟨⟨i, hi, hpi⟩, _, _⟩ := hc.ip_ref j p hj hpj
  exact ⟨⟨i, hi, hpi⟩, (hc.mac_bucket i p hi hpi).2⟩

/-- Witness for C4 (amended): after the sample sequence the reference of
entry 1 is linked in the IP table and entry 1 is linked and allocated. -/
theorem ip_references_owned_witness :
    ∃ s, run_with (disciplined 4) 4 64 1 1 sample_careful_ops
        (init_world 4 sample_mem empty_table empty_table) = some s ∧
      linked 4 s.ip_ht.table 1 ∧ linked 4 s.ht.table 1 ∧ s.mem.live 1 = true :=
  ⟨_, rfl, by decide,
    ip_references_owned 4 64 1 1 (by decide) sample_mem empty_table empty_table
      sample_careful_ops _ rfl 1 (by decide)⟩

/-- C4 fails as stated: `remove_entry_mac` on an entry that has an ip frees
the entry and leaves its reference linked in the IP table. -/
theorem ip_references_owned_counterexample :
    ∃ s, run 4 64 1 1
        [Op.insert_table sample_mac_A 1 0 (some 1), Op.insert_table_ip 5 (some 1),
         Op.remove_entry_mac sample_mac_A]
        (init_world 4 sample_mem empty_table empty_table) = some s ∧
      linked 4 s.ip_ht.table 1 ∧ ¬ linked 4 s.ht.table 1 ∧ s.mem.live 1 = false ∧
      lookup_table_ip 4 s.mem s.ip_ht 5 = some 1 :=
  ⟨_, rfl, by decide, by decide, by decide, by decide⟩

/-! ## C6: the ip field and the IP table -/

/-- C6, as the code has it.  Under the same conditions on the caller as for
C4, an entry linked in the MAC table has a non-zero ip field if and only if its
reference is linked in the IP table, and a linked reference sits in bucket
`hash_ip` of the entry's ip. -/
theorem ip_field_agrees (N w DISCOVER_TIMEOUT HZ : Nat) (hN : 0 < N) (m : Mem)
    (ht ip_ht : HashTable) (ops : List Op) (s : World)
    (hrun : run_with (disciplined N) N w DISCOVER_TIMEOUT HZ ops (init_world N m ht ip_ht) =
      some s)
    (p : Ptr) (hp : linked N s.ht.table p) :
    ((s.mem.entry p).ip ≠ 0 ↔ linked N s.ip_ht.table p) ∧
    (∀ j, j < N → p ∈ s.ip_ht.table j → j = hash_ip N (s.mem.entry p).ip) := by
  have hc := run_with_Consistent N w DISCOVER_TIMEOUT HZ hN (disciplined N)
    (fun _ _ h => h) ops _ s (Consistent_init N m ht ip_ht) hrun
  refine ⟨⟨hc.ip_linked p hp, ?_⟩, ?_⟩
  · rintro ⟨j, hj, hpj⟩
    exact (hc.ip_ref j p hj hpj).2.1
  · intro j hj hpj
    exact (hc.ip_ref j p hj hpj).2.2.symm

/-- Witness for C6 (amended): after the sample sequence entry 1 has ip 5 and
its reference is in bucket 1 of the IP table. -/
theorem ip_field_agrees_witness :
    ∃ s, run_with (disciplined 4) 4 64 1 1 sample_careful_ops
        (init_world 4 sample_mem empty_table empty_table) = some s ∧
      linked 4 s.ht.table 1 ∧
      ((s.mem.entry 1).ip ≠ 0 ↔ linked 4 s.ip_ht.table 1) ∧
      (∀ j, j < 4 → 1 ∈ s.ip_ht.table j → j = hash_ip 4 (s.mem.entry 1).ip) :=
  ⟨_, rfl, by decide,
    ip_field_agrees 4 64 1 1 (by decide) sample_mem empty_table empty_table
      sample_careful_ops _ rfl 1 (by decide)⟩

/-- C6 fails as stated: `insert_table_ip` with ip 0 links a reference to an
entry whose ip field is 0. -/
theorem ip_field_agrees_counterexample :
    ∃ s, run 4 64 1 1
        [Op.insert_table sample_mac_A 1 0 (some 1), Op.insert_table_ip 0 (some 1)]
        (init_world 4 sample_mem empty_table empty_table) = some s ∧
      linked 4 s.ht.table 1 ∧ s.mem.live 1 = true ∧ (s.mem.entry 1).ip = 0 ∧
      linked 4 s.ip_ht.table 1 :=
  ⟨_, rfl, by decide, by decide, by decide, by decide⟩

/-! ## C11: `mark_suspend` -/

theorem has_suspend_entry_zero_or_one (N : Nat) (m : Mem) (ht : HashTable) :
    has_suspend_entry N m ht = 0 ∨ has_suspend_entry N m ht = 1 := by
  unfold has_suspend_entry
  split
  · exact Or.inr rfl
  · exact Or.inl rfl

theorem has_suspend_entry_eq_one (N : Nat) (m : Mem) (ht : HashTable) :
    has_suspend_entry N m ht = 1 ↔
      ∃ p, linked N ht.table p ∧ (m.entry p).status = XENLOOP_STATUS_SUSPEND := by
  constructor
  · intro h
    by_contra hc
    have h0 : has_suspend_entry N m ht = 0 := by
      rw [has_suspend_entry_eq_zero]
      intro j hj p hp hs
      exact hc ⟨p, ⟨j, hj, hp⟩, hs⟩
    rw [h0] at h
    cases h
  · rintro ⟨p, ⟨j, hj, hp⟩, hs⟩
    rcases has_suspend_entry_zero_or_one N m ht with h0 | h1
    · rw [has_suspend_entry_eq_zero] at h0
      exact absurd hs (h0 j hj p hp)
    · exact h1

/-- C11. For every table, `mark_suspend` leaves the table (every bucket and the
count) as it was, gives every linked entry status Suspend and keeps its other
fields, and does not touch entries that are not linked; consequently
`has_suspend_entry` afterwards returns 1 if and only if the table held at least
one entry before the call (and 0 otherwise). -/
theorem mark_suspend_total (N : Nat) (m : Mem) (ht : HashTable) :
    (mark_suspend N m ht).2 = ht ∧
    (∀ p, linked N ht.table p →
      (mark_suspend N m ht).1.entry p =
        { m.entry p with status := XENLOOP_STATUS_SUSPEND }) ∧
    (∀ p, ¬ linked N ht.table p → (mark_suspend N m ht).1.entry p = m.entry p) ∧
    (has_suspend_entry N (mark_suspend N m ht).1 (mark_suspend N m ht).2 = 1 ↔
      ∃ p, linked N ht.table p) ∧
    (has_suspend_entry N (mark_suspend N m ht).1 (mark_suspend N m ht).2 = 0 ↔
      ¬ ∃ p, linked N ht.table p) := by
  have h1 : ∀ p, linked N ht.table p →
      (mark_suspend N m ht).1.entry p =
        { m.entry p with status := XENLOOP_STATUS_SUSPEND } := by
    intro p hp
    rw [mark_suspend_entry, if_pos hp]
    rfl
  have h3 : has_suspend_entry N (mark_suspend N m ht).1 (mark_suspend N m ht).2 = 1 ↔
      ∃ p, linked N ht.table p := by
    rw [has_suspend_entry_eq_one, mark_suspend_snd]
    constructor
    · rintro ⟨p, hp, _⟩; exact ⟨p, hp⟩
    · rintro ⟨p, hp⟩
      refine ⟨p, hp, ?_⟩
      rw [h1 p hp]
  refine ⟨mark_suspend_snd N m ht, h1, ?_, h3, ?_⟩
  · intro p hp
    rw [mark_suspend_entry, if_neg hp]
  · rw [← h3]
    rcases has_suspend_entry_zero_or_one N (mark_suspend N m ht).1 (mark_suspend N m ht).2
      with h | h <;> simp [h]

/-- Witness for C11: a table with a Suspend entry and an Init entry. -/
theorem mark_suspend_total_witness :
    has_suspend_entry 4 (mark_suspend 4 sample_reap_mem sample_reap_table).1
      (mark_suspend 4 sample_reap_mem sample_reap_table).2 = 1 ∧
    ((mark_suspend 4 sample_reap_mem sample_reap_table).1.entry 2).status =
      XENLOOP_STATUS_SUSPEND :=
  ⟨(mark_suspend_total 4 sample_reap_mem sample_reap_table).2.2.2.1.2 ⟨2, by decide⟩,
   by rw [(mark_suspend_total 4 sample_reap_mem sample_reap_table).2.1 2 (by decide)]⟩

/-! ## C18: bucket selection -/

/-- C18. For every address and every table size `N > 0`: `hash` is the sum of
the last three bytes modulo `N`, the sum is at most `3 * 255` (it fits the `int`
the bytes are promoted to), two addresses that agree on bytes 3 to 5 get the
same bucket, and `hash` is below `N`; `hash_ip` is `ip mod N`, below `N`.  So
`insert_table` links its entry in a bucket of the array, namely bucket `hash` of
the key, `lookup_table` and `remove_entry_mac` of a key find and remove only
entries of bucket `hash` of that key, and likewise `insert_table_ip`,
`lookup_table_ip` and `remove_entry_ip` with `hash_ip`. -/
theorem bucket_selection (N : Nat) (hN : 0 < N) :
    (∀ a : Mac, hash N a = (a.b3.val + a.b4.val + a.b5.val) % N ∧
      a.b3.val + a.b4.val + a.b5.val ≤ 765 ∧ hash N a < N) ∧
    (∀ a b : Mac, a.b3 = b.b3 → a.b4 = b.b4 → a.b5 = b.b5 → hash N a = hash N b) ∧
    (∀ ip : Nat, hash_ip N ip = ip % N ∧ hash_ip N ip < N) ∧
    (∀ m ht key d jiffies p r, insert_table N m ht key d jiffies (some p) = some r →
      p ∈ r.2.table (hash N key) ∧ ∀ i, i ≠ hash N key → r.2.table i = ht.table i) ∧
    (∀ m ht key e, lookup_table N m ht key = some e → e ∈ ht.table (hash N key)) ∧
    (∀ m ht key, remove_entry_mac N m ht key = (m, ht) ∨
      ∃ e, e ∈ ht.table (hash N key) ∧ remove_entry_mac N m ht key = remove_entry m ht e) ∧
    (∀ m ht ip p r, insert_table_ip N m ht ip (some p) = some r →
      p ∈ r.2.table (hash_ip N ip) ∧ ∀ i, i ≠ hash_ip N ip → r.2.table i = ht.table i) ∧
    (∀ m ht ip e, lookup_table_ip N m ht ip = some e → e ∈ ht.table (hash_ip N ip)) ∧
    (∀ m ht ip, remove_entry_ip N m ht ip = (m, ht) ∨
      ∃ e, e ∈ ht.table (hash_ip N ip) ∧
        (remove_entry_ip N m ht ip).2.table = list_del e ht.table) := by
  refine ⟨?_, ?_, ?_, ?_, ?_, ?_, ?_, ?_, ?_⟩
  · intro a
    refine ⟨rfl, ?_, Nat.mod_lt _ hN⟩
    have h3 := a.b3.isLt
    have h4 := a.b4.isLt
    have h5 := a.b5.isLt
    omega
  · intro a b h3 h4 h5
    unfold hash
    rw [h3, h4, h5]
  · intro ip
    exact ⟨rfl, Nat.mod_lt _ hN⟩
  · intro m ht key d jiffies p r hr
    obtain ⟨q, hq, _, rfl⟩ := insert_table_some N m ht key d jiffies (some p) r hr
    cases hq
    constructor
    · simp
    · intro i hi
      simp [hi]
  · intro m ht key e he
    exact (lookup_table_some_mem N m ht key e he).1
  · intro m ht key
    rw [remove_entry_mac_eq]
    rcases hl : lookup_table N m ht key with _ | e
    · exact Or.inl rfl
    · exact Or.inr ⟨e, (lookup_table_some_mem N m ht key e hl).1, rfl⟩
  · intro m ht ip p r hr
    obtain ⟨q, hq, _, rfl⟩ := insert_table_ip_some N m ht ip (some p) r hr
    cases hq
    constructor
    · simp
    · intro i hi
      simp [hi]
  · intro m ht ip e he
    unfold lookup_table_ip at he
    exact List.mem_of_find?_eq_some he
  · intro m ht ip
    rcases remove_entry_ip_cases N m ht ip with ⟨hr, _⟩ | ⟨q, hq, _, hr⟩
    · exact Or.inl hr
    · exact Or.inr ⟨q, hq, by rw [hr]⟩

/-- Witness for C18: table size 4 and the address `00:00:00:00:00:01`. -/
theorem bucket_selection_witness :
    hash 4 sample_mac_A = 1 ∧ hash 4 sample_mac_A < 4 ∧ hash_ip 4 5 = 1 ∧ hash_ip 4 5 < 4 :=
  ⟨by decide, ((bucket_selection 4 (by decide)).1 sample_mac_A).2.2, by decide,
    ((bucket_selection 4 (by decide)).2.2.1 5).2⟩

/-! ## C19: inserting an address twice -/

theorem filter_ne_of_not_mem (l : List Ptr) (x : Ptr) (h : x ∉ l) :
    l.filter (fun p => decide (p ≠ x)) = l := by
  rw [List.filter_eq_self]
  intro a ha
  simp only [ne_eq, decide_eq_true_eq]
  exact fun hc => h (hc ▸ ha)

/-- C19. For every table, address `A`, peer ids `d1`, `d2` and two distinct
slab objects `p1`, `p2` that are not linked in the table: both `insert_table`
calls return, the count has grown by exactly 2, bucket `hash(A)` now starts with
the second entry followed by the first, and `lookup_table` of `A` returns the
second entry (domid `d2`); after one `remove_entry_mac` of `A` only the second
entry is gone (bucket `hash(A)` starts with the first entry, every bucket is
otherwise as at the start, the count is one more than at the start) and
`lookup_table` of `A` returns the first entry (domid `d1`). -/
theorem duplicate_insert_shadows (N : Nat) (hN : 0 < N) (m : Mem) (ht : HashTable) (A : Mac)
    (d1 d2 j1 j2 : Nat) (p1 p2 : Ptr) (h1 : ¬ linked N ht.table p1)
    (h2 : ¬ linked N ht.table p2) (h12 : p1 ≠ p2) :
    ∃ m1 ht1 m2 ht2,
      insert_table N m ht A d1 j1 (some p1) = some (m1, ht1) ∧
      insert_table N m1 ht1 A d2 j2 (some p2) = some (m2, ht2) ∧
      ht2.count = ht.count + 2 ∧
      ht2.table (hash N A) = p2 :: p1 :: ht.table (hash N A) ∧
      lookup_table N m2 ht2 A = some p2 ∧ (m2.entry p2).domid = d2 ∧
      (m2.entry p1).domid = d1 ∧
      (remove_entry_mac N m2 ht2 A).2.count = ht.count + 1 ∧
      (remove_entry_mac N m2 ht2 A).2.table (hash N A) = p1 :: ht.table (hash N A) ∧
      (∀ i, i < N → i ≠ hash N A → (remove_entry_mac N m2 ht2 A).2.table i = ht.table i) ∧
      lookup_table N (remove_entry_mac N m2 ht2 A).1 (remove_entry_mac N m2 ht2 A).2 A =
        some p1 ∧
      ((remove_entry_mac N m2 ht2 A).1.entry p1).domid = d1 := by
  have hlt := hash_lt N A hN
  have h2' : ¬ linked N
      (fun j => if j = hash N A then p1 :: ht.table j else ht.table j) p2 := by
    rw [linked_cons_at N ht.table _ p1 p2 hlt]
    rintro (hc | hc)
    · exact h12 hc.symm
    · exact h2 hc
  have hp2 : ∀ i, i < N → p2 ∉ ht.table i := fun i hi hc => h2 ⟨i, hi, hc⟩
  refine ⟨_, _, _, _, insert_table_eq N m ht A d1 j1 p1 h1,
    insert_table_eq N _ _ A d2 j2 p2 h2', ?_, ?_, ?_, ?_, ?_, ?_⟩
  · simp only; ring
  · simp
  · simp [lookup_table, equal_self]
  · simp
  · simp [h12]
  · have hl : lookup_table N
        (((((m.setEntry p1
              { mac := A, domid := d1, timestamp := j1, del_timer := 0,
                status := XENLOOP_STATUS_INIT, listen_flag := 0xff, bfh := none,
                retry_count := 0, ip := 0 }).setLive p1 true).setEntry p2
              { mac := A, domid := d2, timestamp := j2, del_timer := 0,
                status := XENLOOP_STATUS_INIT, listen_flag := 0xff, bfh := none,
                retry_count := 0, ip := 0 }).setLive p2 true))
        { count := ht.count + 1 + 1,
          table := fun j => if j = hash N A then
              p2 :: (if j = hash N A then p1 :: ht.table j else ht.table j)
            else (if j = hash N A then p1 :: ht.table j else ht.table j) } A = some p2 := by
      simp [lookup_table, equal_self]
    rw [remove_entry_mac_eq, hl]
    have hb : list_del p2
        (fun j => if j = hash N A then
              p2 :: (if j = hash N A then p1 :: ht.table j else ht.table j)
            else (if j = hash N A then p1 :: ht.table j else ht.table j)) (hash N A) =
        p1 :: ht.table (hash N A) := by
      have hne : ∀ a ∈ ht.table (hash N A), ¬ a = p2 :=
        fun a ha hc => hp2 _ hlt (hc ▸ ha)
      simpa [list_del, h12] using hne
    refine ⟨by simp only [remove_entry_snd]; ring, ?_, ?_, ?_, ?_⟩
    · simp only [remove_entry_snd]
      exact hb
    · intro i hi hne
      have hne2 : ∀ a ∈ ht.table i, ¬ a = p2 := fun a ha hc => hp2 i hi (hc ▸ ha)
      simp only [remove_entry_snd]
      simpa [list_del, hne] using hne2
    · unfold lookup_table
      simp only [remove_entry_snd]
      rw [hb, List.find?_cons_of_pos]
      simp [remove_entry_entry, h12, equal_self]
    · simp [remove_entry_entry, h12]

/-- Witness for C19: two inserts of `sample_mac_A` into an empty table. -/
theorem duplicate_insert_shadows_witness :
    ∃ m1 ht1 m2 ht2,
      insert_table 4 sample_mem empty_table sample_mac_A 1 0 (some 1) = some (m1, ht1) ∧
      insert_table 4 m1 ht1 sample_mac_A 2 0 (some 2) = some (m2, ht2) ∧
      ht2.count = empty_table.count + 2 ∧
      ht2.table (hash 4 sample_mac_A) = 2 :: 1 :: empty_table.table (hash 4 sample_mac_A) ∧
      lookup_table 4 m2 ht2 sample_mac_A = some 2 ∧ (m2.entry 2).domid = 2 ∧
      (m2.entry 1).domid = 1 ∧
      (remove_entry_mac 4 m2 ht2 sample_mac_A).2.count = empty_table.count + 1 ∧
      (remove_entry_mac 4 m2 ht2 sample_mac_A).2.table (hash 4 sample_mac_A) =
        1 :: empty_table.table (hash 4 sample_mac_A) ∧
      (∀ i, i < 4 → i ≠ hash 4 sample_mac_A →
        (remove_entry_mac 4 m2 ht2 sample_mac_A).2.table i = empty_table.table i) ∧
      lookup_table 4 (remove_entry_mac 4 m2 ht2 sample_mac_A).1
        (remove_entry_mac 4 m2 ht2 sample_mac_A).2 sample_mac_A = some 1 ∧
      ((remove_entry_mac 4 m2 ht2 sample_mac_A).1.entry 1).domid = 1 :=
  duplicate_insert_shadows 4 (by decide) sample_mem empty_table sample_mac_A 1 2 0 0 1 2
    (by decide) (by decide) (by decide)

/-! ## C13: absent keys -/

theorem remove_entry_ip_eq (N : Nat) (m : Mem) (ht : HashTable) (ip : Nat) :
    remove_entry_ip N m ht ip =
      match lookup_table_ip N m ht ip with
      | some e =>
        (m.setEntry e { m.entry e with ip := 0 },
         { count := ht.count - 1, table := list_del e ht.table })
      | none => (m, ht) := by
  have hp : (fun e => decide (ip = (m.entry e).ip)) = (fun e => decide ((m.entry e).ip = ip)) := by
    funext e
    by_cases h : (m.entry e).ip = ip
    · simp [h]
    · have h2 : ¬ ip = (m.entry e).ip := fun hc => h hc.symm
      simp [h, h2]
  unfold remove_entry_ip lookup_table_ip
  rw [hp]
  try rfl

theorem lookup_bfh_eq_none (N : Nat) (m : Mem) (ht : HashTable) (key : Option Ptr) :
    lookup_bfh N m ht key = none ↔ ∀ p, linked N ht.table p → (m.entry p).bfh ≠ key := by
  unfold lookup_bfh
  rw [scan_find_eq_none]
  constructor
  · rintro h p ⟨j, hj, hp⟩ hc
    have := h j (Nat.zero_le _) (by omega) p hp
    simp only [decide_eq_true_eq] at this
    exact this hc.symm
  · intro h j _ hj p hp
    simp only [decide_eq_true_eq]
    exact fun hc => h p ⟨j, by omega, hp⟩ hc.symm

/-- C13. For every table and memory (table size `N > 0`): when no linked entry
carries the address, `lookup_table` returns none and `remove_entry_mac` leaves
memory and table as they are; when no linked entry carries the ip,
`lookup_table_ip` returns none and `remove_entry_ip` leaves memory and table as
they are; when no linked entry has the channel handle, `lookup_bfh` returns
none.  When `lookup_table_ip` finds an entry `e` for the ip in a well-formed IP
table, `remove_entry_ip` unlinks exactly the reference of `e` (one node less),
decrements the IP table's count by one and sets the ip of `e` to 0; every other
field of `e`, every other entry and the allocation state are unchanged, the
call does not touch the MAC table, and `lookup_table` returns for every table
and address what it returned before. -/
theorem absent_keys (N w DISCOVER_TIMEOUT HZ : Nat) (hN : 0 < N) (m : Mem) (ht : HashTable) :
    (∀ key, (∀ p, linked N ht.table p → (m.entry p).mac ≠ key) →
      lookup_table N m ht key = none ∧ remove_entry_mac N m ht key = (m, ht)) ∧
    (∀ ip, (∀ p, linked N ht.table p → (m.entry p).ip ≠ ip) →
      lookup_table_ip N m ht ip = none ∧ remove_entry_ip N m ht ip = (m, ht)) ∧
    (∀ key, (∀ p, linked N ht.table p → (m.entry p).bfh ≠ key) →
      lookup_bfh N m ht key = none) ∧
    (∀ ip e, WF N ht.table → lookup_table_ip N m ht ip = some e →
      (remove_entry_ip N m ht ip).2.count = ht.count - 1 ∧
      (∀ j, j < N → (remove_entry_ip N m ht ip).2.table j = (ht.table j).erase e) ∧
      (∀ p, linked N (remove_entry_ip N m ht ip).2.table p ↔ linked N ht.table p ∧ p ≠ e) ∧
      ((all_entries N (remove_entry_ip N m ht ip).2.table).length + 1 =
        (all_entries N ht.table).length) ∧
      (remove_entry_ip N m ht ip).1.entry e = { m.entry e with ip := 0 } ∧
      (∀ p, p ≠ e → (remove_entry_ip N m ht ip).1.entry p = m.entry p) ∧
      (remove_entry_ip N m ht ip).1.live = m.live ∧
      (∀ (t : HashTable) (A : Mac),
        lookup_table N (remove_entry_ip N m ht ip).1 t A = lookup_table N m t A) ∧
      (∀ s : World, s.mem = m → s.ip_ht = ht →
        ∃ s1, exec N w DISCOVER_TIMEOUT HZ s (Op.remove_entry_ip ip) = some s1 ∧
          s1.ht = s.ht ∧ s1.mem = (remove_entry_ip N m ht ip).1 ∧
          s1.ip_ht = (remove_entry_ip N m ht ip).2)) := by
  refine ⟨?_, ?_, ?_, ?_⟩
  · intro key h
    have hl : lookup_table N m ht key = none := by
      rw [lookup_table_eq_none]
      intro q hq
      exact h q ⟨_, hash_lt N key hN, hq⟩
    exact ⟨hl, remove_entry_mac_of_lookup_none N m ht key hl⟩
  · intro ip h
    have hl : lookup_table_ip N m ht ip = none := by
      rw [lookup_table_ip_eq_none]
      intro q hq
      exact h q ⟨_, hash_ip_lt N ip hN, hq⟩
    refine ⟨hl, ?_⟩
    rw [remove_entry_ip_eq, hl]
  · intro key h
    exact (lookup_bfh_eq_none N m ht key).2 h
  · intro ip e hwf hl
    have hmem : e ∈ ht.table (hash_ip N ip) := by
      unfold lookup_table_ip at hl
      exact List.mem_of_find?_eq_some hl
    have hlk : linked N ht.table e := ⟨_, hash_ip_lt N ip hN, hmem⟩
    rw [remove_entry_ip_eq, hl]
    simp only
    refine ⟨trivial, ?_, ?_, ?_, ?_, ?_, rfl, ?_, ?_⟩
    · intro j hj
      simp only [list_del]
      have hnd := WF_bucket_nodup N ht.table hwf j hj
      rw [hnd.erase_eq_filter]
      apply List.filter_congr
      intro p _
      by_cases hpe : p = e <;> simp [hpe]
    · intro p
      rw [linked_list_del]
      exact and_comm
    · have h1 := length_filter_ne_of_nodup _ e hwf ((mem_all_entries N ht.table e).2 hlk)
      rw [all_entries_list_del]
      have h2 : 0 < (all_entries N ht.table).length :=
        List.length_pos_of_mem ((mem_all_entries N ht.table e).2 hlk)
      omega
    · simp
    · intro p hp
      simp [hp]
    · intro t A
      apply lookup_table_congr
      intro p
      simp only [setEntry_entry]
      split_ifs with hpe
      · subst hpe; rfl
      · rfl
    · intro s hm hi
      refine ⟨_, rfl, rfl, ?_, ?_⟩
      · simp only [hm, hi]
        rw [remove_entry_ip_eq, hl]
      · simp only [hm, hi]
        rw [remove_entry_ip_eq, hl]

/-- Witness for C13: an address that no entry carries, and the ip 5 of
entry 1. -/
theorem absent_keys_witness :
    (lookup_table 4 sample_reap_mem sample_reap_table ⟨0, 0, 0, 0, 0, 3⟩ = none ∧
      remove_entry_mac 4 sample_reap_mem sample_reap_table ⟨0, 0, 0, 0, 0, 3⟩ =
        (sample_reap_mem, sample_reap_table)) ∧
    (remove_entry_ip 4 sample_reap_mem sample_reap_table 5).2.count =
      sample_reap_table.count - 1 ∧
    (remove_entry_ip 4 sample_reap_mem sample_reap_table 5).1.entry 1 =
      { sample_reap_mem.entry 1 with ip := 0 } := by
  have h := absent_keys 4 64 1 1 (by decide) sample_reap_mem sample_reap_table
  have hall : all_entries 4 sample_reap_table.table = [1, 2] := by decide
  refine ⟨h.1 ⟨0, 0, 0, 0, 0, 3⟩ ?_, ?_, ?_⟩
  · intro p hp
    rw [← mem_all_entries, hall] at hp
    simp only [List.mem_cons, List.mem_singleton, List.not_mem_nil, or_false] at hp
    rcases hp with rfl | rfl <;> decide
  · exact (h.2.2.2 5 1 (by decide) (by decide)).1
  · exact (h.2.2.2 5 1 (by decide) (by decide)).2.2.2.2.1

/-! ## C14: Suspend is not undone on a linked entry -/

theorem exec_keeps_suspend (N w D H : Nat) (s s1 : World) (op : Op) (hwf : WF N s.ht.table)
    (he : exec N w D H s op = some s1) (p : Ptr) (hp : linked N s.ht.table p)
    (hs : (s.mem.entry p).status = XENLOOP_STATUS_SUSPEND) (hp1 : linked N s1.ht.table p) :
    (s1.mem.entry p).status = XENLOOP_STATUS_SUSPEND := by
  cases op with
  | insert_table key d jiffies alloc =>
    simp only [exec, Option.map_eq_some'] at he
    obtain ⟨r, hr, rfl⟩ := he
    obtain ⟨q, _, hl, rfl⟩ := insert_table_some N _ _ _ _ _ _ _ hr
    have hpq : p ≠ q := fun hc => hl (hc ▸ hp)
    simp only [setLive_entry, setEntry_entry, if_neg hpq]
    exact hs
  | insert_table_ip ip e =>
    simp only [exec, Option.map_eq_some'] at he
    obtain ⟨r, hr, rfl⟩ := he
    obtain ⟨q, rfl, hl, rfl⟩ := insert_table_ip_some N _ _ _ _ _ hr
    simp only [setEntry_entry]
    split_ifs with hpq
    · subst hpq; exact hs
    · exact hs
  | remove_entry_mac mac =>
    simp only [exec, Option.some.injEq] at he
    subst he
    simp only at hp1 ⊢
    rw [remove_entry_mac_eq] at hp1 ⊢
    rcases hl : lookup_table N s.mem s.ht mac with _ | e
    · simp only [hl]; exact hs
    · simp only [hl] at hp1 ⊢
      rw [remove_entry_snd] at hp1
      have hpe := ((linked_list_del N s.ht.table e p).1 hp1).1
      rw [remove_entry_entry, if_neg hpe]
      exact hs
  | remove_entry_ip ip =>
    simp only [exec, Option.some.injEq] at he
    subst he
    rcases remove_entry_ip_cases N s.mem s.ip_ht ip with ⟨hr, _⟩ | ⟨q0, _, _, hr⟩
    · simp only [hr]; exact hs
    · simp only [hr, setEntry_entry]
      split_ifs with hpq
      · subst hpq; exact hs
      · exact hs
  | update_table jiffies mac mac_count =>
    simp only [exec, Option.some.injEq] at he
    subst he
    simp only
    rw [update_table_entry]
    unfold update_entry
    split_ifs <;> first | exact hs | rfl
  | check_timeout jiffies =>
    simp only [exec, Option.some.injEq] at he
    subst he
    simp only
    rw [check_timeout_entry]
    unfold timeout_entry
    split_ifs
    · rfl
    · exact hs
  | mark_suspend =>
    simp only [exec, Option.some.injEq] at he
    subst he
    simp only
    rw [mark_suspend_entry]
    unfold suspend_entry
    split_ifs
    rfl
  | clean_suspended_entries =>
    simp only [exec, Option.some.injEq] at he
    subst he
    exfalso
    have hA := clean_suspended_entries_inv N s.mem s.ht s.ip_ht hwf
    obtain ⟨j, hj, hm⟩ := hp1
    simp only at hm
    rw [hA.table j, List.mem_filter] at hm
    have := hm.2
    simp only [decide_eq_true_eq] at this
    exact this ⟨(mem_all_entries N s.ht.table p).2 hp, hs⟩
  | clean_table =>
    simp only [exec, Option.some.injEq] at he
    subst he
    exfalso
    obtain ⟨h1, _, _, _⟩ := clean_table_spec N s.mem s.ht hwf
    obtain ⟨j, hj, hm⟩ := hp1
    simp only at hm
    rw [h1 j hj] at hm
    cases hm
  | notify_all_bfs =>
    simp only [exec, Option.some.injEq] at he
    subst he
    simp only [notify_all_bfs_entry]
    exact hs

/-- C14. In every state reachable from two freshly initialised tables, for
every state-changing operation (`insert_table`, `insert_table_ip`,
`remove_entry_ip`, `update_table`, `check_timeout`, `mark_suspend`,
`notify_all_bfs`, and also `remove_entry_mac`, `clean_suspended_entries` and
`clean_table`): an entry that is linked in the MAC table with status Suspend
before the operation and is still linked after it has status Suspend after it
(the lookups return a pointer and change nothing).  In particular
`update_table` naming the address of a linked entry gives it timestamp
`jiffies` and keeps its status.  `remove_entry` leaves the entry with status
Init and linked in no bucket of the table it was removed from. -/
theorem no_suspend_to_init (N w DISCOVER_TIMEOUT HZ : Nat) (hN : 0 < N) (m : Mem)
    (ht ip_ht : HashTable) (ops : List Op) (s : World)
    (hrun : run N w DISCOVER_TIMEOUT HZ ops (init_world N m ht ip_ht) = some s) :
    (∀ op s1 p, exec N w DISCOVER_TIMEOUT HZ s op = some s1 →
      linked N s.ht.table p → (s.mem.entry p).status = XENLOOP_STATUS_SUSPEND →
      linked N s1.ht.table p → (s1.mem.entry p).status = XENLOOP_STATUS_SUSPEND) ∧
    (∀ jiffies S p, linked N s.ht.table p → (s.mem.entry p).mac ∈ S →
      (update_table N jiffies s.mem s.ht S (S.length : Int)).1.entry p =
        { s.mem.entry p with timestamp := jiffies }) ∧
    (∀ e, ((remove_entry s.mem s.ht e).1.entry e).status = XENLOOP_STATUS_INIT ∧
      ¬ linked N (remove_entry s.mem s.ht e).2.table e) := by
  have hc := run_CountOK N w DISCOVER_TIMEOUT HZ hN ops (init_world N m ht ip_ht) s
    ⟨CountOK_init N ht, CountOK_init N ip_ht⟩ hrun
  refine ⟨?_, ?_, ?_⟩
  · intro op s1 p he hp hs hp1
    exact exec_keeps_suspend N w DISCOVER_TIMEOUT HZ s s1 op hc.1.1 he p hp hs hp1
  · intro jiffies S p hp hS
    rw [update_table_entry, if_pos hp, update_entry_seen _ _ _ hS]
  · intro e
    constructor
    · rw [remove_entry_entry, if_pos rfl]
    · rw [remove_entry_snd, linked_list_del]
      exact fun h => h.1 rfl

/-- Witness for C14: after the sample sequence entry 1 is linked and Suspend; a
further `update_table` that names its address leaves it Suspend. -/
theorem no_suspend_to_init_witness :
    ∃ s s1, run 4 64 1 1 sample_shared_ip_ops
        (init_world 4 sample_mem empty_table empty_table) = some s ∧
      exec 4 64 1 1 s (Op.update_table 20 [sample_mac_A] 1) = some s1 ∧
      linked 4 s.ht.table 1 ∧ (s.mem.entry 1).status = XENLOOP_STATUS_SUSPEND ∧
      (s1.mem.entry 1).status = XENLOOP_STATUS_SUSPEND :=
  ⟨_, _, rfl, rfl, by decide, by decide,
    (no_suspend_to_init 4 64 1 1 (by decide) sample_mem empty_table empty_table
      sample_shared_ip_ops _ rfl).1 (Op.update_table 20 [sample_mac_A] 1) _ 1 rfl
      (by decide) (by decide) (by decide)⟩

/-! ## The calls of the teardown -/

theorem remove_entry_log (m : Mem) (ht : HashTable) (e : Ptr) :
    (remove_entry m ht e).1.log = m.log ++ teardown_events (m.entry e) e := by
  unfold remove_entry teardown_events
  rcases hb : (m.entry e).bfh with _ | b
  · by_cases ht : (m.entry e).del_timer ≠ 0
    · simp [hb, ht]
    · simp [hb, ht]
  · by_cases hl : (m.entry e).listen_flag ≠ 0
    · by_cases ht : (m.entry e).del_timer ≠ 0
      · simp [hb, ht, hl]
      · simp [hb, ht, hl]
    · by_cases ht : (m.entry e).del_timer ≠ 0
      · simp [hb, ht, hl]
      · simp [hb, ht, hl]

theorem remove_entry_bf (m : Mem) (ht : HashTable) (e : Ptr) :
    (remove_entry m ht e).1.bf = m.bf := by
  unfold remove_entry
  rcases hb : (m.entry e).bfh with _ | b
  · simp only [setEntry_entry, if_true, hb]
    split_ifs <;> rfl
  · simp only [setEntry_entry, if_true, hb]
    split_ifs <;> rfl

theorem remove_entry_observed_spec (m : Mem) (e : Ptr) :
    (remove_entry_observed m e).map Prod.fst = teardown_events (m.entry e) e ∧
    ∀ x ∈ remove_entry_observed m e, x.2 = XENLOOP_STATUS_INIT := by
  unfold remove_entry_observed teardown_events
  rcases hb : (m.entry e).bfh with _ | b
  · by_cases ht : (m.entry e).del_timer ≠ 0
    · simp [hb, ht]
    · simp [hb, ht]
  · by_cases hl : (m.entry e).listen_flag ≠ 0
    · by_cases ht : (m.entry e).del_timer ≠ 0
      · simp [hb, ht, hl]
      · simp [hb, ht, hl]
    · by_cases ht : (m.entry e).del_timer ≠ 0
      · simp [hb, ht, hl]
      · simp [hb, ht, hl]

theorem teardown_events_congr {a b : Entry} (h : same_but_ip a b) (e : Ptr) :
    teardown_events a e = teardown_events b e := by
  unfold same_but_ip at h
  have h1 : a.bfh = b.bfh := by have := congrArg Entry.bfh h; exact this
  have h2 : a.listen_flag = b.listen_flag := by have := congrArg Entry.listen_flag h; exact this
  have h3 : a.del_timer = b.del_timer := by have := congrArg Entry.del_timer h; exact this
  unfold teardown_events
  rw [h1, h2, h3]

theorem count_free_teardown (v : Entry) (e x : Ptr) :
    (teardown_events v e).count (Event.kmem_cache_free x) = if x = e then 1 else 0 := by
  unfold teardown_events
  rcases hb : v.bfh with _ | b
  · by_cases ht : v.del_timer ≠ 0
    · by_cases hx : x = e <;> simp [ht, hx, List.count_cons]
    · by_cases hx : x = e <;> simp [ht, hx, List.count_cons]
  · by_cases hl : v.listen_flag ≠ 0
    · by_cases ht : v.del_timer ≠ 0
      · by_cases hx : x = e <;> simp [ht, hl, hx, List.count_cons]
      · by_cases hx : x = e <;> simp [ht, hl, hx, List.count_cons]
    · by_cases ht : v.del_timer ≠ 0
      · by_cases hx : x = e <;> simp [ht, hl, hx, List.count_cons]
      · by_cases hx : x = e <;> simp [ht, hl, hx, List.count_cons]

theorem count_free_flatMap (f : Ptr → Entry) (l : List Ptr) (hl : l.Nodup) (x : Ptr) :
    (l.flatMap (fun e => teardown_events (f e) e)).count (Event.kmem_cache_free x) =
      if x ∈ l then 1 else 0 := by
  induction l with
  | nil => simp
  | cons a l ih =>
    rw [List.nodup_cons] at hl
    simp only [List.flatMap_cons, List.count_append, count_free_teardown, ih hl.2,
      List.mem_cons]
    by_cases hxa : x = a
    · subst hxa; simp [hl.1]
    · simp [hxa]

theorem clean_table_log_inv (N : Nat) (m : Mem) (ht : HashTable) (hwf : WF N ht.table) :
    (for_each_entry N (fun s : Mem × HashTable => s.2.table)
        (fun s e => remove_entry s.1 s.2 e) (m, ht)).1.log =
      m.log ++ (all_entries N ht.table).flatMap (fun e => teardown_events (m.entry e) e) := by
  have h := for_each_entry_inv N (fun s : Mem × HashTable => s.2.table)
    (fun s e => remove_entry s.1 s.2 e) ht.table
    (fun V s => DrainInv m ht V s ∧
      s.1.log = m.log ++ V.flatMap (fun e => teardown_events (m.entry e) e)) hwf
    (fun V s i _ h hd => DrainInv_read m ht V s i h.1 hd)
    (fun V s e h he _ => by
      refine ⟨DrainInv_step m ht V s e h.1, ?_⟩
      rw [remove_entry_log, h.2, h.1.fields e he, List.flatMap_append]
      simp)
    (m, ht) ⟨DrainInv_init m ht, by simp⟩
  exact h.2

theorem clean_table_log (N : Nat) (m : Mem) (ht : HashTable) (hwf : WF N ht.table) :
    (clean_table N m ht).1.log =
      m.log ++ (all_entries N ht.table).flatMap (fun e => teardown_events (m.entry e) e) ++
        [Event.kmem_cache_destroy] := by
  unfold clean_table
  simp only [emit_log]
  rw [clean_table_log_inv N m ht hwf]

theorem remove_entry_ip_log (N : Nat) (m : Mem) (ht : HashTable) (ip : Nat) :
    (remove_entry_ip N m ht ip).1.log = m.log := by
  rcases remove_entry_ip_cases N m ht ip with ⟨hr, _⟩ | ⟨q, _, _, hr⟩
  · rw [hr]
  · rw [hr]; rfl

theorem clean_suspended_body_log (N : Nat) (m : Mem) (ht : HashTable) (V : List Ptr)
    (s : Mem × HashTable × HashTable) (e : Ptr) (h : ReapInv m ht V s) (he : e ∉ V)
    (hlog : s.1.log = m.log ++
      (V.filter (fun p => decide ((m.entry p).status = XENLOOP_STATUS_SUSPEND))).flatMap
        (fun e => teardown_events (m.entry e) e)) :
    (clean_suspended_body N s e).1.log = m.log ++
      ((V ++ [e]).filter (fun p => decide ((m.entry p).status = XENLOOP_STATUS_SUSPEND))).flatMap
        (fun e => teardown_events (m.entry e) e) := by
  have hf : same_but_ip (s.1.entry e) (m.entry e) := by
    rcases h.fields e with hl | hr
    · exact absurd hl.1 he
    · exact hr
  have hst := same_but_ip_status hf
  unfold clean_suspended_body
  by_cases hs : (s.1.entry e).status = XENLOOP_STATUS_SUSPEND
  · have hs0 : (m.entry e).status = XENLOOP_STATUS_SUSPEND := hst ▸ hs
    simp only [if_pos hs]
    obtain ⟨g1, _, _⟩ := reap_ip_step_mem N s.1 s.2.2 (s.1.entry e).ip
    have hl1 : (if (s.1.entry e).ip ≠ 0 then remove_entry_ip N s.1 s.2.2 (s.1.entry e).ip
        else (s.1, s.2.2)).1.log = s.1.log := by
      split_ifs
      · exact remove_entry_ip_log N s.1 s.2.2 _
      · rfl
    rw [remove_entry_log, hl1, hlog, teardown_events_congr (same_but_ip_trans (g1 e) hf),
      List.filter_append, List.flatMap_append]
    simp [hs0]
  · have hs0 : ¬ (m.entry e).status = XENLOOP_STATUS_SUSPEND := hst ▸ hs
    simp only [if_neg hs]
    rw [hlog, List.filter_append]
    simp [hs0]

theorem clean_suspended_entries_log (N : Nat) (m : Mem) (ht ip_ht : HashTable)
    (hwf : WF N ht.table) :
    (clean_suspended_entries N m ht ip_ht).1.log = m.log ++
      ((all_entries N ht.table).filter
        (fun p => decide ((m.entry p).status = XENLOOP_STATUS_SUSPEND))).flatMap
        (fun e => teardown_events (m.entry e) e) := by
  have h := for_each_entry_inv N (fun s : Mem × HashTable × HashTable => s.2.1.table)
    (clean_suspended_body N) ht.table
    (fun V s => ReapInv m ht V s ∧ s.1.log = m.log ++
      (V.filter (fun p => decide ((m.entry p).status = XENLOOP_STATUS_SUSPEND))).flatMap
        (fun e => teardown_events (m.entry e) e)) hwf
    (fun V s i _ h hd => ReapInv_read m ht V s i h.1 hd)
    (fun V s e h he _ =>
      ⟨clean_suspended_body_inv N m ht V s e h.1 he,
        clean_suspended_body_log N m ht V s e h.1 he h.2⟩)
    (m, ht, ip_ht) ⟨ReapInv_init m ht ip_ht, by simp⟩
  exact h.2

/-! ## C15: `clean_table` -/

/-- C15. For every well-formed table whose count is the number of its linked
entries (table size `N > 0`), after `clean_table` every bucket is empty, the
count is 0, `lookup_table` returns none for every address, and the calls made
are the teardown calls of `remove_entry` for each entry that was linked, in
scan order, followed by `kmem_cache_destroy`; in particular `kmem_cache_free`
is called exactly once for each entry that was linked and for no other. -/
theorem clean_table_drains (N : Nat) (hN : 0 < N) (m : Mem) (ht : HashTable)
    (hwf : WF N ht.table) (hcount : ht.count = ((all_entries N ht.table).length : Int)) :
    (∀ j, j < N → (clean_table N m ht).2.table j = []) ∧
    (clean_table N m ht).2.count = 0 ∧
    (∀ A, lookup_table N (clean_table N m ht).1 (clean_table N m ht).2 A = none) ∧
    (clean_table N m ht).1.log =
      m.log ++ (all_entries N ht.table).flatMap (fun e => teardown_events (m.entry e) e) ++
        [Event.kmem_cache_destroy] ∧
    (∀ e, linked N ht.table e →
      ((all_entries N ht.table).flatMap (fun e => teardown_events (m.entry e) e)).count
        (Event.kmem_cache_free e) = 1) ∧
    (∀ e, ¬ linked N ht.table e →
      ((all_entries N ht.table).flatMap (fun e => teardown_events (m.entry e) e)).count
        (Event.kmem_cache_free e) = 0) ∧
    (∀ e, linked N ht.table e → (clean_table N m ht).1.live e = false) := by
  obtain ⟨h1, h2, _, h4⟩ := clean_table_spec N m ht hwf
  refine ⟨h1, ?_, ?_, clean_table_log N m ht hwf, ?_, ?_, ?_⟩
  · rw [h2, hcount]; simp
  · intro A
    rw [lookup_table_eq_none, h1 _ (hash_lt N A hN)]
    intro q hq
    cases hq
  · intro e he
    rw [count_free_flatMap _ _ hwf, if_pos ((mem_all_entries N ht.table e).2 he)]
  · intro e he
    rw [count_free_flatMap _ _ hwf, if_neg (fun hc => he ((mem_all_entries N ht.table e).1 hc))]
  · intro e he
    rw [h4 e, if_pos he]

/-- Witness for C15: the table with entries 1 and 2. -/
theorem clean_table_drains_witness :
    (clean_table 4 sample_reap_mem sample_reap_table).2.count = 0 ∧
    lookup_table 4 (clean_table 4 sample_reap_mem sample_reap_table).1
      (clean_table 4 sample_reap_mem sample_reap_table).2 sample_mac_A = none ∧
    (clean_table 4 sample_reap_mem sample_reap_table).1.log =
      [Event.kmem_cache_free 1, Event.kmem_cache_free 2, Event.kmem_cache_destroy] := by
  have h := clean_table_drains 4 (by decide) sample_reap_mem sample_reap_table (by decide)
    (by decide)
  refine ⟨h.2.1, h.2.2.1 sample_mac_A, ?_⟩
  rw [h.2.2.2.1]
  decide

/-! ## C16: the teardown chooses by listening role -/

/-- C16. The calls of `remove_entry` on an entry `e` are `teardown_events`
of its fields: without a channel, neither `bf_destroy` nor `bf_disconnect`;
with a channel `b` and a non-zero `listen_flag`, `bf_destroy b` once and no
`bf_disconnect`; with a channel `b` and `listen_flag` zero, `bf_disconnect b`
once and no `bf_destroy`; then `del_timer` exactly when `del_timer` is set,
then `kmem_cache_free`.  At every one of these calls the entry already has
status Init, and afterwards its status is Init and its channel handle is null.
`remove_entry_mac` runs this teardown on the entry it finds, and
`clean_suspended_entries` and `clean_table` (on a well-formed table) run it
once for every entry they remove, in scan order.  An entry fresh from
`insert_table` has `listen_flag` 0xff, which is non-zero: it is torn down as
the listening party. -/
theorem teardown_by_role (N : Nat) (m : Mem) (ht : HashTable) (e : Ptr) :
    (remove_entry m ht e).1.log = m.log ++ teardown_events (m.entry e) e ∧
    (∀ v : Entry, v.bfh = none →
      teardown_events v e =
        (if v.del_timer ≠ 0 then [Event.del_timer e] else []) ++ [Event.kmem_cache_free e]) ∧
    (∀ (v : Entry) (b : Ptr), v.bfh = some b → v.listen_flag ≠ 0 →
      teardown_events v e =
        [Event.bf_destroy b] ++ (if v.del_timer ≠ 0 then [Event.del_timer e] else []) ++
          [Event.kmem_cache_free e]) ∧
    (∀ (v : Entry) (b : Ptr), v.bfh = some b → v.listen_flag = 0 →
      teardown_events v e =
        [Event.bf_disconnect b] ++ (if v.del_timer ≠ 0 then [Event.del_timer e] else []) ++
          [Event.kmem_cache_free e]) ∧
    ((remove_entry_observed m e).map Prod.fst = teardown_events (m.entry e) e ∧
      ∀ x ∈ remove_entry_observed m e, x.2 = XENLOOP_STATUS_INIT) ∧
    ((remove_entry m ht e).1.entry e).status = XENLOOP_STATUS_INIT ∧
    ((remove_entry m ht e).1.entry e).bfh = none ∧
    (∀ A, lookup_table N m ht A = some e →
      remove_entry_mac N m ht A = remove_entry m ht e) ∧
    (∀ ip_ht, WF N ht.table →
      (clean_suspended_entries N m ht ip_ht).1.log = m.log ++
        ((all_entries N ht.table).filter
          (fun p => decide ((m.entry p).status = XENLOOP_STATUS_SUSPEND))).flatMap
          (fun p => teardown_events (m.entry p) p)) ∧
    (WF N ht.table →
      (clean_table N m ht).1.log =
        m.log ++ (all_entries N ht.table).flatMap (fun p => teardown_events (m.entry p) p) ++
          [Event.kmem_cache_destroy]) ∧
    (∀ key d jiffies p r, insert_table N m ht key d jiffies (some p) = some r →
      (r.1.entry p).listen_flag = 0xff ∧ (r.1.entry p).listen_flag ≠ 0 ∧
      (r.1.entry p).bfh = none) := by
  refine ⟨remove_entry_log m ht e, ?_, ?_, ?_, remove_entry_observed_spec m e, ?_, ?_, ?_,
    ?_, ?_, ?_⟩
  · intro v hb
    simp [teardown_events, hb]
  · intro v b hb hl
    simp [teardown_events, hb, hl]
  · intro v b hb hl
    simp [teardown_events, hb, hl]
  · rw [remove_entry_entry, if_pos rfl]
  · rw [remove_entry_entry, if_pos rfl]
  · intro A hA
    rw [remove_entry_mac_eq, hA]
  · intro ip_ht hwf
    exact clean_suspended_entries_log N m ht ip_ht hwf
  · intro hwf
    exact clean_table_log N m ht hwf
  · intro key d jiffies p r hr
    obtain ⟨q, hq, _, rfl⟩ := insert_table_some N m ht key d jiffies (some p) r hr
    cases hq
    simp

/-- Witness for C16: an entry with a channel on the listening side and one on
the connecting side. -/
theorem teardown_by_role_witness :
    (remove_entry
        (sample_mem.setEntry 1 { sample_entry with bfh := some 7, listen_flag := 0xff })
        { count := 1, table := fun i => if i = 0 then [1] else [] } 1).1.log =
      [Event.bf_destroy 7, Event.kmem_cache_free 1] ∧
    (remove_entry
        (sample_mem.setEntry 1 { sample_entry with bfh := some 7, del_timer := 1 })
        { count := 1, table := fun i => if i = 0 then [1] else [] } 1).1.log =
      [Event.bf_disconnect 7, Event.del_timer 1, Event.kmem_cache_free 1] := by
  constructor
  · rw [(teardown_by_role 4 _ _ 1).1]; decide
  · rw [(teardown_by_role 4 _ _ 1).1]; decide

/-! ## C20: `notify_all_bfs` -/

theorem notify_all_bfs_body_bf (linked : Member) (stray : Ptr → Option Ptr) (m : Mem)
    (e : Ptr) : (notify_all_bfs_body linked stray m e).bf = m.bf := by
  unfold notify_all_bfs_body
  split
  · split_ifs <;> rfl
  · rfl

theorem notify_all_bfs_body_log (linked : Member) (stray : Ptr → Option Ptr) (m : Mem)
    (e : Ptr) :
    (notify_all_bfs_body linked stray m e).log = m.log ++ notify_events linked stray m e := by
  unfold notify_all_bfs_body notify_events
  split
  · split_ifs <;> simp
  · simp

theorem notify_events_congr (linked : Member) (stray : Ptr → Option Ptr) (m s : Mem)
    (h1 : s.entry = m.entry) (h2 : s.bf = m.bf) (e : Ptr) :
    notify_events linked stray s e = notify_events linked stray m e := by
  unfold notify_events list_entry_ip_mapping_bfh check_descriptor
  rw [h1, h2]

theorem notify_foldl_log (linked : Member) (stray : Ptr → Option Ptr) (m : Mem)
    (l : List Ptr) (s : Mem × HashTable) (h1 : s.1.entry = m.entry) (h2 : s.1.bf = m.bf) :
    (l.foldl (fun s e => (notify_all_bfs_body linked stray s.1 e, s.2)) s).1.log =
      s.1.log ++ l.flatMap (notify_events linked stray m) := by
  induction l generalizing s with
  | nil => simp
  | cons a l ih =>
    simp only [List.foldl_cons, List.flatMap_cons]
    rw [ih _ (by simp only [notify_all_bfs_body_entry]; exact h1)
      (by simp only [notify_all_bfs_body_bf]; exact h2)]
    simp only [notify_all_bfs_body_log, notify_events_congr linked stray m s.1 h1 h2,
      List.append_assoc]

theorem notify_all_bfs_log (N : Nat) (linked : Member) (stray : Ptr → Option Ptr) (m : Mem)
    (ht : HashTable) :
    (notify_all_bfs N linked stray m ht).1.log =
      m.log ++ (all_entries N ht.table).flatMap (notify_events linked stray m) := by
  unfold notify_all_bfs
  rw [for_each_entry_frame N (fun s : Mem × HashTable => s.2.table)
    (fun s e => (notify_all_bfs_body linked stray s.1 e, s.2)) (fun _ _ => rfl)]
  exact notify_foldl_log linked stray m _ (m, ht) rfl rfl

theorem notify_all_bfs_bf (N : Nat) (linked : Member) (stray : Ptr → Option Ptr) (m : Mem)
    (ht : HashTable) : (notify_all_bfs N linked stray m ht).1.bf = m.bf :=
  for_each_entry_proj N (fun s : Mem × HashTable => s.2.table)
    (fun s e => (notify_all_bfs_body linked stray s.1 e, s.2)) (fun s => s.1.bf)
    (fun s e => notify_all_bfs_body_bf linked stray s.1 e) (m, ht)

/-- What `notify_all_bfs` does on a table whose buckets link `ip_mapping` nodes
(the IP table), the member its `list_entry` names: the table (buckets and
count), every entry field, the allocation state and the channel objects are
unchanged, and the calls are, in scan order, one `bf_notify` on the port of the
channel for each linked entry whose channel is live and has an outbound queue
of size greater than 0, and nothing for any other entry.  What the memory holds
next to the entries plays no part. -/
theorem notify_all_bfs_ip_mapping_table (N : Nat) (stray : Ptr → Option Ptr) (m : Mem)
    (ht : HashTable) :
    (notify_all_bfs N Member.ip_mapping stray m ht).2 = ht ∧
    (notify_all_bfs N Member.ip_mapping stray m ht).1.entry = m.entry ∧
    (notify_all_bfs N Member.ip_mapping stray m ht).1.live = m.live ∧
    (notify_all_bfs N Member.ip_mapping stray m ht).1.bf = m.bf ∧
    (notify_all_bfs N Member.ip_mapping stray m ht).1.log =
      m.log ++ (all_entries N ht.table).flatMap (notify_events Member.ip_mapping stray m) ∧
    (∀ e b, (m.entry e).bfh = some b → check_descriptor m (some b) = true → (m.bf b).out > 0 →
      notify_events Member.ip_mapping stray m e = [Event.bf_notify (m.bf b).port]) ∧
    (∀ e, (¬ ∃ b, (m.entry e).bfh = some b ∧ check_descriptor m (some b) = true ∧
        (m.bf b).out > 0) → notify_events Member.ip_mapping stray m e = []) ∧
    (∀ p, p ∈ all_entries N ht.table ↔ linked N ht.table p) := by
  refine ⟨notify_all_bfs_snd N _ stray m ht, notify_all_bfs_entry N _ stray m ht,
    notify_all_bfs_live N _ stray m ht, notify_all_bfs_bf N _ stray m ht,
    notify_all_bfs_log N _ stray m ht, ?_, ?_, mem_all_entries N ht.table⟩
  · intro e b hb hc ho
    simp [notify_events, list_entry_ip_mapping_bfh, hb, hc, ho]
  · intro e hne
    unfold notify_events list_entry_ip_mapping_bfh
    rcases hb : (m.entry e).bfh with _ | b
    · rfl
    · simp only
      rw [if_neg]
      intro hc
      simp only [Bool.and_eq_true, decide_eq_true_eq] at hc
      exact hne ⟨b, hb, hc.1, hc.2⟩

/-- On a table whose buckets link `mapping` nodes (the MAC table) the same
holds of what is left unchanged, and the calls are decided by what the loop
reads through the moved pointer, not by the channel of the entry. -/
theorem notify_all_bfs_mapping_table (N : Nat) (stray : Ptr → Option Ptr) (m : Mem)
    (ht : HashTable) :
    (notify_all_bfs N Member.mapping stray m ht).2 = ht ∧
    (notify_all_bfs N Member.mapping stray m ht).1.entry = m.entry ∧
    (notify_all_bfs N Member.mapping stray m ht).1.live = m.live ∧
    (notify_all_bfs N Member.mapping stray m ht).1.bf = m.bf ∧
    (notify_all_bfs N Member.mapping stray m ht).1.log =
      m.log ++ (all_entries N ht.table).flatMap (fun p =>
        match stray p with
        | some b =>
          if check_descriptor m (some b) && decide ((m.bf b).out > 0) then
            [Event.bf_notify (m.bf b).port]
          else []
        | none => []) :=
  ⟨notify_all_bfs_snd N _ stray m ht, notify_all_bfs_entry N _ stray m ht,
    notify_all_bfs_live N _ stray m ht, notify_all_bfs_bf N _ stray m ht,
    notify_all_bfs_log N _ stray m ht⟩

/-- C20, evaluated on a MAC table.  Entry 1 is linked in bucket 1 by its
`mapping` member, its channel 7 is live, has port 9 and three items in its
outbound queue.  As stated, `notify_all_bfs` calls `bf_notify 9` once on this
table, and makes no call when entry 1 has no channel.  The loop recovers the
entry with `list_entry(x, Entry, ip_mapping)` from the `mapping` node, so it
reads the handle from another place than the `bfh` field of entry 1: whatever
that place holds (`stray`), the calls are the same with and without the channel
of entry 1, namely `bf_notify 9` when the place happens to hold the handle 7
and none otherwise; so on one of the two memories the calls are not the stated
ones, and when the place holds a null pointer entry 1 is not notified.  On the
table that links the same entry by its `ip_mapping` member the calls are the
stated ones. -/
theorem notify_all_bfs_mapping_misread (stray : Ptr → Option Ptr) :
    (linked 4 sample_notify_table.table 1 ∧
      (sample_notify_mem.entry 1).bfh = some 7 ∧
      check_descriptor sample_notify_mem (some 7) = true ∧
      (sample_notify_mem.bf 7).out = 3 ∧ (sample_notify_mem.bf 7).port = 9 ∧
      ((sample_notify_mem.setEntry 1 sample_entry).entry 1).bfh = none) ∧
    (notify_all_bfs 4 Member.mapping stray sample_notify_mem sample_notify_table).1.log =
      (if stray 1 = some 7 then [Event.bf_notify 9] else []) ∧
    (notify_all_bfs 4 Member.mapping stray (sample_notify_mem.setEntry 1 sample_entry)
        sample_notify_table).1.log =
      (if stray 1 = some 7 then [Event.bf_notify 9] else []) ∧
    ¬ ((notify_all_bfs 4 Member.mapping stray sample_notify_mem sample_notify_table).1.log =
          [Event.bf_notify 9] ∧
        (notify_all_bfs 4 Member.mapping stray (sample_notify_mem.setEntry 1 sample_entry)
          sample_notify_table).1.log = []) ∧
    (notify_all_bfs 4 Member.mapping (fun _ => none) sample_notify_mem
        sample_notify_table).1.log = [] ∧
    (notify_all_bfs 4 Member.ip_mapping stray sample_notify_mem sample_notify_table).1.log =
      [Event.bf_notify 9] ∧
    (notify_all_bfs 4 Member.ip_mapping stray (sample_notify_mem.setEntry 1 sample_entry)
        sample_notify_table).1.log = [] := by
  have hall : all_entries 4 sample_notify_table.table = [1] := by decide
  have hbf : ∀ b, check_descriptor sample_notify_mem (some b) = decide (b = 7) := by
    intro b
    by_cases hb : b = 7
    · subst hb; decide
    · simp [check_descriptor, sample_notify_mem, Mem.setEntry, hb]
  have hbf2 : ∀ b, check_descriptor (sample_notify_mem.setEntry 1 sample_entry) (some b) =
      decide (b = 7) := fun b => hbf b
  have h1 : (notify_all_bfs 4 Member.mapping stray sample_notify_mem
      sample_notify_table).1.log = (if stray 1 = some 7 then [Event.bf_notify 9] else []) := by
    rw [notify_all_bfs_log, hall]
    simp only [List.flatMap_cons, List.flatMap_nil, List.append_nil]
    unfold notify_events list_entry_ip_mapping_bfh
    rcases hs : stray 1 with _ | b
    · simp [sample_notify_mem, sample_mem]
    · simp only [hbf b]
      by_cases hb : b = 7
      · subst hb
        simp [sample_notify_mem, sample_mem, Mem.setEntry]
      · simp [hb, sample_notify_mem, sample_mem]
  have h2 : (notify_all_bfs 4 Member.mapping stray (sample_notify_mem.setEntry 1 sample_entry)
      sample_notify_table).1.log = (if stray 1 = some 7 then [Event.bf_notify 9] else []) := by
    rw [notify_all_bfs_log, hall]
    simp only [List.flatMap_cons, List.flatMap_nil, List.append_nil]
    unfold notify_events list_entry_ip_mapping_bfh
    rcases hs : stray 1 with _ | b
    · simp [sample_notify_mem, sample_mem, Mem.setEntry]
    · simp only [hbf2 b]
      by_cases hb : b = 7
      · subst hb
        simp [sample_notify_mem, sample_mem, Mem.setEntry]
      · simp [hb, sample_notify_mem, sample_mem, Mem.setEntry]
  refine ⟨⟨by decide, by decide, by decide, by decide, by decide, by decide⟩, h1, h2, ?_, ?_,
    ?_, ?_⟩
  · rintro ⟨ha, hb⟩
    rw [h1] at ha
    rw [h2] at hb
    by_cases hs : stray 1 = some 7
    · rw [if_pos hs] at hb
      cases hb
    · rw [if_neg hs] at ha
      cases ha
  · rw [notify_all_bfs_log, hall]
    decide
  · rw [notify_all_bfs_log, hall]
    rfl
  · rw [notify_all_bfs_log, hall]
    rfl

/-! ## C17: the wake-up of `check_timeout` -/

theorem suspended_handle_idem (h : bf_handle) :
    suspended_handle (suspended_handle h) = suspended_handle h := rfl

theorem bf_suspend_bf (m : Mem) (b p : Ptr) :
    (bf_suspend m (some b)).bf p = if p = b then suspended_handle (m.bf b) else m.bf p := rfl

theorem check_timeout_body_log (w D H jiffies : Nat) (s : Mem × Nat) (e : Ptr) :
    (check_timeout_body w D H jiffies s e).1.log = s.1.log := by
  unfold check_timeout_body
  simp only
  split_ifs <;> simp

theorem check_timeout_body_found (w D H jiffies : Nat) (s : Mem × Nat) (e : Ptr) :
    (check_timeout_body w D H jiffies s e).2 =
      if timed_out w D H jiffies (s.1.entry e).timestamp then 1 else s.2 := by
  unfold check_timeout_body
  simp only
  split_ifs <;> rfl

theorem check_timeout_body_bf (w D H jiffies : Nat) (s : Mem × Nat) (e b : Ptr) :
    (check_timeout_body w D H jiffies s e).1.bf b =
      if timed_out w D H jiffies (s.1.entry e).timestamp ∧ (s.1.entry e).bfh = some b ∧
          (s.1.bf b).descriptor = true then suspended_handle (s.1.bf b)
      else s.1.bf b := by
  unfold check_timeout_body
  simp only
  by_cases ht : timed_out w D H jiffies (s.1.entry e).timestamp
  · simp only [ht, if_true, setEntry_bf, true_and]
    rcases hb : (s.1.entry e).bfh with _ | c
    · simp [check_descriptor]
    · by_cases hc : (s.1.bf c).descriptor = true
      · simp only [check_descriptor, hc, if_true, bf_suspend_bf, Option.some.injEq]
        by_cases hbc : b = c
        · subst hbc; simp [hc]
        · have hcb : ¬ c = b := fun h => hbc h.symm
          simp [hbc, hcb]
      · simp only [check_descriptor, hc, Bool.false_eq_true, if_false, Option.some.injEq]
        by_cases hbc : c = b
        · subst hbc; simp [hc]
        · simp [hbc]
  · simp [ht]

/-- The scan of `check_timeout` over a list of entries, against the memory `m`
it started from. -/
theorem check_timeout_foldl (w D H jiffies : Nat) (m : Mem) (l : List Ptr)
    (s : (Mem × Nat) × HashTable)
    (hk : ∀ p, (s.1.1.entry p).timestamp = (m.entry p).timestamp ∧
      (s.1.1.entry p).bfh = (m.entry p).bfh)
    (hb : ∀ b, s.1.1.bf b = m.bf b ∨ s.1.1.bf b = suspended_handle (m.bf b)) :
    (l.foldl (fun s e => (check_timeout_body w D H jiffies s.1 e, s.2)) s).1.1.log = s.1.1.log ∧
    ((∃ e ∈ l, timed_out w D H jiffies (m.entry e).timestamp) →
      (l.foldl (fun s e => (check_timeout_body w D H jiffies s.1 e, s.2)) s).1.2 = 1) ∧
    ((¬ ∃ e ∈ l, timed_out w D H jiffies (m.entry e).timestamp) →
      (l.foldl (fun s e => (check_timeout_body w D H jiffies s.1 e, s.2)) s).1.2 = s.1.2) ∧
    (∀ b, (∃ e ∈ l, timed_out w D H jiffies (m.entry e).timestamp ∧
        (m.entry e).bfh = some b ∧ (m.bf b).descriptor = true) →
      (l.foldl (fun s e => (check_timeout_body w D H jiffies s.1 e, s.2)) s).1.1.bf b =
        suspended_handle (m.bf b)) ∧
    (∀ b, (¬ ∃ e ∈ l, timed_out w D H jiffies (m.entry e).timestamp ∧
        (m.entry e).bfh = some b ∧ (m.bf b).descriptor = true) →
      (l.foldl (fun s e => (check_timeout_body w D H jiffies s.1 e, s.2)) s).1.1.bf b =
        s.1.1.bf b) := by
  induction l generalizing s with
  | nil => simp
  | cons a l ih =>
    have hdesc : ∀ b, (s.1.1.bf b).descriptor = (m.bf b).descriptor := by
      intro b
      rcases hb b with h | h
      · rw [h]
      · rw [h]; rfl
    have hk1 : ∀ p, ((check_timeout_body w D H jiffies s.1 a).1.entry p).timestamp =
          (m.entry p).timestamp ∧
        ((check_timeout_body w D H jiffies s.1 a).1.entry p).bfh = (m.entry p).bfh := by
      intro p
      rw [check_timeout_body_entry]
      unfold timeout_entry
      split_ifs with h1 h2
      · subst h1; exact hk p
      · subst h1; exact hk p
      · exact hk p
    have hb1 : ∀ b, (check_timeout_body w D H jiffies s.1 a).1.bf b = m.bf b ∨
        (check_timeout_body w D H jiffies s.1 a).1.bf b = suspended_handle (m.bf b) := by
      intro b
      rw [check_timeout_body_bf]
      split_ifs
      · rcases hb b with h | h <;> rw [h] <;> exact Or.inr rfl
      · exact hb b
    obtain ⟨i1, i2, i3, i4, i5⟩ := ih (check_timeout_body w D H jiffies s.1 a, s.2) hk1 hb1
    simp only [List.foldl_cons]
    refine ⟨?_, ?_, ?_, ?_, ?_⟩
    · rw [i1]; exact check_timeout_body_log w D H jiffies s.1 a
    · rintro ⟨e, he, hst⟩
      by_cases hl : ∃ e ∈ l, timed_out w D H jiffies (m.entry e).timestamp
      · exact i2 hl
      · rw [i3 hl]
        simp only [check_timeout_body_found]
        rcases List.mem_cons.1 he with rfl | he'
        · rw [(hk e).1, if_pos hst]
        · exact absurd ⟨e, he', hst⟩ hl
    · intro hne
      have hl : ¬ ∃ e ∈ l, timed_out w D H jiffies (m.entry e).timestamp :=
        fun ⟨e, he, hst⟩ => hne ⟨e, List.mem_cons_of_mem a he, hst⟩
      have ha : ¬ timed_out w D H jiffies (m.entry a).timestamp :=
        fun hst => hne ⟨a, List.mem_cons_self a l, hst⟩
      rw [i3 hl]
      simp only [check_timeout_body_found]
      rw [(hk a).1, if_neg ha]
    · rintro b ⟨e, he, hst, hbf, hd⟩
      by_cases hl : ∃ e ∈ l, timed_out w D H jiffies (m.entry e).timestamp ∧
          (m.entry e).bfh = some b ∧ (m.bf b).descriptor = true
      · exact i4 b hl
      · rw [i5 b hl]
        simp only
        rw [check_timeout_body_bf]
        rcases List.mem_cons.1 he with rfl | he'
        · rw [(hk e).1, (hk e).2, hdesc b, if_pos ⟨hst, hbf, hd⟩]
          rcases hb b with h | h
          · rw [h]
          · rw [h]; rfl
        · exact absurd ⟨e, he', hst, hbf, hd⟩ hl
    · intro b hne
      have hl : ¬ ∃ e ∈ l, timed_out w D H jiffies (m.entry e).timestamp ∧
          (m.entry e).bfh = some b ∧ (m.bf b).descriptor = true :=
        fun ⟨e, he, h⟩ => hne ⟨e, List.mem_cons_of_mem a he, h⟩
      have ha : ¬ (timed_out w D H jiffies (m.entry a).timestamp ∧
          (m.entry a).bfh = some b ∧ (m.bf b).descriptor = true) :=
        fun h => hne ⟨a, List.mem_cons_self a l, h⟩
      rw [i5 b hl]
      simp only
      rw [check_timeout_body_bf, (hk a).1, (hk a).2, hdesc b, if_neg ha]

theorem check_timeout_unfold (N w D H jiffies : Nat) (m : Mem) (ht : HashTable) :
    check_timeout N w D H jiffies m ht =
      (if ((all_entries N ht.table).foldl
            (fun s e => (check_timeout_body w D H jiffies s.1 e, s.2)) ((m, 0), ht)).1.2 ≠ 0 then
          ((all_entries N ht.table).foldl
            (fun s e => (check_timeout_body w D H jiffies s.1 e, s.2))
            ((m, 0), ht)).1.1.emit Event.wake_up_interruptible
        else ((all_entries N ht.table).foldl
            (fun s e => (check_timeout_body w D H jiffies s.1 e, s.2)) ((m, 0), ht)).1.1,
       ((all_entries N ht.table).foldl
            (fun s e => (check_timeout_body w D H jiffies s.1 e, s.2)) ((m, 0), ht)).2) := by
  unfold check_timeout
  rw [for_each_entry_frame N (fun s : (Mem × Nat) × HashTable => s.2.table)
    (fun s e => (check_timeout_body w D H jiffies s.1 e, s.2)) (fun _ _ => rfl)]

/-- C17. For every table, memory and time: when at least one linked entry
passes the staleness test, `check_timeout` calls `wake_up_interruptible`
exactly once (whatever the number of such entries), and when none does it makes
no call at all; a linked stale entry gets status Suspend whether or not it has
a live channel; and the suspend flags of a channel are set exactly when it is
the live channel (`check_descriptor`) of a linked stale entry, every other
channel object being left as it was. -/
theorem check_timeout_wakes_once (N w DISCOVER_TIMEOUT HZ jiffies : Nat) (m : Mem)
    (ht : HashTable) :
    ((∃ p, linked N ht.table p ∧
        timed_out w DISCOVER_TIMEOUT HZ jiffies (m.entry p).timestamp) →
      (check_timeout N w DISCOVER_TIMEOUT HZ jiffies m ht).1.log =
        m.log ++ [Event.wake_up_interruptible]) ∧
    ((¬ ∃ p, linked N ht.table p ∧
        timed_out w DISCOVER_TIMEOUT HZ jiffies (m.entry p).timestamp) →
      (check_timeout N w DISCOVER_TIMEOUT HZ jiffies m ht).1.log = m.log) ∧
    (∀ p, linked N ht.table p →
      timed_out w DISCOVER_TIMEOUT HZ jiffies (m.entry p).timestamp →
      ((check_timeout N w DISCOVER_TIMEOUT HZ jiffies m ht).1.entry p).status =
        XENLOOP_STATUS_SUSPEND) ∧
    (∀ b, (∃ p, linked N ht.table p ∧
        timed_out w DISCOVER_TIMEOUT HZ jiffies (m.entry p).timestamp ∧
        (m.entry p).bfh = some b ∧ check_descriptor m (m.entry p).bfh = true) →
      (check_timeout N w DISCOVER_TIMEOUT HZ jiffies m ht).1.bf b =
        { m.bf b with suspend_in := 1, suspend_out := 1 }) ∧
    (∀ b, (¬ ∃ p, linked N ht.table p ∧
        timed_out w DISCOVER_TIMEOUT HZ jiffies (m.entry p).timestamp ∧
        (m.entry p).bfh = some b ∧ check_descriptor m (m.entry p).bfh = true) →
      (check_timeout N w DISCOVER_TIMEOUT HZ jiffies m ht).1.bf b = m.bf b) := by
  obtain ⟨f1, f2, f3, f4, f5⟩ := check_timeout_foldl w DISCOVER_TIMEOUT HZ jiffies m
    (all_entries N ht.table) ((m, 0), ht) (fun _ => ⟨rfl, rfl⟩) (fun _ => Or.inl rfl)
  refine ⟨?_, ?_, ?_, ?_, ?_⟩
  · rintro ⟨p, hp, hst⟩
    have h1 := f2 ⟨p, (mem_all_entries N ht.table p).2 hp, hst⟩
    rw [check_timeout_unfold]
    simp only [h1, ne_eq, one_ne_zero, not_false_eq_true, if_true, emit_log, f1]
  · intro hne
    have h1 := f3 (fun ⟨p, hp, hst⟩ => hne ⟨p, (mem_all_entries N ht.table p).1 hp, hst⟩)
    rw [check_timeout_unfold]
    simp only [h1, ne_eq, not_true_eq_false, if_false, f1]
  · intro p hp hst
    rw [check_timeout_entry, if_pos hp]
    unfold timeout_entry
    rw [if_pos hst]
  · rintro b ⟨p, hp, hst, hb, hc⟩
    have hd : (m.bf b).descriptor = true := by
      rw [hb] at hc; exact hc
    have h1 := f4 b ⟨p, (mem_all_entries N ht.table p).2 hp, hst, hb, hd⟩
    rw [check_timeout_unfold]
    simp only
    split_ifs
    · rw [emit_bf, h1]; rfl
    · rw [h1]; rfl
  · intro b hne
    have h1 := f5 b (fun ⟨p, hp, hst, hb, hd⟩ =>
      hne ⟨p, (mem_all_entries N ht.table p).1 hp, hst, hb, by rw [hb]; exact hd⟩)
    rw [check_timeout_unfold]
    simp only
    split_ifs
    · rw [emit_bf, h1]
    · rw [h1]

/-- Witness for C17 with `DISCOVER_TIMEOUT = 1`, `HZ = 100`: two stale entries
without a channel, both marked, one wake-up. -/
theorem check_timeout_wakes_once_witness :
    (check_timeout 4 64 1 100 501 sample_reap_mem sample_reap_table).1.log =
      [Event.wake_up_interruptible] ∧
    ((check_timeout 4 64 1 100 501 sample_reap_mem sample_reap_table).1.entry 2).status =
      XENLOOP_STATUS_SUSPEND :=
  ⟨(check_timeout_wakes_once 4 64 1 100 501 sample_reap_mem sample_reap_table).1
      ⟨2, by decide, by decide⟩,
    (check_timeout_wakes_once 4 64 1 100 501 sample_reap_mem sample_reap_table).2.2.1 2
      (by decide) (by decide)⟩

/-! ## C12: a discovery round followed by a reap -/

theorem update_entry_status (jiffies : Nat) (S : List Mac) (n : Int) (v : Entry)
    (hv : v.status ≠ XENLOOP_STATUS_SUSPEND) :
    (update_entry jiffies S n v).status = XENLOOP_STATUS_SUSPEND ↔ v.mac ∉ S.take n.toNat := by
  have hc : (S.take n.toNat).any (fun p => decide (equal p v.mac ≠ 0)) = true ↔
      v.mac ∈ S.take n.toNat := by
    simp only [List.any_eq_true, decide_eq_true_eq, equal_ne_zero_iff]
    constructor
    · rintro ⟨x, hx, rfl⟩
      exact hx
    · intro h
      exact ⟨v.mac, h, rfl⟩
  unfold update_entry
  by_cases hS : v.mac ∈ S.take n.toNat
  · rw [if_pos (hc.2 hS)]
    simp only [hS, not_true_eq_false, iff_false]
    exact hv
  · rw [if_neg (fun h => hS (hc.1 h))]
    simp only [hS, not_false_eq_true]

/-- After `update_table` with the first `n` addresses of `S` and then
`clean_suspended_entries`, on a well-formed table without Suspend entries, each
bucket holds exactly its entries whose address is among them. -/
theorem update_then_reap_take (N jiffies : Nat) (m : Mem) (ht ip_ht : HashTable) (S : List Mac)
    (n : Int) (hwf : WF N ht.table)
    (hns : ∀ p, linked N ht.table p → (m.entry p).status ≠ XENLOOP_STATUS_SUSPEND) :
    (∀ j, j < N →
      (clean_suspended_entries N (update_table N jiffies m ht S n).1
          (update_table N jiffies m ht S n).2 ip_ht).2.1.table j =
        (ht.table j).filter (fun p => decide ((m.entry p).mac ∈ S.take n.toNat))) ∧
    (∀ p, linked N ht.table p → (m.entry p).mac ∈ S.take n.toNat →
      same_but_ip ((clean_suspended_entries N (update_table N jiffies m ht S n).1
          (update_table N jiffies m ht S n).2 ip_ht).1.entry p)
        { m.entry p with timestamp := jiffies }) := by
  rw [update_table_snd]
  have hA := clean_suspended_entries_inv N (update_table N jiffies m ht S n).1
    ht ip_ht hwf
  have hst : ∀ p, linked N ht.table p →
      (((update_table N jiffies m ht S n).1.entry p).status =
        XENLOOP_STATUS_SUSPEND ↔ (m.entry p).mac ∉ S.take n.toNat) := by
    intro p hp
    rw [update_table_entry, if_pos hp]
    exact update_entry_status jiffies S n (m.entry p) (hns p hp)
  constructor
  · intro j hj
    rw [hA.table j]
    apply List.filter_congr
    intro p hp
    have hl : linked N ht.table p := ⟨j, hj, hp⟩
    have hall : p ∈ all_entries N ht.table := (mem_all_entries N ht.table p).2 hl
    by_cases hS : (m.entry p).mac ∈ S.take n.toNat
    · have : ¬ ((update_table N jiffies m ht S n).1.entry p).status =
          XENLOOP_STATUS_SUSPEND := fun hc => ((hst p hl).1 hc) hS
      simp [hS, this]
    · have := (hst p hl).2 hS
      simp [hS, this, hall]
  · intro p hp hS
    have hns1 : ¬ ((update_table N jiffies m ht S n).1.entry p).status =
        XENLOOP_STATUS_SUSPEND := fun hc => ((hst p hp).1 hc) hS
    rcases hA.fields p with hl | hr
    · exact absurd hl.2 hns1
    · have hu : (update_table N jiffies m ht S n).1.entry p =
          { m.entry p with timestamp := jiffies } := by
        rw [update_table_entry, if_pos hp]
        unfold update_entry
        rw [if_pos]
        simp only [List.any_eq_true, decide_eq_true_eq, equal_ne_zero_iff]
        exact ⟨_, hS, rfl⟩
      rw [← hu]
      exact hr

theorem linked_init_world (N : Nat) (m : Mem) (ht ip_ht : HashTable) (p : Ptr) :
    ¬ linked N (init_world N m ht ip_ht).ht.table p ∧
    ¬ linked N (init_world N m ht ip_ht).ip_ht.table p := by
  constructor
  · rintro ⟨j, hj, hp⟩
    simp [init_world, init_hash_table, hj] at hp
  · rintro ⟨j, hj, hp⟩
    simp [init_world, init_hash_table_ip, hj] at hp

theorem all_entries_eq_singleton (N : Nat) (table : Nat → List Ptr) (x : Ptr) (hwf : WF N table)
    (h : ∀ p, linked N table p ↔ p = x) : all_entries N table = [x] := by
  have hnd : (all_entries N table).Nodup := hwf
  have hm : ∀ p, p ∈ all_entries N table ↔ p = x := fun p =>
    (mem_all_entries N table p).trans (h p)
  rcases hl : all_entries N table with _ | ⟨a, l⟩
  · have := (hm x).2 rfl
    rw [hl] at this
    cases this
  · rw [hl] at hm hnd
    have ha : a = x := (hm a).1 (List.mem_cons_self a l)
    subst ha
    rcases l with _ | ⟨b, l⟩
    · rfl
    · have hb : b = a := (hm b).1 (by simp)
      subst hb
      rw [List.nodup_cons] at hnd
      exact absurd (List.mem_cons_self b l) hnd.1

theorem all_entries_eq_nil_of_not_linked (N : Nat) (table : Nat → List Ptr)
    (h : ∀ p, ¬ linked N table p) : all_entries N table = [] := by
  rcases hl : all_entries N table with _ | ⟨a, l⟩
  · rfl
  · have : a ∈ all_entries N table := by rw [hl]; exact List.mem_cons_self a l
    exact absurd ((mem_all_entries N table a).1 this) (h a)

theorem exec_insert_table_facts (N w D H : Nat) (hN : 0 < N) (s : World) (key : Mac)
    (d jiffies : Nat) (p : Ptr) (hl : ¬ linked N s.ht.table p) :
    ∃ s1, exec N w D H s (Op.insert_table key d jiffies (some p)) = some s1 ∧
      (∀ q, linked N s1.ht.table q ↔ q = p ∨ linked N s.ht.table q) ∧
      s1.mem.entry p =
        { mac := key, domid := d, timestamp := jiffies, del_timer := 0,
          status := XENLOOP_STATUS_INIT, listen_flag := 0xff, bfh := none,
          retry_count := 0, ip := 0 } ∧
      (∀ q, q ≠ p → s1.mem.entry q = s.mem.entry q) ∧ s1.ip_ht = s.ip_ht := by
  have e : exec N w D H s (Op.insert_table key d jiffies (some p)) = some
      { s with
        mem := (s.mem.setEntry p
          { mac := key, domid := d, ip := 0, timestamp := jiffies,
            status := XENLOOP_STATUS_INIT, listen_flag := 255, retry_count := 0,
            bfh := none, del_timer := 0 }).setLive p true,
        ht := { count := s.ht.count + 1,
                table := fun j => if j = hash N key then p :: s.ht.table j else s.ht.table j } } := by
    simp only [exec, insert_table_eq N _ _ key d jiffies p hl, Option.map_some']
  refine ⟨_, e, ?_, ?_, ?_, rfl⟩
  · intro q
    exact linked_cons_at N s.ht.table _ p q (hash_lt N key hN)
  · simp
  · intro q hq
    simp [hq]

theorem exec_insert_table_ip_facts (N w D H : Nat) (s : World) (ip : Nat) (p : Ptr)
    (hl : ¬ linked N s.ip_ht.table p) :
    ∃ s1, exec N w D H s (Op.insert_table_ip ip (some p)) = some s1 ∧
      s1.ht = s.ht ∧ s1.mem.entry p = { s.mem.entry p with ip := ip } ∧
      (∀ q, q ≠ p → s1.mem.entry q = s.mem.entry q) := by
  have e : exec N w D H s (Op.insert_table_ip ip (some p)) = some
      { s with
        mem := s.mem.setEntry p { s.mem.entry p with ip := ip },
        ip_ht := { count := s.ip_ht.count + 1,
                   table := fun j => if j = hash_ip N ip then p :: s.ip_ht.table j
                                     else s.ip_ht.table j } } := by
    simp only [exec, insert_table_ip_eq N _ _ ip p hl, Option.map_some']
  refine ⟨_, e, rfl, ?_, ?_⟩
  · simp
  · intro q hq
    simp [hq]

theorem run_cons_some (N w D H : Nat) (s s1 : World) (op : Op) (ops : List Op)
    (h : exec N w D H s op = some s1) :
    run N w D H (op :: ops) s = run N w D H ops s1 := by
  simp only [run, h]

theorem same_but_ip_domid {a b : Entry} (h : same_but_ip a b) : a.domid = b.domid := by
  unfold same_but_ip at h
  have := congrArg Entry.domid h
  exact this

/-- Two inserts, an ip for the first entry, a discovery round that reports only
the second address, and a reap, from freshly initialised tables. -/
theorem discovery_scenario (N w D H : Nat) (hN : 0 < N) (m : Mem) (ht0 ip0 : HashTable)
    (A B : Mac) (X j1 j2 j3 : Nat) (pA pB : Ptr) (hAB : A ≠ B) (hX : X ≠ 0) (hp : pA ≠ pB) :
    ∃ s, run N w D H
        [Op.insert_table A 1 j1 (some pA), Op.insert_table B 2 j2 (some pB),
         Op.insert_table_ip X (some pA), Op.update_table j3 [B] 1,
         Op.clean_suspended_entries] (init_world N m ht0 ip0) = some s ∧
      lookup_table N s.mem s.ht A = none ∧
      lookup_table_ip N s.mem s.ip_ht X = none ∧
      lookup_table N s.mem s.ht B = some pB ∧
      (s.mem.entry pB).domid = 2 ∧ (s.mem.entry pB).status = XENLOOP_STATUS_INIT ∧
      s.ht.count = 1 ∧ s.ip_ht.count = 0 := by
  have hC0 : CountOK N (init_world N m ht0 ip0).ht ∧ CountOK N (init_world N m ht0 ip0).ip_ht :=
    ⟨CountOK_init N ht0, CountOK_init N ip0⟩
  have hK0 := Consistent_init N m ht0 ip0
  have hl0 : ∀ p, ¬ linked N (init_world N m ht0 ip0).ht.table p ∧
      ¬ linked N (init_world N m ht0 ip0).ip_ht.table p :=
    fun p => linked_init_world N m ht0 ip0 p
  generalize init_world N m ht0 ip0 = s0 at hC0 hK0 hl0 ⊢
  -- insert_table(A, 1)
  obtain ⟨s1, e1, l1, vA1, o1, i1⟩ :=
    exec_insert_table_facts N w D H hN s0 A 1 j1 pA (hl0 pA).1
  have hC1 := exec_CountOK N w D H hN s0 s1 _ hC0 e1
  have hK1 := exec_Consistent N w D H hN s0 s1 (Op.insert_table A 1 j1 (some pA)) hK0 rfl e1
  -- insert_table(B, 2)
  have hlB : ¬ linked N s1.ht.table pB := by
    rw [l1]
    rintro (h | h)
    · exact hp h.symm
    · exact (hl0 pB).1 h
  obtain ⟨s2, e2, l2, vB2, o2, i2⟩ :=
    exec_insert_table_facts N w D H hN s1 B 2 j2 pB hlB
  have hC2 := exec_CountOK N w D H hN s1 s2 _ hC1 e2
  have hK2 := exec_Consistent N w D H hN s1 s2 (Op.insert_table B 2 j2 (some pB)) hK1 rfl e2
  have vA2 := (o2 pA hp).trans vA1
  have hip2 : ∀ q, ¬ linked N s2.ip_ht.table q := by
    intro q
    rw [i2, i1]
    exact (hl0 q).2
  -- insert_table_ip(X, entry of A)
  obtain ⟨s3, e3, t3, vA3, o3⟩ := exec_insert_table_ip_facts N w D H s2 X pA (hip2 pA)
  have hd3 : disciplined N s2 (Op.insert_table_ip X (some pA)) = true := by
    simp only [disciplined, Bool.and_eq_true, decide_eq_true_eq]
    refine ⟨⟨⟨?_, ?_⟩, hX⟩, ?_⟩
    · exact (l2 pA).2 (Or.inr ((l1 pA).2 (Or.inl rfl)))
    · rw [vA2]
    · rw [lookup_table_ip_eq_none]
      intro q hq
      exact absurd ⟨_, hash_ip_lt N X hN, hq⟩ (hip2 q)
  have hC3 := exec_CountOK N w D H hN s2 s3 _ hC2 e3
  have hK3 := exec_Consistent N w D H hN s2 s3 _ hK2 hd3 e3
  have l3 : ∀ q, linked N s3.ht.table q ↔ q = pB ∨ q = pA := by
    intro q
    rw [t3, l2, l1]
    constructor
    · rintro (h | h | h)
      · exact Or.inl h
      · exact Or.inr h
      · exact absurd h (hl0 q).1
    · rintro (h | h)
      · exact Or.inl h
      · exact Or.inr (Or.inl h)
  have vB3 := (o3 pB hp.symm).trans vB2
  rw [vA2] at vA3
  have hns3 : ∀ q, linked N s3.ht.table q →
      (s3.mem.entry q).status ≠ XENLOOP_STATUS_SUSPEND := by
    intro q hq
    rcases (l3 q).1 hq with rfl | rfl
    · rw [vB3]; simp
    · rw [vA3]; simp
  -- update_table([B], 1)
  have e4 : exec N w D H s3 (Op.update_table j3 [B] 1) = some
      { s3 with mem := (update_table N j3 s3.mem s3.ht [B] 1).1,
                ht := (update_table N j3 s3.mem s3.ht [B] 1).2 } := rfl
  have hC4 := exec_CountOK N w D H hN s3 _ _ hC3 e4
  have hK4 := exec_Consistent N w D H hN s3 _ (Op.update_table j3 [B] 1) hK3 rfl e4
  -- clean_suspended_entries
  have e5 : exec N w D H
      { s3 with mem := (update_table N j3 s3.mem s3.ht [B] 1).1,
                ht := (update_table N j3 s3.mem s3.ht [B] 1).2 }
      Op.clean_suspended_entries = some
      { mem := (clean_suspended_entries N (update_table N j3 s3.mem s3.ht [B] 1).1
          (update_table N j3 s3.mem s3.ht [B] 1).2 s3.ip_ht).1,
        ht := (clean_suspended_entries N (update_table N j3 s3.mem s3.ht [B] 1).1
          (update_table N j3 s3.mem s3.ht [B] 1).2 s3.ip_ht).2.1,
        ip_ht := (clean_suspended_entries N (update_table N j3 s3.mem s3.ht [B] 1).1
          (update_table N j3 s3.mem s3.ht [B] 1).2 s3.ip_ht).2.2 } := rfl
  have hC5 := exec_CountOK N w D H hN _ _ _ hC4 e5
  have hK5 := exec_Consistent N w D H hN _ _ Op.clean_suspended_entries hK4 rfl e5
  have hA := clean_suspended_entries_inv N (update_table N j3 s3.mem s3.ht [B] 1).1
    (update_table N j3 s3.mem s3.ht [B] 1).2 s3.ip_ht hK4.wf
  obtain ⟨hT, hF⟩ := update_then_reap_take N j3 s3.mem s3.ht s3.ip_ht [B] 1 hK3.wf hns3
  have htake : List.take (1 : Int).toNat [B] = [B] := rfl
  rw [htake] at hT hF
  have hBin : (s3.mem.entry pB).mac ∈ [B] := by rw [vB3]; simp
  have hFB := hF pB ((l3 pB).2 (Or.inl rfl)) hBin
  have hmacB := same_but_ip_mac hFB
  have hdomB := same_but_ip_domid hFB
  have hstB := same_but_ip_status hFB
  rw [vB3] at hmacB hdomB hstB
  simp only at hmacB hdomB hstB
  have hipB := hA.ip pB
  rw [(update_table_keys N j3 s3.mem s3.ht [B] 1 pB).2, vB3] at hipB
  have hipB0 : ((clean_suspended_entries N (update_table N j3 s3.mem s3.ht [B] 1).1
      (update_table N j3 s3.mem s3.ht [B] 1).2 s3.ip_ht).1.entry pB).ip = 0 := by
    rcases hipB with h | h
    · exact h
    · exact h.1
  have l5 : ∀ q, linked N (clean_suspended_entries N (update_table N j3 s3.mem s3.ht [B] 1).1
      (update_table N j3 s3.mem s3.ht [B] 1).2 s3.ip_ht).2.1.table q ↔ q = pB := by
    intro q
    constructor
    · rintro ⟨j, hj, hq⟩
      rw [hT j hj, List.mem_filter] at hq
      rcases (l3 q).1 ⟨j, hj, hq.1⟩ with h | h
      · exact h
      · exfalso
        have h2 := hq.2
        rw [h, vA3] at h2
        simp only [List.mem_singleton, decide_eq_true_eq] at h2
        exact hAB h2
    · rintro rfl
      obtain ⟨j, hj, hq⟩ := (l3 q).2 (Or.inl rfl)
      refine ⟨j, hj, ?_⟩
      rw [hT j hj, List.mem_filter]
      exact ⟨hq, by simpa using hBin⟩
  have lip5 : ∀ q, ¬ linked N (clean_suspended_entries N
      (update_table N j3 s3.mem s3.ht [B] 1).1
      (update_table N j3 s3.mem s3.ht [B] 1).2 s3.ip_ht).2.2.table q := by
    rintro q ⟨j, hj, hq⟩
    have h := hK5.ip_ref j q hj hq
    have hqB := (l5 q).1 h.1
    subst hqB
    exact h.2.1 hipB0
  have hrun := (run_cons_some N w D H _ _ _ _ e1).trans
    ((run_cons_some N w D H _ _ _ _ e2).trans
      ((run_cons_some N w D H _ _ _ _ e3).trans
        ((run_cons_some N w D H _ _ _ _ e4).trans (run_cons_some N w D H _ _ _ [] e5))))
  refine ⟨_, hrun, ?_, ?_, ?_, hdomB, hstB, ?_, ?_⟩
  · rw [lookup_table_eq_none]
    intro q hq
    have hqB := (l5 q).1 ⟨_, hash_lt N A hN, hq⟩
    subst hqB
    intro hc
    exact hAB (hc.symm.trans hmacB)
  · rw [lookup_table_ip_eq_none]
    intro q hq
    exact absurd ⟨_, hash_ip_lt N X hN, hq⟩ (lip5 q)
  · obtain ⟨j, hj, hq⟩ := (l5 pB).2 rfl
    have hjB := (hK5.mac_bucket j pB hj hq).1
    have hmacB2 : ((clean_suspended_entries N (update_table N j3 s3.mem s3.ht [B] 1).1
      (update_table N j3 s3.mem s3.ht [B] 1).2 s3.ip_ht).1.entry pB).mac = B := hmacB
    simp only [hmacB2] at hjB
    subst hjB
    unfold lookup_table
    apply find?_eq_some_of_unique _ _ pB hq
    · simp only [decide_eq_true_eq, equal_ne_zero_iff]
      exact hmacB2.symm
    · intro q hq2 _
      exact (l5 q).1 ⟨_, hj, hq2⟩
  · have h := hC5.1.2
    rw [all_entries_eq_singleton N _ pB hC5.1.1 l5] at h
    exact h
  · have h := hC5.2.2
    rw [all_entries_eq_nil_of_not_linked N _ lip5] at h
    exact h

/-- C12.  With a table size `N > 0`, start from freshly initialised tables and
take distinct addresses `A` and `B`, a non-zero ip `X`, and two distinct slab
objects handed out by the allocator.  Then `insert_table(A, 1)`,
`insert_table(B, 2)`, `insert_table_ip(X, entry of A)`, `update_table([B], 1)`
and `clean_suspended_entries` all return, and afterwards `lookup_table(A)` is
none, `lookup_table_ip(X)` is none, `lookup_table(B)` is the entry of `B`, which
has domid 2 and status Init, the MAC table has count 1 and the IP table has
count 0.  In general, for a well-formed table in which no linked entry is
Suspend, after `update_table(S, n)` and then `clean_suspended_entries` each
bucket holds, in the old order, exactly its entries whose address is among the
first `n` addresses of `S` (all of `S` when `n` is its length); so the linked
entries are exactly the old ones with such an address, and their address is
unchanged. -/
theorem discovery_round_then_reap (N w DISCOVER_TIMEOUT HZ : Nat) (hN : 0 < N) :
    (∀ (m : Mem) (ht0 ip0 : HashTable) (A B : Mac) (X j1 j2 j3 : Nat) (pA pB : Ptr),
      A ≠ B → X ≠ 0 → pA ≠ pB →
      ∃ s, run N w DISCOVER_TIMEOUT HZ
          [Op.insert_table A 1 j1 (some pA), Op.insert_table B 2 j2 (some pB),
           Op.insert_table_ip X (some pA), Op.update_table j3 [B] 1,
           Op.clean_suspended_entries] (init_world N m ht0 ip0) = some s ∧
        lookup_table N s.mem s.ht A = none ∧
        lookup_table_ip N s.mem s.ip_ht X = none ∧
        lookup_table N s.mem s.ht B = some pB ∧
        (s.mem.entry pB).domid = 2 ∧ (s.mem.entry pB).status = XENLOOP_STATUS_INIT ∧
        s.ht.count = 1 ∧ s.ip_ht.count = 0) ∧
    (∀ (jiffies : Nat) (m : Mem) (ht ip_ht : HashTable) (S : List Mac) (n : Int),
      WF N ht.table →
      (∀ p, linked N ht.table p → (m.entry p).status ≠ XENLOOP_STATUS_SUSPEND) →
      (∀ j, j < N →
        (clean_suspended_entries N (update_table N jiffies m ht S n).1
            (update_table N jiffies m ht S n).2 ip_ht).2.1.table j =
          (ht.table j).filter (fun p => decide ((m.entry p).mac ∈ S.take n.toNat))) ∧
      (∀ p, linked N (clean_suspended_entries N (update_table N jiffies m ht S n).1
            (update_table N jiffies m ht S n).2 ip_ht).2.1.table p ↔
          (linked N ht.table p ∧ (m.entry p).mac ∈ S.take n.toNat)) ∧
      (∀ p, linked N (clean_suspended_entries N (update_table N jiffies m ht S n).1
            (update_table N jiffies m ht S n).2 ip_ht).2.1.table p →
          ((clean_suspended_entries N (update_table N jiffies m ht S n).1
            (update_table N jiffies m ht S n).2 ip_ht).1.entry p).mac = (m.entry p).mac)) := by
  refine ⟨fun m ht0 ip0 A B X j1 j2 j3 pA pB hAB hX hp =>
    discovery_scenario N w DISCOVER_TIMEOUT HZ hN m ht0 ip0 A B X j1 j2 j3 pA pB hAB hX hp, ?_⟩
  intro jiffies m ht ip_ht S n hwf hns
  obtain ⟨hT, hF⟩ := update_then_reap_take N jiffies m ht ip_ht S n hwf hns
  have hL : ∀ p, linked N (clean_suspended_entries N (update_table N jiffies m ht S n).1
      (update_table N jiffies m ht S n).2 ip_ht).2.1.table p ↔
      (linked N ht.table p ∧ (m.entry p).mac ∈ S.take n.toNat) := by
    intro p
    constructor
    · rintro ⟨j, hj, hq⟩
      rw [hT j hj, List.mem_filter] at hq
      exact ⟨⟨j, hj, hq.1⟩, by simpa using hq.2⟩
    · rintro ⟨⟨j, hj, hq⟩, hS⟩
      refine ⟨j, hj, ?_⟩
      rw [hT j hj, List.mem_filter]
      exact ⟨hq, by simpa using hS⟩
  refine ⟨hT, hL, ?_⟩
  intro p hp
  have h := (hL p).1 hp
  have hm := same_but_ip_mac (hF p h.1 h.2)
  exact hm

/-- Witness for C12 with table size 4: the scenario with the sample addresses,
ip 5 and the slab objects 1 and 2; and the general part on `sample_reap_table`
with both entries Init, where a round reporting only `sample_mac_B` followed by
a reap leaves exactly entry 2 linked. -/
theorem discovery_round_then_reap_witness :
    (∃ s, run 4 64 1 1
        [Op.insert_table sample_mac_A 1 0 (some 1), Op.insert_table sample_mac_B 2 0 (some 2),
         Op.insert_table_ip 5 (some 1), Op.update_table 10 [sample_mac_B] 1,
         Op.clean_suspended_entries] (init_world 4 sample_mem empty_table empty_table) = some s ∧
      lookup_table 4 s.mem s.ht sample_mac_A = none ∧
      lookup_table_ip 4 s.mem s.ip_ht 5 = none ∧
      lookup_table 4 s.mem s.ht sample_mac_B = some 2 ∧
      (s.mem.entry 2).domid = 2 ∧ (s.mem.entry 2).status = XENLOOP_STATUS_INIT ∧
      s.ht.count = 1 ∧ s.ip_ht.count = 0) ∧
    WF 4 sample_reap_table.table ∧
    (∀ p, linked 4 sample_reap_table.table p →
      (sample_init_mem.entry p).status ≠ XENLOOP_STATUS_SUSPEND) ∧
    (∀ p, linked 4 (clean_suspended_entries 4
          (update_table 4 10 sample_init_mem sample_reap_table [sample_mac_B] 1).1
          (update_table 4 10 sample_init_mem sample_reap_table [sample_mac_B] 1).2
          sample_reap_table).2.1.table p ↔
        (linked 4 sample_reap_table.table p ∧
          (sample_init_mem.entry p).mac ∈ [sample_mac_B].take (1 : Int).toNat)) :=
  have hall : all_entries 4 sample_reap_table.table = [1, 2] := by decide
  have hns : ∀ p, linked 4 sample_reap_table.table p →
      (sample_init_mem.entry p).status ≠ XENLOOP_STATUS_SUSPEND := by
    intro p hp
    rw [← mem_all_entries, hall] at hp
    simp only [List.mem_cons, List.mem_singleton, List.not_mem_nil, or_false] at hp
    rcases hp with rfl | rfl
    · decide
    · decide
  ⟨(discovery_round_then_reap 4 64 1 1 (by decide)).1 sample_mem empty_table empty_table
      sample_mac_A sample_mac_B 5 0 0 10 1 2 (by decide) (by decide) (by decide),
    by decide, hns,
    ((discovery_round_then_reap 4 64 1 1 (by decide)).2 10 sample_init_mem sample_reap_table
      sample_reap_table [sample_mac_B] 1 (by decide) hns).2.1⟩

end XenLoop
